import Mathlib

/-!
# Carcassonne tile placement: backtracking search, local and global checkers

A shallow embedding of `Carcassonne title placement puzzles/main.cpp` and `board.h`.
Mutable state (the board, the location stack, the counter `temp_Solutions`) is passed
explicitly; a call that breaks the contract of `Board::getTile` (an index outside the grid)
yields `none`.
-/

namespace Carcassonne

/-! ## Data model -/

/-- Modelled from the spec: the terrain of a tile edge (`tile.h` is not part of the sources;
the source compares the strings "road", "city" and "pasture", which are exactly the legal
values of a terrain token). -/
inductive Terrain where
  | road
  | city
  | pasture
deriving DecidableEq, Repr

/-- Modelled from the spec: a tile, four terrains read by `getNorth`, `getEast`, `getSouth`,
`getWest`; the constructor argument order `Tile(north, east, south, west)` is the one used by
`ParseInputFile`. -/
structure Tile where
  north : Terrain
  east : Terrain
  south : Terrain
  west : Terrain
deriving DecidableEq, Repr

/-- Modelled from the spec: a placement record `Location(row, column, rotation)` with public
fields `row`, `column`, `rotation` (`location.h` is not part of the sources); `==` compares the
three fields. -/
structure Location where
  row : Nat
  column : Nat
  rotation : Nat
deriving DecidableEq, Repr

/-- The grid of `board.h`: `numRows` by `numColumns` cells, each `NULL` (`none`) or a tile. -/
structure Board where
  numRows : Nat
  numColumns : Nat
  cells : Nat → Nat → Option Tile

/-- Modelled from the spec: `Board::Board(i, j)`, all cells empty. -/
def Board.new (i j : Nat) : Board := ⟨i, j, fun _ _ => none⟩

/-- Modelled from the spec: `Board::getTile`, the tile at a cell or "empty"; an index outside
the grid is a contract violation, rendered as the outer `none`. -/
def Board.getTile (board : Board) (i j : Nat) : Option (Option Tile) :=
  if i < board.numRows ∧ j < board.numColumns then some (board.cells i j) else none

/-- Modelled from the spec: `Board::setTile`, places a tile in a cell without any legality
check. -/
def Board.setTile (board : Board) (i j : Nat) (t : Tile) : Board :=
  { board with cells := fun a b => if a = i ∧ b = j then some t else board.cells a b }

/-- Modelled from the spec: `Board::eraseTile`, clears one cell. -/
def Board.eraseTile (board : Board) (i j : Nat) : Board :=
  { board with cells := fun a b => if a = i ∧ b = j then none else board.cells a b }

/-- Modelled from the spec: `Board::clear`, resets every cell to empty. -/
def Board.clear (board : Board) : Board :=
  { board with cells := fun _ _ => none }

/-- The test `x == "road" || x == "city"`. -/
def isRoadOrCity (x : Terrain) : Bool := x == Terrain.road || x == Terrain.city

/-! ## Early exits

A checker is a sequence of statements each of which may `return false`. A statement is
rendered as an `Option Bool`: `some true` falls through to the next statement, `some false`
is `return false`, `none` is a contract violation. -/

/-- Run statements in order until one of them returns false or fails. -/
def runChecks : List (Option Bool) → Option Bool
  | [] => some true
  | none :: _ => none
  | some false :: _ => some false
  | some true :: rest => runChecks rest

/-- The block `if (g) { body }`. -/
def whenB (g : Bool) (body : Option Bool) : Option Bool := if g then body else some true

/-- The statement `if (cond) return false;`. -/
def failIf (cond : Bool) : Option Bool := some (!cond)

/-- The statement
`if (board.getTile(a,b) != NULL) { if (mine != board.getTile(a,b)->side()) return false; }`. -/
def matchIfPresent (board : Board) (a b : Nat) (mine : Terrain) (side : Tile → Terrain) :
    Option Bool :=
  match board.getTile a b with
  | none => none
  | some none => some true
  | some (some t) => failIf (mine != side t)

/-- The statement
`if (board.getTile(a,b) != NULL) { if (mine != board.getTile(a,b)->side()) return false; }
 else { if (otherwise) return false; }`. -/
def matchOrElse (board : Board) (a b : Nat) (mine : Terrain) (side : Tile → Terrain)
    (otherwise : Bool) : Option Bool :=
  match board.getTile a b with
  | none => none
  | some none => failIf otherwise
  | some (some t) => failIf (mine != side t)

/-- The statement `if (board.getTile(a,b) == NULL && mine != "pasture") return false;`. -/
def emptyNeedsPasture (board : Board) (a b : Nat) (mine : Terrain) : Option Bool :=
  match board.getTile a b with
  | none => none
  | some none => failIf (mine != Terrain.pasture)
  | some (some _) => some true

/-- The statement
`if (getTile(a1,b1) == NULL && getTile(a2,b2) == NULL && getTile(a3,b3) != NULL) return false;`
with the short-circuit evaluation order of `&&`. -/
def diagonalStep (board : Board) (a1 b1 a2 b2 a3 b3 : Nat) : Option Bool :=
  match board.getTile a1 b1 with
  | none => none
  | some (some _) => some true
  | some none =>
    match board.getTile a2 b2 with
    | none => none
    | some (some _) => some true
    | some none =>
      match board.getTile a3 b3 with
      | none => none
      | some none => some true
      | some (some _) => some false

/-! ## The global checker -/

/-- The body of the two loops of `Check_the_whole_board` for the cell `(i, j)`. -/
def Check_cell (board : Board) (i j : Nat) : Option Bool :=
  match board.getTile i j with
  | none => none
  | some none => some true
  | some (some t) =>
    let north := t.north
    let south := t.south
    let east := t.east
    let west := t.west
    runChecks [
      whenB (i == 0 && j == 0) (runChecks [
        failIf (west != Terrain.pasture || north != Terrain.pasture),
        matchOrElse board i (j + 1) east Tile.west (east == Terrain.road || east == Terrain.city),
        matchOrElse board (i + 1) j south Tile.north
          (south == Terrain.road || south == Terrain.road)]),
      whenB (i == 0 && decide (j > 0)) (runChecks [
        failIf (north == Terrain.road || north == Terrain.city),
        whenB (decide ((j : Int) < (board.numColumns : Int) - 1))
          (emptyNeedsPasture board 0 (j + 1) east),
        matchOrElse board i (j - 1) west Tile.east (west == Terrain.road || west == Terrain.city),
        matchOrElse board (i + 1) j south Tile.north
          (south == Terrain.road || south == Terrain.city)]),
      whenB (j == 0 && decide (i > 0)) (runChecks [
        failIf (west == Terrain.road || west == Terrain.city),
        whenB (decide ((i : Int) < (board.numRows : Int) - 1))
          (emptyNeedsPasture board (i + 1) 0 south),
        matchOrElse board (i - 1) j north Tile.south
          (north == Terrain.road || north == Terrain.city),
        matchOrElse board i (j + 1) east Tile.west (east == Terrain.road || east == Terrain.city)]),
      whenB (decide (i > 0) && decide (j > 0)) (runChecks [
        whenB (decide ((j : Int) < (board.numColumns : Int) - 1))
          (emptyNeedsPasture board i (j + 1) east),
        whenB (decide ((i : Int) < (board.numRows : Int) - 1))
          (emptyNeedsPasture board (i + 1) j south),
        matchOrElse board (i - 1) j north Tile.south
          (north == Terrain.road || north == Terrain.city),
        matchOrElse board i (j - 1) west Tile.east (west == Terrain.road || west == Terrain.city)]),
      whenB (decide (i > 0) && decide ((j : Int) < (board.numColumns : Int) - 1))
        (diagonalStep board (i - 1) j i (j + 1) (i - 1) (j + 1)),
      whenB (decide ((i : Int) < (board.numRows : Int) - 1) &&
          decide ((j : Int) < (board.numColumns : Int) - 1))
        (diagonalStep board i (j + 1) (i + 1) j (i + 1) (j + 1))]

/-- The cells of a grid in the order of the loops `for i ... for j ...` (row-major). -/
def cellOrder (rows cols : Nat) : List (Nat × Nat) :=
  (List.range rows).flatMap fun i => (List.range cols).map fun j => (i, j)

/-- The two loops of `Check_the_whole_board`: the legality test, without the counter. -/
def Check_all_cells (board : Board) : Option Bool :=
  runChecks ((cellOrder board.numRows board.numColumns).map fun c => Check_cell board c.1 c.2)

/-- `Check_the_whole_board(board, temp_Solutions, num_Solutions)`; the second component is the
value of `temp_Solutions` on return. -/
def Check_the_whole_board (board : Board) (temp_Solutions num_Solutions : Int) :
    Option (Bool × Int) :=
  match Check_all_cells board with
  | none => none
  | some false => some (false, temp_Solutions)
  | some true => some (decide (temp_Solutions + 1 > num_Solutions), temp_Solutions + 1)

/-! ## The local checker -/

/-- `Check_tile(board, tmp, i, j)`. -/
def Check_tile (board : Board) (tmp : Tile) (i j : Nat) : Option Bool :=
  let north := tmp.north
  let south := tmp.south
  let east := tmp.east
  let west := tmp.west
  runChecks [
    whenB (i == 0) (failIf (north == Terrain.road || north == Terrain.city)),
    whenB (j == 0) (failIf (west == Terrain.road || west == Terrain.city)),
    whenB (decide ((i : Int) = (board.numRows : Int) - 1))
      (failIf (south == Terrain.road || south == Terrain.city)),
    whenB (decide ((j : Int) = (board.numColumns : Int) - 1))
      (failIf (east == Terrain.road || east == Terrain.city)),
    whenB (j == 0 && decide (i > 0)) (runChecks [
      matchIfPresent board (i - 1) 0 north Tile.south,
      whenB (decide ((i : Int) < (board.numRows : Int) - 1))
        (matchIfPresent board (i + 1) 0 south Tile.north),
      matchIfPresent board i (j + 1) east Tile.west]),
    whenB (i == 0 && decide (j > 0)) (runChecks [
      matchIfPresent board 0 (j - 1) west Tile.east,
      whenB (decide ((j : Int) < (board.numColumns : Int) - 1))
        (matchIfPresent board 0 (j + 1) east Tile.west),
      matchIfPresent board (i + 1) j south Tile.north]),
    whenB (decide (i > 0) && decide (j > 0)) (runChecks [
      matchIfPresent board (i - 1) j north Tile.south,
      matchIfPresent board i (j - 1) west Tile.east,
      whenB (decide ((i : Int) < (board.numRows : Int) - 1))
        (matchIfPresent board (i + 1) j south Tile.north),
      whenB (decide ((j : Int) < (board.numColumns : Int) - 1))
        (matchIfPresent board i (j + 1) east Tile.west)])]

/-! ## The search engine -/

/-- The tile `tmp` that `Can_place` builds for the loop value `n`: the input tile for `n == 0`,
`Tile(west, north, east, south)` for `n == 1`, `Tile(south, west, north, east)` for `n == 2`,
`Tile(east, south, west, north)` for `n == 3`. The loop never reaches another `n`. -/
def rotatedTile (t : Tile) : Nat → Tile
  | 0 => t
  | 1 => ⟨t.west, t.north, t.east, t.south⟩
  | 2 => ⟨t.south, t.west, t.north, t.east⟩
  | _ => ⟨t.east, t.south, t.west, t.north⟩

/-- The mutable state that `Can_place` receives by reference. -/
structure SearchState where
  board : Board
  locations : List Location
  temp_Solutions : Int

/-- The values of `(i, j, n)` in the order of the three loops of `Can_place`. -/
def scanOrder (rows cols m : Nat) : List (Nat × Nat × Nat) :=
  (List.range rows).flatMap fun i =>
    (List.range cols).flatMap fun j => (List.range m).map fun n => (i, j, n)

/-- The three nested loops of `Can_place` over the remaining values of `(i, j, n)`; `recurse`
is the recursive call `Can_place(board, tiles, locations, index + 1, ...)`. The result is the
returned boolean and the state on return. -/
def Can_place_loop (recurse : SearchState → Option (Bool × SearchState)) (tile : Tile) :
    List (Nat × Nat × Nat) → SearchState → Option (Bool × SearchState)
  | [], s => some (false, s)
  | (i, j, n) :: rest, s =>
    match s.board.getTile i j with
    | none => none
    | some (some _) => Can_place_loop recurse tile rest s
    | some none =>
      match Check_tile s.board (rotatedTile tile n) i j with
      | none => none
      | some false => Can_place_loop recurse tile rest s
      | some true =>
        match recurse ⟨s.board.setTile i j (rotatedTile tile n),
            s.locations ++ [⟨i, j, 90 * n⟩], s.temp_Solutions⟩ with
        | none => none
        | some (true, s1) => some (true, s1)
        | some (false, s1) =>
          Can_place_loop recurse tile rest
            ⟨s1.board.eraseTile i j, s1.locations.dropLast, s1.temp_Solutions⟩

/-- `Can_place` with an explicit bound on the recursion depth; `none` when a contract is
violated (or the bound is too small, which `Can_place` below excludes). -/
def Can_place_fuel : Nat → Board → List Tile → List Location → Nat → Bool → Int → Int →
    Option (Bool × SearchState)
  | fuel, board, tiles, locations, index, allow_rotations, temp_Solutions, num_Solutions =>
    if index = tiles.length then
      match Check_the_whole_board board temp_Solutions num_Solutions with
      | none => none
      | some (r, t) => some (r, ⟨board, locations, t⟩)
    else
      match fuel with
      | 0 => none
      | fuel + 1 =>
        match tiles[index]? with
        | none => none
        | some tile =>
          let m := if !allow_rotations then 1 else 4
          Can_place_loop
            (fun s => Can_place_fuel fuel s.board tiles s.locations (index + 1) allow_rotations
              s.temp_Solutions num_Solutions)
            tile (scanOrder board.numRows board.numColumns m) ⟨board, locations, temp_Solutions⟩

/-- `Can_place(board, tiles, locations, index, allow_rotations, temp_Solutions, num_Solutions)`:
the recursion depth is at most the number of tiles still to place. -/
def Can_place (board : Board) (tiles : List Tile) (locations : List Location) (index : Nat)
    (allow_rotations : Bool) (temp_Solutions num_Solutions : Int) : Option (Bool × SearchState) :=
  Can_place_fuel (tiles.length - index) board tiles locations index allow_rotations
    temp_Solutions num_Solutions


/-! ## The all-solutions loop of `main` -/

/-- The test of lines 481-484: tiles `a` and `b` show the same terrain on all four edges. -/
def sameEdges (a b : Tile) : Bool :=
  a.north == b.north && a.south == b.south && a.east == b.east && a.west == b.west

/-- The differences `(column, row, rotation)` between two Locations, as `main` computes them
for `D_col`, `D_rows`, `D_t`. -/
def locationDiff (l r : Location) : Int × Int × Int :=
  ((l.column : Int) - (r.column : Int), (l.row : Int) - (r.row : Int),
    (l.rotation : Int) - (r.rotation : Int))

/-- The loops of lines 453-459: the number of pairs `(i, j)` of tile indices with
`Results[m][i] == locations[j]`. An index outside a vector is `none`. -/
def countEqualPairs (n : Nat) (R locations : List Location) : Option Nat :=
  (List.range n).foldlM (fun count i =>
    (List.range n).foldlM (fun count j =>
      match R[i]?, locations[j]? with
      | some r, some l => some (if r = l then count + 1 else count)
      | _, _ => none) count) 0

/-- The inner loop of lines 479-492 for the tile index `n`, the Result entry `r` of that tile
and the recorded difference `D`. -/
def countInterchangeable (tiles : List Tile) (locations : List Location) (n : Nat)
    (r : Location) (D : Int × Int × Int) (count : Nat) : Option Nat :=
  (List.range tiles.length).foldlM (fun count i =>
    match tiles[i]?, tiles[n]? with
    | some ti, some tn =>
      if n ≠ i ∧ sameEdges ti tn = true then
        match locations[i]? with
        | some li => some (if D = locationDiff li r then count + 1 else count)
        | none => none
      else some count
    | _, _ => none) count

/-- The loop of lines 463-494: `count` after comparing `locations` with the Result `R` up to
the difference recorded at tile 0. -/
def countOffsetMatches (tiles : List Tile) (R locations : List Location) : Option Nat :=
  ((List.range tiles.length).foldlM (fun (st : (Int × Int × Int) × Nat) n =>
    match locations[n]?, R[n]? with
    | some l, some r =>
      let D := if n = 0 then locationDiff l r else st.1
      if D = locationDiff l r then some (D, st.2 + 1)
      else (countInterchangeable tiles locations n r D st.2).map fun c => (D, c)
    | _, _ => none) ((0, 0, 0), 0)).map Prod.snd

/-- The loop over `m` of lines 447-499 with its two `break`s: the value of `count` when the
loop is left. -/
def duplicateLoop (tiles : List Tile) (Results : List (List Location))
    (locations : List Location) : List Nat → Nat → Option Nat
  | [], count => some count
  | m :: ms, _ =>
    match Results[m]? with
    | none => none
    | some R =>
      match countEqualPairs tiles.length R locations with
      | none => none
      | some c1 =>
        if c1 = tiles.length then some c1
        else
          match countOffsetMatches tiles R locations with
          | none => none
          | some c2 => if c2 = tiles.length then some c2 else duplicateLoop tiles Results locations ms c2

/-- Lines 445-500: the value of `count` tested by `if (count != tiles.size())`. -/
def duplicateCount (tiles : List Tile) (total_Solutions : Nat) (Results : List (List Location))
    (locations : List Location) : Option Nat :=
  if total_Solutions ≠ 0 then
    duplicateLoop tiles Results locations (List.range total_Solutions) 0
  else some 0

/-- The variables of `main` that the all-solutions loop updates. -/
structure MainState where
  search : SearchState
  num_Solutions : Int
  total_Solutions : Nat
  Results : List (List Location)

/-- The loop `while (!Break_out)` of lines 443-525, with a bound on the number of iterations;
the result is the state when `Break_out` is set. -/
def all_solutions_loop (tiles : List Tile) (allow_rotations : Bool) :
    Nat → MainState → Option MainState
  | 0, _ => none
  | fuel + 1, st =>
    match Can_place st.search.board tiles st.search.locations 0 allow_rotations
        st.search.temp_Solutions st.num_Solutions with
    | none => none
    | some (false, _) => some st
    | some (true, s) =>
      match duplicateCount tiles st.total_Solutions st.Results s.locations with
      | none => none
      | some count =>
        all_solutions_loop tiles allow_rotations fuel
          { search := ⟨s.board.clear, [], 0⟩
            num_Solutions := st.num_Solutions + 1
            total_Solutions := if count ≠ tiles.length then st.total_Solutions + 1
              else st.total_Solutions
            Results := if count ≠ tiles.length then st.Results ++ [s.locations]
              else st.Results }

/-- What a run of `main` reports. -/
inductive Outcome where
  /-- The error message and `usage`, which exits. -/
  | usage
  /-- The line `Solution: ...` of the single-solution branch. -/
  | solution (locations : List Location)
  /-- The line `No Solution.` -/
  | noSolution
  /-- The printed solutions and the line `Found n Solution(s).` -/
  | found (total_Solutions : Nat) (Results : List (List Location))
deriving DecidableEq, Repr

/-- The body of `main` after the command line and the tile file have been read (lines 401-528),
for the requested `rows` and `columns`; `fuel` bounds the iterations of the all-solutions
loop. -/
def main_search (rows columns : Int) (tiles : List Tile) (all_solutions allow_rotations : Bool)
    (fuel : Nat) : Option Outcome :=
  if rows < 1 ∨ columns < 1 ∨ rows * columns < (tiles.length : Int) then some Outcome.usage
  else
    let big := decide (rows + columns > (tiles.length : Int))
    let rows1 : Int := if big then ((tiles.length / 2 : Nat) : Int) else rows
    let columns1 : Int := if big then ((tiles.length / 2 : Nat) : Int) else columns
    let board := Board.new rows1.toNat columns1.toNat
    if !all_solutions && !allow_rotations then
      match Can_place board tiles [] 0 allow_rotations 0 0 with
      | none => none
      | some (true, s) => some (Outcome.solution s.locations)
      | some (false, _) => some Outcome.noSolution
    else
      match all_solutions_loop tiles allow_rotations fuel ⟨⟨board, [], 0⟩, 0, 0, []⟩ with
      | none => none
      | some st =>
        if st.num_Solutions = 0 then some Outcome.noSolution
        else some (Outcome.found st.total_Solutions st.Results)

/-! ## Notions used in the statements -/

/-- The boundary rule for a tile `t` in cell `(i, j)`: no road or city edge faces outside the
board. -/
def boundaryRule (board : Board) (t : Tile) (i j : Nat) : Prop :=
  (i = 0 → isRoadOrCity t.north = false) ∧
  (j = 0 → isRoadOrCity t.west = false) ∧
  (i + 1 = board.numRows → isRoadOrCity t.south = false) ∧
  (j + 1 = board.numColumns → isRoadOrCity t.east = false)

/-- Every pair of orthogonally adjacent occupied cells has equal touching edges. -/
def Board.edgesMatch (board : Board) : Prop :=
  (∀ i j a b, i < board.numRows → j + 1 < board.numColumns →
    board.cells i j = some a → board.cells i (j + 1) = some b → a.east = b.west) ∧
  (∀ i j a b, i + 1 < board.numRows → j < board.numColumns →
    board.cells i j = some a → board.cells (i + 1) j = some b → a.south = b.north)

/-- The board obtained by placing, for each `k`, tile `k` rotated by the rotation of the `k`-th
Location in the cell of that Location. -/
def placeAll (board : Board) : List Tile → List Location → Board
  | t :: ts, l :: ls =>
    placeAll (board.setTile l.row l.column (rotatedTile t (l.rotation / 90))) ts ls
  | _, _ => board

/-- A recursive call restores the board and the location stack when it returns false, and
leaves `temp_Solutions` alone when it was already at least `num_Solutions`. -/
def RestoresOnFalse (num_Solutions : Int)
    (recurse : SearchState → Option (Bool × SearchState)) : Prop :=
  ∀ s s1, recurse s = some (false, s1) →
    s1.board = s.board ∧ s1.locations = s.locations ∧
      (num_Solutions ≤ s.temp_Solutions → s1.temp_Solutions = s.temp_Solutions)

instance (board : Board) (t : Tile) (i j : Nat) : Decidable (boundaryRule board t i j) := by
  unfold boundaryRule
  infer_instance

/-- Every tile on the board obeys the boundary rule, on a board of the given size. -/
def BoundaryInv (rows cols : Nat) (b : Board) : Prop :=
  b.numRows = rows ∧ b.numColumns = cols ∧
    ∀ i j t, b.getTile i j = some (some t) → boundaryRule b t i j

/-- The invariant behind the shape of a Solution: the location stack lists, in input order, the
cells and rotations of the tiles placed so far, and the board holds exactly those tiles. -/
def ShapeInv (rows cols : Nat) (tiles : List Tile) (m : Nat) (index : Nat) (b : Board)
    (l : List Location) : Prop :=
  b.numRows = rows ∧ b.numColumns = cols ∧ l.length = index ∧
  (∀ k tile, k < index → tiles[k]? = some tile → ∃ loc n, l[k]? = some loc ∧ n < m ∧
    loc.rotation = 90 * n ∧ b.getTile loc.row loc.column = some (some (rotatedTile tile n))) ∧
  (∀ loc ∈ l, b.cells loc.row loc.column ≠ none) ∧
  (∀ i j, b.cells i j ≠ none → ∃ loc ∈ l, loc.row = i ∧ loc.column = j) ∧
  l.Pairwise (fun a c => ¬ (a.row = c.row ∧ a.column = c.column))

/-! ## Concrete tiles, boards and runs -/

/-- A tile with pasture on all four edges. -/
def tilePasture : Tile := ⟨Terrain.pasture, Terrain.pasture, Terrain.pasture, Terrain.pasture⟩

/-- A tile with a road on its east edge. -/
def tileRoadEast : Tile := ⟨Terrain.pasture, Terrain.road, Terrain.pasture, Terrain.pasture⟩

/-- A tile with a road on its west edge. -/
def tileRoadWest : Tile := ⟨Terrain.pasture, Terrain.pasture, Terrain.pasture, Terrain.road⟩

/-- A tile with a city on its south edge. -/
def tileCitySouth : Tile := ⟨Terrain.pasture, Terrain.pasture, Terrain.city, Terrain.pasture⟩

/-- Two tiles whose roads meet when the first lies west of the second. -/
def twoRoadTiles : List Tile := [tileRoadEast, tileRoadWest]

/-- The state in which the search for `twoRoadTiles` on a 2 by 2 board returns. -/
def twoRoadSolved : SearchState :=
  ⟨((Board.new 2 2).setTile 0 0 tileRoadEast).setTile 0 1 tileRoadWest,
    [⟨0, 0, 0⟩, ⟨0, 1, 0⟩], 1⟩

/-- The state in which the search for the single tile `tileCitySouth` on a 2 by 2 board
returns. -/
def citySouthSolved : SearchState :=
  ⟨(Board.new 2 2).setTile 0 0 tileCitySouth, [⟨0, 0, 0⟩], 1⟩

/-- A 2 by 2 board whose only tile, in cell (0, 1), has a road on its west edge. -/
def boardRoadAtEast : Board := (Board.new 2 2).setTile 0 1 tileRoadWest

/-- A full 2 by 2 board of pasture tiles, except that the tile in cell (1, 1) shows a road to
the east, towards the boundary. -/
def boardRoadOut : Board :=
  ⟨2, 2, fun a b => if a = 1 ∧ b = 1 then some tileRoadEast else some tilePasture⟩

/-- A full 2 by 2 board of pasture tiles. -/
def boardAllPasture : Board := ⟨2, 2, fun _ _ => some tilePasture⟩

/-! ## Further notions for the rotations, the geometry test and the duplicate test -/

/-- The single rotation by 90 degrees in the words of the data model: (N, E, S, W) becomes
(W, N, E, S), the terrain of the west edge becomes the new north edge. -/
def rotateOnce (t : Tile) : Tile := ⟨t.west, t.north, t.east, t.south⟩

/-- Lines 401-416 of `main`: the Board that `main` constructs and passes to `Can_place` for the
requested `rows` and `columns`, or `none` when `usage` exits before that. -/
def main_board (rows columns : Int) (tiles : List Tile) : Option Board :=
  if rows < 1 ∨ columns < 1 ∨ rows * columns < (tiles.length : Int) then none
  else
    let big := decide (rows + columns > (tiles.length : Int))
    let rows1 : Int := if big then ((tiles.length / 2 : Nat) : Int) else rows
    let columns1 : Int := if big then ((tiles.length / 2 : Nat) : Int) else columns
    some (Board.new rows1.toNat columns1.toNat)

/-- Step 1 of the duplicate test as `main` codes it (lines 453-460): `count == tiles.size()`
after the two loops over `i` and `j`. -/
def step1Duplicate (tiles : List Tile) (R S : List Location) : Prop :=
  countEqualPairs tiles.length R S = some tiles.length

instance (tiles : List Tile) (R S : List Location) : Decidable (step1Duplicate tiles R S) := by
  unfold step1Duplicate
  infer_instance

/-- Step 2 of the duplicate test as `main` codes it (lines 463-498): `count == tiles.size()`
after the loop over `n`. -/
def step2Duplicate (tiles : List Tile) (R S : List Location) : Prop :=
  countOffsetMatches tiles R S = some tiles.length

instance (tiles : List Tile) (R S : List Location) : Decidable (step2Duplicate tiles R S) := by
  unfold step2Duplicate
  infer_instance

/-- The duplicate test of the new Solution `S` against the accepted Result `R`: one of the two
`break`s of the loop over `m` is taken. -/
def isDuplicateOf (tiles : List Tile) (R S : List Location) : Prop :=
  step1Duplicate tiles R S ∨ step2Duplicate tiles R S

instance (tiles : List Tile) (R S : List Location) : Decidable (isDuplicateOf tiles R S) := by
  unfold isDuplicateOf
  infer_instance

/-- The Location used when a vector is read outside its range in the statements below; the
statements only read inside. -/
def noLocation : Location := ⟨0, 0, 0⟩

/-- Step 1 in the words of the specification: for every tile index `n` the Location of tile
`n` in `S` equals the Location of tile `n` in `R`. -/
def exactMatchSpec (tiles : List Tile) (R S : List Location) : Prop :=
  ∀ n, n < tiles.length → S.getD n noLocation = R.getD n noLocation

/-- The offset `D` of step 2: the difference between the Locations of tile 0 in `S` and in
`R`. -/
def firstOffset (R S : List Location) : Int × Int × Int :=
  locationDiff (S.getD 0 noLocation) (R.getD 0 noLocation)

/-- Step 2 in the words of the specification: for every tile index `n`, either the offset
between the Locations of tile `n` in `S` and in `R` is `D`, or another tile `i` with the same
four edge terrains as tile `n` exists such that the offset between the Location of tile `n` in
`S` and the Location of tile `i` in `R` is `D`. -/
def offsetDuplicateSpec (tiles : List Tile) (R S : List Location) : Prop :=
  ∀ n, n < tiles.length →
    locationDiff (S.getD n noLocation) (R.getD n noLocation) = firstOffset R S ∨
    ∃ i, i < tiles.length ∧ i ≠ n ∧
      sameEdges (tiles.getD i tilePasture) (tiles.getD n tilePasture) = true ∧
      locationDiff (S.getD n noLocation) (R.getD i noLocation) = firstOffset R S

/-- What the pass of the loop of step 2 for the tile index `n` adds to `count`: 1 when the
offset of tile `n` is `D`, otherwise the number of other tiles `i` with the edges of tile `n`
for which `D == locations[i] - Results[m][n]`. -/
def offsetContribution (tiles : List Tile) (R S : List Location) (n : Nat) : Nat :=
  if firstOffset R S = locationDiff (S.getD n noLocation) (R.getD n noLocation) then 1
  else (List.range tiles.length).countP fun i =>
    decide (n ≠ i ∧ sameEdges (tiles.getD i tilePasture) (tiles.getD n tilePasture) = true ∧
      firstOffset R S = locationDiff (S.getD i noLocation) (R.getD n noLocation))

/-- One pass through the body of the loop `while (!Break_out)` (lines 444-524): `none` for a
contract violation, `some none` when `Break_out` is set, otherwise the state at the end of the
pass. -/
def all_solutions_step (tiles : List Tile) (allow_rotations : Bool) (st : MainState) :
    Option (Option MainState) :=
  match Can_place st.search.board tiles st.search.locations 0 allow_rotations
      st.search.temp_Solutions st.num_Solutions with
  | none => none
  | some (false, _) => some none
  | some (true, s) =>
    match duplicateCount tiles st.total_Solutions st.Results s.locations with
    | none => none
    | some count =>
      some (some
        { search := ⟨s.board.clear, [], 0⟩
          num_Solutions := st.num_Solutions + 1
          total_Solutions := if count ≠ tiles.length then st.total_Solutions + 1
            else st.total_Solutions
          Results := if count ≠ tiles.length then st.Results ++ [s.locations]
            else st.Results })

/-- The state of `main` at the head of a pass of the all-solutions loop: the board is empty,
the location stack is empty, `temp_Solutions` is 0, `total_Solutions` is the size of `Results`,
every Result has one Location per tile, and no Result is a duplicate of an earlier one. -/
def LoopInv (rows cols : Nat) (tiles : List Tile) (st : MainState) : Prop :=
  st.search.board = Board.new rows cols ∧ st.search.locations = [] ∧
  st.search.temp_Solutions = 0 ∧ st.total_Solutions = st.Results.length ∧
  (∀ X ∈ st.Results, X.length = tiles.length) ∧
  st.Results.Pairwise (fun R S => ¬ isDuplicateOf tiles R S)

/-! ## Further concrete tiles -/

/-- Tile A of the examples: a city on its north edge. -/
def tileCityNorth : Tile := ⟨Terrain.city, Terrain.pasture, Terrain.pasture, Terrain.pasture⟩

/-- Tile B of the examples: a city on its west edge. -/
def tileCityWest : Tile := ⟨Terrain.pasture, Terrain.pasture, Terrain.pasture, Terrain.city⟩

/-- A tile with a road on its north edge. -/
def tileRoadNorth : Tile := ⟨Terrain.road, Terrain.pasture, Terrain.pasture, Terrain.pasture⟩

/-- Two Locations side by side in row 0. -/
def locationsLeftRight : List Location := [⟨0, 0, 0⟩, ⟨0, 1, 0⟩]

/-- The Locations of `locationsLeftRight` in the other order. -/
def locationsRightLeft : List Location := [⟨0, 1, 0⟩, ⟨0, 0, 0⟩]

/-! ## Notions and concrete data for backtracking, the diagonal rule and the enumeration -/

/-- A tile with a road on all four edges; no cell of a 2 by 2 board can take it. -/
def tileCrossRoads : Tile := ⟨Terrain.road, Terrain.road, Terrain.road, Terrain.road⟩

/-- A 2 by 2 board with a pasture tile in cell (0, 0). -/
def boardOnePasture : Board := (Board.new 2 2).setTile 0 0 tilePasture

/-- A 2 by 2 board with pasture tiles in the cells (0, 0) and (1, 1), which touch only at a
corner. -/
def boardDiagonal : Board := ((Board.new 2 2).setTile 0 0 tilePasture).setTile 1 1 tilePasture

/-- A 2 by 2 board with pasture tiles in the cells (0, 1) and (1, 0), which touch only at a
corner. -/
def boardAntiDiagonal : Board :=
  ((Board.new 2 2).setTile 0 1 tilePasture).setTile 1 0 tilePasture

/-- A legal complete placement of all tiles on the empty `rows` by `cols` board: one Location
per tile, inside the board, with one of the four rotations, in pairwise distinct cells, no road
or city edge facing the boundary, and the board with all tiles placed passes the legality test
of `Check_the_whole_board`. -/
def LegalPlacement (rows cols : Nat) (tiles : List Tile) (sol : List Location) : Prop :=
  sol.length = tiles.length ∧
  (∀ loc ∈ sol, loc.row < rows ∧ loc.column < cols ∧
    (loc.rotation = 0 ∨ loc.rotation = 90 ∨ loc.rotation = 180 ∨ loc.rotation = 270)) ∧
  sol.Pairwise (fun a c => ¬ (a.row = c.row ∧ a.column = c.column)) ∧
  (∀ p ∈ tiles.zip sol,
    boundaryRule (Board.new rows cols) (rotatedTile p.1 (p.2.rotation / 90)) p.2.row p.2.column) ∧
  Check_all_cells (placeAll (Board.new rows cols) tiles sol) = some true

/-- The condition that the code of step 2 requires of every tile index `n` (lines 470-491):
the offset of tile `n` is `D`, or `D == locations[i] - Results[m][n]` for another tile `i` with
the edges of tile `n`. -/
def offsetCodeCondition (tiles : List Tile) (R S : List Location) : Prop :=
  ∀ n, n < tiles.length →
    (locationDiff (S.getD n noLocation) (R.getD n noLocation) = firstOffset R S ∨
      ∃ i, i < tiles.length ∧ i ≠ n ∧
        sameEdges (tiles.getD i tilePasture) (tiles.getD n tilePasture) = true ∧
        locationDiff (S.getD i noLocation) (R.getD n noLocation) = firstOffset R S)

/-! ## The enumeration of the valid placements -/

/-- The order in which `Can_place` tries the Locations of one tile: the cell in row-major
order, then the rotation. -/
def locationLt (a b : Location) : Prop :=
  a.row < b.row ∨ (a.row = b.row ∧ a.column < b.column) ∨
    (a.row = b.row ∧ a.column = b.column ∧ a.rotation < b.rotation)

/-- The lexicographic order on placements: by the Location of tile 0, then the Location of
tile 1, and so on. -/
def placementLt : List Location → List Location → Prop
  | a :: l, b :: r => locationLt a b ∨ (a = b ∧ placementLt l r)
  | _, _ => False

/-- A valid placement of the tiles `ts` on `board`, with `m` rotations to choose from: every
tile in turn is put on an empty cell of the board, in a rotation in which it passes
`Check_tile` at that moment, and the final board passes the legality test of
`Check_the_whole_board`. -/
def ValidPlacement (m : Nat) : Board → List Tile → List Location → Prop
  | board, [], [] => Check_all_cells board = some true
  | board, t :: ts, l :: ls =>
    l.row < board.numRows ∧ l.column < board.numColumns ∧
    (∃ n, n < m ∧ l.rotation = 90 * n) ∧
    board.cells l.row l.column = none ∧
    Check_tile board (rotatedTile t (l.rotation / 90)) l.row l.column = some true ∧
    ValidPlacement m (board.setTile l.row l.column (rotatedTile t (l.rotation / 90))) ts ls
  | _, _, _ => False

/-- The valid placements of the tiles `ts` on `board`, listed in lexicographic order: for the
first tile the cells in row-major order and for each cell the rotations in increasing order,
and behind each choice that is valid so far the valid placements of the remaining tiles. -/
def validPlacements (m : Nat) : Board → List Tile → List (List Location)
  | board, [] => if Check_all_cells board = some true then [[]] else []
  | board, t :: ts =>
    (scanOrder board.numRows board.numColumns m).flatMap fun x =>
      if board.cells x.1 x.2.1 = none ∧
          Check_tile board (rotatedTile t x.2.2) x.1 x.2.1 = some true then
        (validPlacements m (board.setTile x.1 x.2.1 (rotatedTile t x.2.2)) ts).map
          fun ls => ⟨x.1, x.2.1, 90 * x.2.2⟩ :: ls
      else []

/-- What a search returns that counts the placements of the list `V` one by one, starting
with the counter at `temp_Solutions`, and stops at the first one that brings the counter above
`num_Solutions`: true with that placement on the board and on the location stack, or false
with the board and the stack as on entry when `V` is exhausted. -/
def searchResult (board : Board) (ts : List Tile) (locations : List Location)
    (temp_Solutions num_Solutions : Int) (V : List (List Location)) :
    Option (Bool × SearchState) :=
  match V[(num_Solutions - temp_Solutions).toNat]? with
  | some ls =>
    some (true, ⟨placeAll board ts ls, locations ++ ls,
      temp_Solutions + ((num_Solutions - temp_Solutions).toNat : Int) + 1⟩)
  | none => some (false, ⟨board, locations, temp_Solutions + (V.length : Int)⟩)

/-- The state of `main` at the head of pass `k` of the all-solutions loop (passes are counted
from 0), or `none` when the loop is left before that pass. -/
def stateAtPass (tiles : List Tile) (allow_rotations : Bool) (st : MainState) :
    Nat → Option MainState
  | 0 => some st
  | k + 1 =>
    match stateAtPass tiles allow_rotations st k with
    | none => none
    | some st1 =>
      match all_solutions_step tiles allow_rotations st1 with
      | some (some st2) => some st2
      | _ => none

/-! ## Solutions and the boards they produce -/

/-- No tile of the list looks like itself or like another tile of the list after a rotation:
two rotated tiles of the list show the same four terrains only when they are equal tiles in the
same rotation. -/
def Rigid (tiles : List Tile) : Prop :=
  ∀ t ∈ tiles, ∀ u ∈ tiles, ∀ n, n < 4 → ∀ k, k < 4 →
    rotatedTile t n = rotatedTile u k → t = u ∧ n = k

instance (tiles : List Tile) : Decidable (Rigid tiles) := by
  unfold Rigid
  infer_instance

/-- The shape of a Solution that `Can_place` returns: pairwise distinct cells, and every
rotation one of 0, 90, 180, 270. -/
def WellShaped (X : List Location) : Prop :=
  X.Pairwise (fun a c => ¬ (a.row = c.row ∧ a.column = c.column)) ∧
  ∀ loc ∈ X, ∃ n, n < 4 ∧ loc.rotation = 90 * n

/-- Four pasture tiles. -/
def fourPastures : List Tile := [tilePasture, tilePasture, tilePasture, tilePasture]

/-- The four tiles in the four cells of a 2 by 2 board, none of them rotated. -/
def solutionUpright : List Location := [⟨0, 0, 0⟩, ⟨0, 1, 0⟩, ⟨1, 0, 0⟩, ⟨1, 1, 0⟩]

/-- The Solution `solutionUpright` with the last tile rotated by 90 degrees. -/
def solutionTurned : List Location := [⟨0, 0, 0⟩, ⟨0, 1, 0⟩, ⟨1, 0, 0⟩, ⟨1, 1, 90⟩]

/-- A tile with a road on its west edge and a city on its south edge. -/
def tileRoadWestCitySouth : Tile :=
  ⟨Terrain.pasture, Terrain.pasture, Terrain.city, Terrain.road⟩

/-- Three tiles that fit in the shape of an L: a road joins the first two, a city the last
two. -/
def threeTiles : List Tile := [tileRoadEast, tileRoadWestCitySouth, tileCityNorth]

/-! ## The acceptance rule of the all-solutions loop -/

/-- Lines 445-511 of `main` for one Solution `locations` that `Can_place` has found: the
duplicate test against the accepted `Results` (with `total_Solutions` their number) and the
`push_back` when `count != tiles.size()`. The value is the vector `Results` afterwards. -/
def accept_step (tiles : List Tile) (Results : List (List Location))
    (locations : List Location) : Option (List (List Location)) :=
  match duplicateCount tiles Results.length Results locations with
  | none => none
  | some count => some (if count ≠ tiles.length then Results ++ [locations] else Results)

/-- The vector `Results` after the Solutions of `found` have been put to the test of `main`
one after the other, in the order of the list, starting with no Result. -/
def acceptedResults (tiles : List Tile) (found : List (List Location)) :
    Option (List (List Location)) :=
  found.foldlM (accept_step tiles) []

/-- Two Locations side by side in row 1, the right one first. -/
def locationsLowerRightLeft : List Location := [⟨1, 1, 0⟩, ⟨1, 0, 0⟩]

end Carcassonne

/-!
# Honeycomb word search: the Lexicon

A shallow embedding of the Lexicon of `Honeycomb Word Search puzzle/main.c`: a hashtable of
`nbuckets` buckets, each the head of a linked list of cells, one cell per stored word.
-/

namespace Honeycomb

/-- A C string without its terminating NUL: the values of its `char`s, in order. -/
abbrev Word := List Int

/-- The largest value of an `int`. -/
def INT_MAX : Nat := 2 ^ 31 - 1

/-- The variable `hashcode` of `hash` after the loop over the characters of `s`: unsigned
64-bit arithmetic, so every update is taken modulo `2 ^ 64`. -/
def hashcode (s : Word) : Int :=
  s.foldl (fun hashcode c => (hashcode * 2630849305 + c) % 2 ^ 64) 0

/-- `hash(s, nbuckets)`: `hashcode % nbuckets`. -/
def hash (s : Word) (nbuckets : Nat) : Nat :=
  (hashcode s % (nbuckets : Int)).toNat

/-- The struct `lexicon`: the two `int` fields, which never hold a negative value, and the
array `hashtable`, bucket `i` being the words of the cells of its linked list from the base
pointer on (the empty list for `NULL`). -/
structure Lexicon where
  nentries : Nat
  nbuckets : Nat
  hashtable : Nat → List Word

/-- `get_cell(lex, word)`: the first cell of the bucket hashed to by `word` whose word compares
equal (`strcmp(...) == 0`), or `none` for `NULL`. -/
def get_cell (lex : Lexicon) (word : Word) : Option Word :=
  (lex.hashtable (hash word lex.nbuckets)).find? fun w => w == word

/-- `link_cell(hashtable, nbuckets, cell)`: the cell becomes the bucket when the bucket is
empty and is linked behind the last cell of the bucket otherwise. -/
def link_cell (hashtable : Nat → List Word) (nbuckets : Nat) (cell : Word) : Nat → List Word :=
  let hashcode := hash cell nbuckets
  if (hashtable hashcode).isEmpty then
    fun b => if b = hashcode then [cell] else hashtable b
  else
    fun b => if b = hashcode then hashtable hashcode ++ [cell] else hashtable b

/-- The two loops of `check_rehash`: every cell of every bucket of the old table, in order, is
linked into the new table of `newsize` buckets, which `calloc` has filled with `NULL`. -/
def rehash_table (lex : Lexicon) (newsize : Nat) : Nat → List Word :=
  (List.range lex.nbuckets).foldl
    (fun newtable i => (lex.hashtable i).foldl (fun tbl cur => link_cell tbl newsize cur) newtable)
    (fun _ => [])

/-- `check_rehash(lex)`. The test `(double) nentries / (double) nbuckets > 1.5` is rendered
as `2 * nentries > 3 * nbuckets`, which is the same test for positive `nbuckets` since both
fields convert to `double` exactly; `none` when `nbuckets * 3 + 1` overflows `int`. -/
def check_rehash (lex : Lexicon) : Option Lexicon :=
  if 2 * lex.nentries > 3 * lex.nbuckets then
    let newsize := lex.nbuckets * 3 + 1
    if newsize > INT_MAX then none
    else some ⟨lex.nentries, newsize, rehash_table lex newsize⟩
  else some lex

/-- `lex_contains(lex, word)`. -/
def lex_contains (lex : Lexicon) (word : Word) : Bool := (get_cell lex word).isSome

/-- `lex_store(lex, word)`: the returned boolean and the Lexicon afterwards; `none` when an
`int` overflows. Allocation is taken to succeed. -/
def lex_store (lex : Lexicon) (word : Word) : Option (Bool × Lexicon) :=
  if get_cell lex word = none then
    match check_rehash lex with
    | none => none
    | some lex1 =>
      if lex1.nentries + 1 > INT_MAX then none
      else
        some (true,
          ⟨lex1.nentries + 1, lex1.nbuckets, link_cell lex1.hashtable lex1.nbuckets word⟩)
  else some (false, lex)

/-- `lex_create()`: no entries, `DEFAULT_CAPACITY` = 199 buckets, all `NULL`. -/
def lex_create : Lexicon := ⟨0, 199, fun _ => []⟩

/-- The Lexicons that `lex_store` calls produce from `lex_create()`. -/
inductive Reachable : Lexicon → Prop where
  | create : Reachable lex_create
  | store (lex : Lexicon) (word : Word) (b : Bool) (lex1 : Lexicon) :
      Reachable lex → lex_store lex word = some (b, lex1) → Reachable lex1

/-- Every cell is linked in the bucket indexed by the hash of its word, and there is at least
one bucket. -/
def WellHashed (lex : Lexicon) : Prop :=
  0 < lex.nbuckets ∧ ∀ b w, w ∈ lex.hashtable b → hash w lex.nbuckets = b

/-- The word "hi". -/
def wordHi : Word := [104, 105]

/-! ## Filling the two Lexicons and searching the honeycomb -/

/-- `MAX_WORD_LENGTH`, the size in bytes of the buffers `buffer` and `frag`. -/
def MAX_WORD_LENGTH : Nat := 100

/-- The loop `for (int i = strlen(buffer) - 1; i > 0; i--)` of `lex_fill`, from the value of
the loop variable on: the statement `buffer[i] = '\0'` leaves the first `i` characters of the
word in the buffer, which `lex_store(fraglex, buffer)` then stores. -/
def store_fragments (buffer : Word) : Nat → Lexicon → Option Lexicon
  | 0, fraglex => some fraglex
  | i + 1, fraglex =>
    match lex_store fraglex (buffer.take (i + 1)) with
    | none => none
    | some (_, fraglex1) => store_fragments buffer i fraglex1

/-- `lex_fill(wordlex, fraglex, file)`: the two Lexicons afterwards. The list `file` holds the
words that the calls of `read_word` deliver, in order, until it returns false. The result is
`none` when a word and its NUL do not fit the buffer or an `int` overflows. -/
def lex_fill : Lexicon → Lexicon → List Word → Option (Lexicon × Lexicon)
  | wordlex, fraglex, [] => some (wordlex, fraglex)
  | wordlex, fraglex, buffer :: file =>
    if buffer.length + 1 > MAX_WORD_LENGTH then none
    else
      match lex_store wordlex buffer with
      | none => none
      | some (true, wordlex1) =>
        match store_fragments buffer (buffer.length - 1) fraglex with
        | none => none
        | some fraglex1 => lex_fill wordlex1 fraglex1 file
      | some (false, wordlex1) => lex_fill wordlex1 fraglex file

/-- The invariant of `lex_fill`: every proper nonempty prefix of a word of `wordlex` is in
`fraglex`. -/
def FragmentsStored (wordlex fraglex : Lexicon) : Prop :=
  ∀ w, lex_contains wordlex w = true → ∀ k, 1 ≤ k → k < w.length →
    lex_contains fraglex (w.take k) = true

/-- The number of buckets is 199 or at most twice the number of entries: a rehash takes place
only above the load factor 1.5. -/
def Roomy (lex : Lexicon) : Prop := lex.nbuckets ≤ max 199 (2 * lex.nentries)

/-- A number of entries below which neither `nentries + 1` nor `nbuckets * 3 + 1` overflows
`int` in a Lexicon built by `lex_store` from `lex_create()`. -/
def ENTRY_BOUND : Nat := 357913941

set_option linter.dupNamespace false

/-- The struct `honeycomb`: the array `columns` of strings; `ncols` is its length. -/
structure Honeycomb where
  columns : List Word

/-- The field `ncols`, which `hcomb_create` sets to the number of elements of `columns`. -/
def Honeycomb.ncols (hc : Honeycomb) : Nat := hc.columns.length

/-- The character `(hc->columns[col])[index]`, or `none` when
`col < 0 || index < 0 || col >= hc->ncols || index >= strlen(hc->columns[col])`. -/
def Honeycomb.cell (hc : Honeycomb) (col index : Int) : Option Int :=
  if col < 0 ∨ index < 0 then none
  else
    match hc.columns[col.toNat]? with
    | none => none
    | some column => column[index.toNat]?

/-- The assignment `(hc->columns[col])[index] = c`. -/
def Honeycomb.setCell (hc : Honeycomb) (col index : Int) (c : Int) : Honeycomb :=
  ⟨hc.columns.set col.toNat ((hc.columns.getD col.toNat []).set index.toNat c)⟩

/-- The library function `tolower` on the letters 'A' to 'Z'. -/
def tolower (c : Int) : Int := if 65 ≤ c ∧ c ≤ 90 then c + 32 else c

/-- The library function `toupper` on the letters 'a' to 'z'. -/
def toupper (c : Int) : Int := if 97 ≤ c ∧ c ≤ 122 then c - 32 else c

/-- The struct `vector`: `nelems` and the words written to `words[0]`, ..., `words[nelems - 1]`.
`allocated` is the number of pointers in the block that `words` points to; it is a property of
the heap, not a field of the C struct. -/
structure Vector where
  nelems : Nat
  words : List Word
  allocated : Nat

/-- `vec_create(size)`: no elements; `calloc` gives `words` room for `size` pointers. -/
def vec_create (size : Nat) : Vector := ⟨0, [], size⟩

/-- The ways in which the search leaves the memory it has allocated. -/
inductive Fault where
  /-- The write `found->words[index]` into an array allocated for `size` pointers,
  `index >= size`. -/
  | outsideWords (index size : Nat)
  /-- A read of a honeycomb cell outside `columns`. -/
  | outsideColumns
  /-- A write beyond the `MAX_WORD_LENGTH` bytes of `frag`. -/
  | outsideFrag
deriving DecidableEq, Repr

/-- The pairs `(i, j)` of the two loops of `find_words_helper` for which
`!(col + i == col && index + j == index)`, in the order of the loops. -/
def neighbours : List (Int × Int) :=
  [(-1, -1), (-1, 0), (-1, 1), (0, -1), (0, 1), (1, -1), (1, 0), (1, 1)]

/-- The two loops over `i` and `j` of `find_words_helper`; `recurse` is the recursive call. -/
def search_neighbours
    (recurse : Honeycomb → Vector → Word → Int → Int → Except Fault (Honeycomb × Vector × Word))
    (col index : Int) :
    List (Int × Int) → Honeycomb × Vector × Word → Except Fault (Honeycomb × Vector × Word)
  | [], st => Except.ok st
  | (i, j) :: rest, (hc, found, frag) =>
    match recurse hc found frag (col + i) (index + j) with
    | Except.error e => Except.error e
    | Except.ok st1 => search_neighbours recurse col index rest st1

/-- `find_words_helper(hc, wordlex, fraglex, found, frag, col, index)`: the honeycomb, the
Vector and `frag` on return. The first argument bounds the nesting of the calls: `frag` grows by one character per nested
call and the model stops with `outsideFrag` before `frag` exceeds its buffer, so a nesting of
`MAX_WORD_LENGTH` is never exceeded. -/
def find_words_helper (wordlex fraglex : Lexicon) :
    Nat → Honeycomb → Vector → Word → Int → Int → Except Fault (Honeycomb × Vector × Word)
  | 0, _, _, _, _, _ => Except.error Fault.outsideFrag
  | depth + 1, hc, found, frag, col, index =>
    if ((match hc.cell col index with
        | none => true
        | some c => decide (c > 90) || !lex_contains fraglex frag) && frag.length != 0) then
      Except.ok (hc, found, frag)
    else
      match hc.cell col index with
      | none => Except.error Fault.outsideColumns
      | some c =>
        if frag.length + 2 > MAX_WORD_LENGTH then Except.error Fault.outsideFrag
        else if lex_contains wordlex (frag ++ [c]) = true ∧ found.allocated ≤ found.nelems then
          Except.error (Fault.outsideWords found.nelems found.allocated)
        else
          match search_neighbours
              (fun hc1 found1 frag1 col1 index1 =>
                find_words_helper wordlex fraglex depth hc1 found1 frag1 col1 index1)
              col index neighbours
              (hc.setCell col index (tolower c),
                if lex_contains wordlex (frag ++ [c]) then
                  ⟨found.nelems + 1, found.words ++ [frag ++ [c]], found.allocated⟩
                else found,
                frag ++ [c]) with
          | Except.error e => Except.error e
          | Except.ok (hc2, found2, frag2) =>
            Except.ok (hc2.setCell col index (toupper ((hc2.cell col index).getD 0)), found2,
              frag2.dropLast)

/-- The values of `(i, j)` in the order of the two loops of `find_words`. The helper changes
characters of the columns and never their lengths, so the bounds of the loops are those of the
honeycomb on entry. -/
def startCells (hc : Honeycomb) : List (Nat × Nat) :=
  (List.range hc.ncols).flatMap fun i =>
    (List.range (hc.columns.getD i []).length).map fun j => (i, j)

/-- The two loops of `find_words` over the remaining start cells. -/
def find_words_loop (wordlex fraglex : Lexicon) :
    List (Nat × Nat) → Honeycomb × Vector → Except Fault (Honeycomb × Vector)
  | [], st => Except.ok st
  | (i, j) :: rest, (hc, found) =>
    match find_words_helper wordlex fraglex MAX_WORD_LENGTH hc found [] i j with
    | Except.error e => Except.error e
    | Except.ok (hc1, found1, _) => find_words_loop wordlex fraglex rest (hc1, found1)

/-- `find_words(hc, wordlex, fraglex)`: the Vector `found`, allocated by
`vec_create(wordlex->nentries)`. -/
def find_words (hc : Honeycomb) (wordlex fraglex : Lexicon) : Except Fault Vector :=
  match find_words_loop wordlex fraglex (startCells hc) (hc, vec_create wordlex.nentries) with
  | Except.error e => Except.error e
  | Except.ok (_, found) => Except.ok found

/-- Lines 406-412 of `main` for a honeycomb and the words of the dictionary file: the two
Lexicons are created and filled, the empty string is stored in `fraglex`, and `find_words`
runs. The first component is `wordlex->nentries`; `none` when filling the Lexicons fails. -/
def main_find (hc : Honeycomb) (dictionary : List Word) : Option (Nat × Except Fault Vector) :=
  match lex_fill lex_create lex_create dictionary with
  | none => none
  | some (wordlex, fraglex) =>
    match lex_store fraglex [] with
    | none => none
    | some (_, fraglex1) => some (wordlex.nentries, find_words hc wordlex fraglex1)

/-! ## Concrete words, Lexicons and honeycombs -/

/-- The word "A". -/
def wordA : Word := [65]

/-- A Lexicon with one bucket and two entries, above the load factor 1.5. -/
def lexCrowded : Lexicon := ⟨2, 1, fun b => if b = 0 then [wordHi, wordA] else []⟩

/-- The honeycomb of two layers whose seven cells all hold the letter 'A', as `hcomb_fill`
stores it: three columns of 2, 3 and 2 cells. -/
def hcombAllA : Honeycomb := ⟨[[65, 65], [65, 65, 65], [65, 65]]⟩

end Honeycomb

set_option linter.unusedVariables false

namespace Carcassonne

/-! ## Elementary facts about the board and the statements of a checker -/

theorem Board.getTile_eq_some_iff (board : Board) (i j : Nat) (o : Option Tile) :
    board.getTile i j = some o ↔ (i < board.numRows ∧ j < board.numColumns) ∧ board.cells i j = o := by
  unfold Board.getTile
  split <;> simp_all

theorem Board.getTile_of_lt (board : Board) {i j : Nat} (hi : i < board.numRows)
    (hj : j < board.numColumns) : board.getTile i j = some (board.cells i j) := by
  simp [Board.getTile, hi, hj]

theorem runChecks_cons_true_iff (c : Option Bool) (l : List (Option Bool)) :
    runChecks (c :: l) = some true ↔ c = some true ∧ runChecks l = some true := by
  rcases c with _ | _ | _ <;> simp [runChecks]

theorem runChecks_true_iff (l : List (Option Bool)) :
    runChecks l = some true ↔ ∀ c ∈ l, c = some true := by
  induction l with
  | nil => simp [runChecks]
  | cons c l ih => simp [runChecks_cons_true_iff, ih]

theorem runChecks_isSome (l : List (Option Bool)) (h : ∀ c ∈ l, c.isSome = true) :
    (runChecks l).isSome = true := by
  induction l with
  | nil => simp [runChecks]
  | cons c l ih =>
    have hc := h c (by simp)
    have hl := ih (fun d hd => h d (by simp [hd]))
    rcases c with _ | _ | _ <;> simp_all [runChecks]

theorem whenB_true_iff (g : Bool) (body : Option Bool) :
    whenB g body = some true ↔ (g = true → body = some true) := by
  cases g <;> simp [whenB]

theorem failIf_true_iff (c : Bool) : failIf c = some true ↔ c = false := by
  cases c <;> simp [failIf]

theorem matchIfPresent_true_iff (board : Board) (a b : Nat) (mine : Terrain)
    (side : Tile → Terrain) :
    matchIfPresent board a b mine side = some true ↔
      (a < board.numRows ∧ b < board.numColumns) ∧
        ∀ t, board.cells a b = some t → mine = side t := by
  unfold matchIfPresent Board.getTile
  by_cases h : a < board.numRows ∧ b < board.numColumns
  · rw [if_pos h]
    cases hc : board.cells a b <;> simp [h, failIf]
  · rw [if_neg h]
    simp [h]

theorem matchOrElse_true_iff (board : Board) (a b : Nat) (mine : Terrain)
    (side : Tile → Terrain) (otherwise : Bool) :
    matchOrElse board a b mine side otherwise = some true ↔
      (a < board.numRows ∧ b < board.numColumns) ∧
        (board.cells a b = none → otherwise = false) ∧
        ∀ t, board.cells a b = some t → mine = side t := by
  unfold matchOrElse Board.getTile
  by_cases h : a < board.numRows ∧ b < board.numColumns
  · rw [if_pos h]
    cases hc : board.cells a b <;> simp [h, failIf]
  · rw [if_neg h]
    simp [h]

theorem emptyNeedsPasture_true_iff (board : Board) (a b : Nat) (mine : Terrain) :
    emptyNeedsPasture board a b mine = some true ↔
      (a < board.numRows ∧ b < board.numColumns) ∧
        (board.cells a b = none → mine = Terrain.pasture) := by
  unfold emptyNeedsPasture Board.getTile
  by_cases h : a < board.numRows ∧ b < board.numColumns
  · rw [if_pos h]
    cases hc : board.cells a b <;> simp [h, failIf]
  · rw [if_neg h]
    simp [h]

theorem isRoadOrCity_false_iff (x : Terrain) : isRoadOrCity x = false ↔ x = Terrain.pasture := by
  cases x <;> simp [isRoadOrCity]

theorem Check_tile_boundary (board : Board) (tmp : Tile) (i j : Nat)
    (h : Check_tile board tmp i j = some true) : boundaryRule board tmp i j := by
  simp only [Check_tile, runChecks_true_iff, List.mem_cons, List.mem_singleton, forall_eq_or_imp, forall_eq, whenB_true_iff, failIf_true_iff, List.not_mem_nil] at h
  obtain ⟨h1, h2, h3, h4, -⟩ := h
  refine ⟨?_, ?_, ?_, ?_⟩
  · intro hi; exact h1 (by simp [hi])
  · intro hj; exact h2 (by simp [hj])
  · intro hi; exact h3 (by simp; omega)
  · intro hj; exact h4 (by simp; omega)

theorem runChecks_nil_true : (runChecks [] = some true) ↔ True := by simp [runChecks]

theorem Check_tile_of_rules (board : Board) (tmp : Tile) (i j : Nat)
    (hr : 2 ≤ board.numRows) (hc : 2 ≤ board.numColumns)
    (hi : i < board.numRows) (hj : j < board.numColumns)
    (hb : boundaryRule board tmp i j)
    (hN : ∀ t, 0 < i → board.cells (i - 1) j = some t → tmp.north = t.south)
    (hS : ∀ t, i + 1 < board.numRows → board.cells (i + 1) j = some t → tmp.south = t.north)
    (hW : ∀ t, 0 < j → board.cells i (j - 1) = some t → tmp.west = t.east)
    (hE : ∀ t, j + 1 < board.numColumns → board.cells i (j + 1) = some t → tmp.east = t.west) :
    Check_tile board tmp i j = some true := by
  obtain ⟨b1, b2, b3, b4⟩ := hb
  simp only [Check_tile, runChecks_cons_true_iff, runChecks_nil_true, and_true,
    whenB_true_iff, failIf_true_iff, matchIfPresent_true_iff,
    Bool.and_eq_true, decide_eq_true_eq, beq_iff_eq]
  refine ⟨?_, ?_, ?_, ?_, ?_, ?_, ?_⟩
  · intro h; exact b1 h
  · intro h; exact b2 h
  · intro h; exact b3 (by omega)
  · intro h; exact b4 (by omega)
  · rintro ⟨h0, h1⟩
    subst h0
    exact ⟨⟨⟨by omega, by omega⟩, fun t ht => hN t h1 ht⟩, fun h2 => ⟨⟨by omega, by omega⟩, fun t ht => hS t (by omega) ht⟩, ⟨by omega, by omega⟩, fun t ht => hE t (by omega) ht⟩
  · rintro ⟨h0, h1⟩
    subst h0
    exact ⟨⟨⟨by omega, by omega⟩, fun t ht => hW t h1 ht⟩, fun h2 => ⟨⟨by omega, by omega⟩, fun t ht => hE t (by omega) ht⟩, ⟨by omega, by omega⟩, fun t ht => hS t (by omega) ht⟩
  · rintro ⟨h0, h1⟩
    exact ⟨⟨⟨by omega, by omega⟩, fun t ht => hN t h0 ht⟩, ⟨⟨by omega, by omega⟩, fun t ht => hW t h1 ht⟩, fun h2 => ⟨⟨by omega, by omega⟩, fun t ht => hS t (by omega) ht⟩, fun h2 => ⟨⟨by omega, by omega⟩, fun t ht => hE t (by omega) ht⟩⟩

theorem whenB_isSome (g : Bool) (body : Option Bool) (h : g = true → body.isSome = true) :
    (whenB g body).isSome = true := by
  cases g <;> simp_all [whenB]

theorem failIf_isSome (c : Bool) : (failIf c).isSome = true := by simp [failIf]

theorem matchIfPresent_isSome (board : Board) (a b : Nat) (mine : Terrain)
    (side : Tile → Terrain) (ha : a < board.numRows) (hb : b < board.numColumns) :
    (matchIfPresent board a b mine side).isSome = true := by
  unfold matchIfPresent
  rw [board.getTile_of_lt ha hb]
  cases board.cells a b <;> simp [failIf]

theorem matchOrElse_isSome (board : Board) (a b : Nat) (mine : Terrain)
    (side : Tile → Terrain) (otherwise : Bool) (ha : a < board.numRows)
    (hb : b < board.numColumns) :
    (matchOrElse board a b mine side otherwise).isSome = true := by
  unfold matchOrElse
  rw [board.getTile_of_lt ha hb]
  cases board.cells a b <;> simp [failIf]

theorem emptyNeedsPasture_isSome (board : Board) (a b : Nat) (mine : Terrain)
    (ha : a < board.numRows) (hb : b < board.numColumns) :
    (emptyNeedsPasture board a b mine).isSome = true := by
  unfold emptyNeedsPasture
  rw [board.getTile_of_lt ha hb]
  cases board.cells a b <;> simp [failIf]

theorem diagonalStep_isSome (board : Board) (a1 b1 a2 b2 a3 b3 : Nat)
    (h1 : a1 < board.numRows ∧ b1 < board.numColumns)
    (h2 : a2 < board.numRows ∧ b2 < board.numColumns)
    (h3 : a3 < board.numRows ∧ b3 < board.numColumns) :
    (diagonalStep board a1 b1 a2 b2 a3 b3).isSome = true := by
  unfold diagonalStep
  rw [board.getTile_of_lt h1.1 h1.2, board.getTile_of_lt h2.1 h2.2,
    board.getTile_of_lt h3.1 h3.2]
  cases board.cells a1 b1 <;> cases board.cells a2 b2 <;> cases board.cells a3 b3 <;> simp

theorem diagonalStep_true_iff (board : Board) (a1 b1 a2 b2 a3 b3 : Nat)
    (h1 : a1 < board.numRows ∧ b1 < board.numColumns)
    (h2 : a2 < board.numRows ∧ b2 < board.numColumns)
    (h3 : a3 < board.numRows ∧ b3 < board.numColumns) :
    diagonalStep board a1 b1 a2 b2 a3 b3 = some true ↔
      ¬ (board.cells a1 b1 = none ∧ board.cells a2 b2 = none ∧ board.cells a3 b3 ≠ none) := by
  unfold diagonalStep
  rw [board.getTile_of_lt h1.1 h1.2, board.getTile_of_lt h2.1 h2.2,
    board.getTile_of_lt h3.1 h3.2]
  cases board.cells a1 b1 <;> cases board.cells a2 b2 <;> cases board.cells a3 b3 <;> simp

/-- The local checker does not fail on a board with at least two rows and two columns. -/
theorem Check_tile_isSome (board : Board) (tmp : Tile) (i j : Nat)
    (hr : 2 ≤ board.numRows) (hc : 2 ≤ board.numColumns)
    (hi : i < board.numRows) (hj : j < board.numColumns) :
    (Check_tile board tmp i j).isSome = true := by
  unfold Check_tile
  apply runChecks_isSome
  intro c hc
  simp only [List.mem_cons, List.mem_singleton, List.not_mem_nil, or_false] at hc
  rcases hc with rfl | rfl | rfl | rfl | rfl | rfl | rfl
  · exact whenB_isSome _ _ (fun _ => failIf_isSome _)
  · exact whenB_isSome _ _ (fun _ => failIf_isSome _)
  · exact whenB_isSome _ _ (fun _ => failIf_isSome _)
  · exact whenB_isSome _ _ (fun _ => failIf_isSome _)
  · apply whenB_isSome
    intro hg
    simp only [Bool.and_eq_true, decide_eq_true_eq, beq_iff_eq] at hg
    apply runChecks_isSome
    intro c hc
    simp only [List.mem_cons, List.mem_singleton, List.not_mem_nil, or_false] at hc
    rcases hc with rfl | rfl | rfl
    · exact matchIfPresent_isSome _ _ _ _ _ (by omega) (by omega)
    · apply whenB_isSome
      intro h2
      simp only [decide_eq_true_eq] at h2
      exact matchIfPresent_isSome _ _ _ _ _ (by omega) (by omega)
    · exact matchIfPresent_isSome _ _ _ _ _ (by omega) (by omega)
  · apply whenB_isSome
    intro hg
    simp only [Bool.and_eq_true, decide_eq_true_eq, beq_iff_eq] at hg
    apply runChecks_isSome
    intro c hc
    simp only [List.mem_cons, List.mem_singleton, List.not_mem_nil, or_false] at hc
    rcases hc with rfl | rfl | rfl
    · exact matchIfPresent_isSome _ _ _ _ _ (by omega) (by omega)
    · apply whenB_isSome
      intro h2
      simp only [decide_eq_true_eq] at h2
      exact matchIfPresent_isSome _ _ _ _ _ (by omega) (by omega)
    · exact matchIfPresent_isSome _ _ _ _ _ (by omega) (by omega)
  · apply whenB_isSome
    intro hg
    simp only [Bool.and_eq_true, decide_eq_true_eq, beq_iff_eq] at hg
    apply runChecks_isSome
    intro c hc
    simp only [List.mem_cons, List.mem_singleton, List.not_mem_nil, or_false] at hc
    rcases hc with rfl | rfl | rfl | rfl
    · exact matchIfPresent_isSome _ _ _ _ _ (by omega) (by omega)
    · exact matchIfPresent_isSome _ _ _ _ _ (by omega) (by omega)
    · apply whenB_isSome
      intro h2
      simp only [decide_eq_true_eq] at h2
      exact matchIfPresent_isSome _ _ _ _ _ (by omega) (by omega)
    · apply whenB_isSome
      intro h2
      simp only [decide_eq_true_eq] at h2
      exact matchIfPresent_isSome _ _ _ _ _ (by omega) (by omega)

/-- The body of the global checker does not fail on a board with at least two rows and two
columns. -/
theorem Check_cell_isSome (board : Board) (i j : Nat)
    (hr : 2 ≤ board.numRows) (hc : 2 ≤ board.numColumns)
    (hi : i < board.numRows) (hj : j < board.numColumns) :
    (Check_cell board i j).isSome = true := by
  unfold Check_cell
  rw [board.getTile_of_lt hi hj]
  cases hcell : board.cells i j with
  | none => simp
  | some t =>
    simp only
    apply runChecks_isSome
    intro c hc
    simp only [List.mem_cons, List.mem_singleton, List.not_mem_nil, or_false] at hc
    rcases hc with rfl | rfl | rfl | rfl | rfl | rfl
    all_goals
      apply whenB_isSome
      intro hg
      simp only [Bool.and_eq_true, decide_eq_true_eq, beq_iff_eq] at hg
    · apply runChecks_isSome
      intro c hc
      simp only [List.mem_cons, List.mem_singleton, List.not_mem_nil, or_false] at hc
      rcases hc with rfl | rfl | rfl
      · exact failIf_isSome _
      · exact matchOrElse_isSome _ _ _ _ _ _ (by omega) (by omega)
      · exact matchOrElse_isSome _ _ _ _ _ _ (by omega) (by omega)
    · apply runChecks_isSome
      intro c hc
      simp only [List.mem_cons, List.mem_singleton, List.not_mem_nil, or_false] at hc
      rcases hc with rfl | rfl | rfl | rfl
      · exact failIf_isSome _
      · apply whenB_isSome
        intro h2
        simp only [decide_eq_true_eq] at h2
        exact emptyNeedsPasture_isSome _ _ _ _ (by omega) (by omega)
      · exact matchOrElse_isSome _ _ _ _ _ _ (by omega) (by omega)
      · exact matchOrElse_isSome _ _ _ _ _ _ (by omega) (by omega)
    · apply runChecks_isSome
      intro c hc
      simp only [List.mem_cons, List.mem_singleton, List.not_mem_nil, or_false] at hc
      rcases hc with rfl | rfl | rfl | rfl
      · exact failIf_isSome _
      · apply whenB_isSome
        intro h2
        simp only [decide_eq_true_eq] at h2
        exact emptyNeedsPasture_isSome _ _ _ _ (by omega) (by omega)
      · exact matchOrElse_isSome _ _ _ _ _ _ (by omega) (by omega)
      · exact matchOrElse_isSome _ _ _ _ _ _ (by omega) (by omega)
    · apply runChecks_isSome
      intro c hc
      simp only [List.mem_cons, List.mem_singleton, List.not_mem_nil, or_false] at hc
      rcases hc with rfl | rfl | rfl | rfl
      · apply whenB_isSome
        intro h2
        simp only [decide_eq_true_eq] at h2
        exact emptyNeedsPasture_isSome _ _ _ _ (by omega) (by omega)
      · apply whenB_isSome
        intro h2
        simp only [decide_eq_true_eq] at h2
        exact emptyNeedsPasture_isSome _ _ _ _ (by omega) (by omega)
      · exact matchOrElse_isSome _ _ _ _ _ _ (by omega) (by omega)
      · exact matchOrElse_isSome _ _ _ _ _ _ (by omega) (by omega)
    · exact diagonalStep_isSome _ _ _ _ _ _ _ ⟨by omega, by omega⟩ ⟨by omega, by omega⟩
        ⟨by omega, by omega⟩
    · exact diagonalStep_isSome _ _ _ _ _ _ _ ⟨by omega, by omega⟩ ⟨by omega, by omega⟩
        ⟨by omega, by omega⟩

theorem mem_cellOrder (rows cols : Nat) (c : Nat × Nat) :
    c ∈ cellOrder rows cols ↔ c.1 < rows ∧ c.2 < cols := by
  rcases c with ⟨i, j⟩
  simp only [cellOrder, List.mem_flatMap, List.mem_range, List.mem_map, Prod.mk.injEq]
  constructor
  · rintro ⟨a, ha, b, hb, rfl, rfl⟩
    exact ⟨ha, hb⟩
  · rintro ⟨hi, hj⟩
    exact ⟨i, hi, j, hj, rfl, rfl⟩

theorem Check_all_cells_true_iff (board : Board) :
    Check_all_cells board = some true ↔
      ∀ i j, i < board.numRows → j < board.numColumns → Check_cell board i j = some true := by
  unfold Check_all_cells
  rw [runChecks_true_iff]
  constructor
  · intro h i j hi hj
    exact h _ (List.mem_map.mpr ⟨(i, j), (mem_cellOrder _ _ _).mpr ⟨hi, hj⟩, rfl⟩)
  · intro h c hc
    obtain ⟨⟨i, j⟩, hm, rfl⟩ := List.mem_map.mp hc
    obtain ⟨hi, hj⟩ := (mem_cellOrder _ _ _).mp hm
    exact h i j hi hj

/-- What the body of the global checker establishes for an occupied cell: the tile matches its
occupied west and north neighbours, and shows no road or city to the north in row 0 and to the
west in column 0. -/
theorem Check_cell_true (board : Board) (i j : Nat) (t : Tile)
    (h : Check_cell board i j = some true) (hcell : board.cells i j = some t) :
    (∀ u, 0 < j → board.cells i (j - 1) = some u → t.west = u.east) ∧
    (∀ u, 0 < i → board.cells (i - 1) j = some u → t.north = u.south) ∧
    (i = 0 → isRoadOrCity t.north = false) ∧
    (j = 0 → isRoadOrCity t.west = false) := by
  unfold Check_cell at h
  have hget : board.getTile i j = some (some t) := by
    cases hg : board.getTile i j with
    | none => rw [hg] at h; simp at h
    | some o =>
      rw [(board.getTile_eq_some_iff i j o).mp hg |>.2] at hcell
      rw [hcell]
  rw [hget] at h
  simp only [runChecks_cons_true_iff, runChecks_nil_true, and_true,
    whenB_true_iff, failIf_true_iff, matchOrElse_true_iff, emptyNeedsPasture_true_iff,
    Bool.and_eq_true, decide_eq_true_eq, beq_iff_eq] at h
  obtain ⟨h00, h0j, hi0, hij, -, -⟩ := h
  refine ⟨?_, ?_, ?_, ?_⟩
  · intro u hj hu
    rcases Nat.eq_zero_or_pos i with hi | hi
    · exact (h0j ⟨hi, hj⟩).2.2.1.2.2 u hu
    · exact (hij ⟨hi, hj⟩).2.2.2.2.2 u hu
  · intro u hi hu
    rcases Nat.eq_zero_or_pos j with hj | hj
    · exact (hi0 ⟨hj, hi⟩).2.2.1.2.2 u hu
    · exact (hij ⟨hi, hj⟩).2.2.1.2.2 u hu
  · intro hi
    rcases Nat.eq_zero_or_pos j with hj | hj
    · have := (h00 ⟨hi, hj⟩).1
      revert this
      cases t.north <;> cases t.west <;> simp [isRoadOrCity]
    · have := (h0j ⟨hi, hj⟩).1
      simpa [isRoadOrCity] using this
  · intro hj
    rcases Nat.eq_zero_or_pos i with hi | hi
    · have := (h00 ⟨hi, hj⟩).1
      revert this
      cases t.north <;> cases t.west <;> simp [isRoadOrCity]
    · have := (hi0 ⟨hj, hi⟩).1
      simpa [isRoadOrCity] using this

/-! ## The search engine: restoring the state on failure -/

theorem Board.eraseTile_setTile (b : Board) (i j : Nat) (t : Tile) (h : b.cells i j = none) :
    (b.setTile i j t).eraseTile i j = b := by
  rcases b with ⟨r, c, cells⟩
  simp only [Board.setTile, Board.eraseTile, Board.mk.injEq, true_and]
  funext a d
  by_cases hp : a = i ∧ d = j
  · rw [if_pos hp]
    rw [hp.1, hp.2]
    exact h.symm
  · rw [if_neg hp, if_neg hp]

theorem mem_scanOrder (rows cols m : Nat) (x : Nat × Nat × Nat) :
    x ∈ scanOrder rows cols m ↔ x.1 < rows ∧ x.2.1 < cols ∧ x.2.2 < m := by
  rcases x with ⟨i, j, n⟩
  simp only [scanOrder, List.mem_flatMap, List.mem_range, List.mem_map, Prod.mk.injEq]
  constructor
  · rintro ⟨a, ha, b, hb, c, hc, rfl, rfl, rfl⟩
    exact ⟨ha, hb, hc⟩
  · rintro ⟨hi, hj, hn⟩
    exact ⟨i, hi, j, hj, n, hn, rfl, rfl, rfl⟩

theorem Can_place_loop_restores (num : Int) (recurse : SearchState → Option (Bool × SearchState))
    (tile : Tile) (hrec : RestoresOnFalse num recurse) :
    ∀ (l : List (Nat × Nat × Nat)) (s s1 : SearchState),
      Can_place_loop recurse tile l s = some (false, s1) →
      s1.board = s.board ∧ s1.locations = s.locations ∧
        (num ≤ s.temp_Solutions → s1.temp_Solutions = s.temp_Solutions) := by
  intro l
  induction l with
  | nil =>
    intro s s1 h
    simp only [Can_place_loop, Option.some.injEq, Prod.mk.injEq, true_and] at h
    subst h
    exact ⟨rfl, rfl, fun _ => rfl⟩
  | cons x rest ih =>
    rcases x with ⟨i, j, n⟩
    intro s s1 h
    rw [Can_place_loop] at h
    cases hg : s.board.getTile i j with
    | none => rw [hg] at h; simp at h
    | some o =>
      rw [hg] at h
      cases o with
      | some t => exact ih s s1 h
      | none =>
        simp only at h
        have hcell : s.board.cells i j = none := ((s.board.getTile_eq_some_iff i j none).mp hg).2
        cases hc : Check_tile s.board (rotatedTile tile n) i j with
        | none => rw [hc] at h; simp at h
        | some ok =>
          rw [hc] at h
          cases ok with
          | false => exact ih s s1 h
          | true =>
            simp only at h
            cases hr : recurse ⟨s.board.setTile i j (rotatedTile tile n),
                s.locations ++ [⟨i, j, 90 * n⟩], s.temp_Solutions⟩ with
            | none => rw [hr] at h; simp at h
            | some res =>
              rw [hr] at h
              rcases res with ⟨r, s2⟩
              cases r with
              | true => simp at h
              | false =>
                simp only at h
                obtain ⟨hb, hl, ht⟩ := hrec _ _ hr
                obtain ⟨hb1, hl1, ht1⟩ := ih _ _ h
                simp only at hb hl ht hb1 hl1 ht1
                refine ⟨?_, ?_, ?_⟩
                · rw [hb1, hb, Board.eraseTile_setTile _ _ _ _ hcell]
                · rw [hl1, hl, List.dropLast_concat]
                · intro hle
                  rw [ht1 (by rw [ht hle]; exact hle), ht hle]

theorem Check_the_whole_board_false (board : Board) (temp num t : Int)
    (h : Check_the_whole_board board temp num = some (false, t)) :
    num ≤ temp → t = temp := by
  unfold Check_the_whole_board at h
  cases hc : Check_all_cells board with
  | none => rw [hc] at h; simp at h
  | some ok =>
    rw [hc] at h
    cases ok with
    | false =>
      simp only [Option.some.injEq, Prod.mk.injEq, true_and] at h
      intro _; exact h.symm
    | true =>
      simp only [Option.some.injEq, Prod.mk.injEq, decide_eq_false_iff_not] at h
      intro hle
      omega

theorem Can_place_fuel_restores (tiles : List Tile) (allow : Bool) (num : Int) :
    ∀ (fuel : Nat) (board : Board) (locations : List Location) (index : Nat) (temp : Int)
      (s1 : SearchState),
      Can_place_fuel fuel board tiles locations index allow temp num = some (false, s1) →
      s1.board = board ∧ s1.locations = locations ∧ (num ≤ temp → s1.temp_Solutions = temp) := by
  intro fuel
  induction fuel with
  | zero =>
    intro board locations index temp s1 h
    rw [Can_place_fuel] at h
    split at h
    · cases hc : Check_the_whole_board board temp num with
      | none => rw [hc] at h; simp at h
      | some res =>
        rw [hc] at h
        rcases res with ⟨r, t⟩
        simp only [Option.some.injEq, Prod.mk.injEq] at h
        obtain ⟨rfl, rfl⟩ := h
        exact ⟨rfl, rfl, Check_the_whole_board_false _ _ _ _ hc⟩
    · simp at h
  | succ fuel ih =>
    intro board locations index temp s1 h
    rw [Can_place_fuel] at h
    split at h
    · cases hc : Check_the_whole_board board temp num with
      | none => rw [hc] at h; simp at h
      | some res =>
        rw [hc] at h
        rcases res with ⟨r, t⟩
        simp only [Option.some.injEq, Prod.mk.injEq] at h
        obtain ⟨rfl, rfl⟩ := h
        exact ⟨rfl, rfl, Check_the_whole_board_false _ _ _ _ hc⟩
    · simp only at h
      cases ht : tiles[index]? with
      | none => rw [ht] at h; simp at h
      | some tile =>
        rw [ht] at h
        simp only at h
        exact Can_place_loop_restores num _ tile (fun s s2 hs => ih _ _ _ _ _ hs) _ _ _ h

/-! ## The search engine: what a successful search establishes -/

theorem Can_place_loop_sound (num : Int) (recurse : SearchState → Option (Bool × SearchState))
    (tile : Tile) (m : Nat) (P R : Board → List Location → Prop) (Q : SearchState → Prop)
    (hrestore : RestoresOnFalse num recurse)
    (hrec : ∀ s s1, R s.board s.locations → recurse s = some (true, s1) → Q s1)
    (hstep : ∀ (b : Board) (l : List Location) (i j n : Nat), P b l → n < m →
      b.getTile i j = some none → Check_tile b (rotatedTile tile n) i j = some true →
      R (b.setTile i j (rotatedTile tile n)) (l ++ [⟨i, j, 90 * n⟩])) :
    ∀ (l : List (Nat × Nat × Nat)), (∀ x ∈ l, x.2.2 < m) → ∀ (s s1 : SearchState),
      P s.board s.locations → Can_place_loop recurse tile l s = some (true, s1) → Q s1 := by
  intro l
  induction l with
  | nil =>
    intro _ s s1 _ h
    simp [Can_place_loop] at h
  | cons x rest ih =>
    rcases x with ⟨i, j, n⟩
    intro hm s s1 hP h
    have hrest : ∀ x ∈ rest, x.2.2 < m := fun x hx => hm x (List.mem_cons_of_mem _ hx)
    have hn : n < m := hm (i, j, n) (List.mem_cons_self _ _)
    rw [Can_place_loop] at h
    cases hg : s.board.getTile i j with
    | none => rw [hg] at h; simp at h
    | some o =>
      rw [hg] at h
      cases o with
      | some t => exact ih hrest s s1 hP h
      | none =>
        simp only at h
        have hcell : s.board.cells i j = none := ((s.board.getTile_eq_some_iff i j none).mp hg).2
        cases hc : Check_tile s.board (rotatedTile tile n) i j with
        | none => rw [hc] at h; simp at h
        | some ok =>
          rw [hc] at h
          cases ok with
          | false => exact ih hrest s s1 hP h
          | true =>
            simp only at h
            cases hr : recurse ⟨s.board.setTile i j (rotatedTile tile n),
                s.locations ++ [⟨i, j, 90 * n⟩], s.temp_Solutions⟩ with
            | none => rw [hr] at h; simp at h
            | some res =>
              rw [hr] at h
              rcases res with ⟨r, s2⟩
              cases r with
              | true =>
                simp only [Option.some.injEq, Prod.mk.injEq, true_and] at h
                subst h
                exact hrec _ _ (hstep _ _ _ _ _ hP hn hg hc) hr
              | false =>
                simp only at h
                obtain ⟨hb, hl, -⟩ := hrestore _ _ hr
                simp only at hb hl
                refine ih hrest _ s1 ?_ h
                simp only
                rw [hb, hl, Board.eraseTile_setTile _ _ _ _ hcell, List.dropLast_concat]
                exact hP

theorem Check_the_whole_board_true (board : Board) (temp num t : Int)
    (h : Check_the_whole_board board temp num = some (true, t)) :
    Check_all_cells board = some true := by
  unfold Check_the_whole_board at h
  cases hc : Check_all_cells board with
  | none => rw [hc] at h; simp at h
  | some ok =>
    rw [hc] at h
    cases ok with
    | false => simp at h
    | true => rfl

/-- Invariant rule for the search: a property of (index, board, location stack) that every
accepted placement preserves holds, at index `tiles.size()`, for the state in which a successful
search returns; that state moreover passes the legality test of the global checker. -/
theorem Can_place_fuel_sound (tiles : List Tile) (allow : Bool) (num : Int)
    (Inv : Nat → Board → List Location → Prop)
    (hstep : ∀ (index : Nat) (b : Board) (l : List Location) (i j n : Nat) (tile : Tile),
      Inv index b l → tiles[index]? = some tile → n < (if allow then 4 else 1) →
      b.getTile i j = some none → Check_tile b (rotatedTile tile n) i j = some true →
      Inv (index + 1) (b.setTile i j (rotatedTile tile n)) (l ++ [⟨i, j, 90 * n⟩])) :
    ∀ (fuel : Nat) (board : Board) (locations : List Location) (index : Nat) (temp : Int)
      (s1 : SearchState), Inv index board locations →
      Can_place_fuel fuel board tiles locations index allow temp num = some (true, s1) →
      Inv tiles.length s1.board s1.locations ∧ Check_all_cells s1.board = some true := by
  intro fuel
  induction fuel with
  | zero =>
    intro board locations index temp s1 hI h
    rw [Can_place_fuel] at h
    split at h
    · rename_i hidx
      cases hc : Check_the_whole_board board temp num with
      | none => rw [hc] at h; simp at h
      | some res =>
        rw [hc] at h
        rcases res with ⟨r, t⟩
        simp only [Option.some.injEq, Prod.mk.injEq] at h
        obtain ⟨rfl, rfl⟩ := h
        exact ⟨hidx ▸ hI, Check_the_whole_board_true _ _ _ _ hc⟩
    · simp at h
  | succ fuel ih =>
    intro board locations index temp s1 hI h
    rw [Can_place_fuel] at h
    split at h
    · rename_i hidx
      cases hc : Check_the_whole_board board temp num with
      | none => rw [hc] at h; simp at h
      | some res =>
        rw [hc] at h
        rcases res with ⟨r, t⟩
        simp only [Option.some.injEq, Prod.mk.injEq] at h
        obtain ⟨rfl, rfl⟩ := h
        exact ⟨hidx ▸ hI, Check_the_whole_board_true _ _ _ _ hc⟩
    · simp only at h
      cases ht : tiles[index]? with
      | none => rw [ht] at h; simp at h
      | some tile =>
        rw [ht] at h
        simp only at h
        refine Can_place_loop_sound num _ tile (if allow then 4 else 1) (Inv index)
          (Inv (index + 1))
          (fun s => Inv tiles.length s.board s.locations ∧ Check_all_cells s.board = some true)
          (fun s s2 hs => Can_place_fuel_restores tiles allow num _ _ _ _ _ _ hs)
          (fun s s2 hR hs => ih _ _ _ _ _ hR hs)
          (fun b l i j n hP hn hg hc => hstep index b l i j n tile hP ht hn hg hc)
          _ ?_ _ s1 hI h
        intro x hx
        have := ((mem_scanOrder _ _ _ x).mp hx).2.2
        cases allow <;> simpa using this

theorem Check_all_cells_edgesMatch (board : Board) (h : Check_all_cells board = some true) :
    board.edgesMatch := by
  rw [Check_all_cells_true_iff] at h
  constructor
  · intro i j a b hi hj ha hb
    have hc := h i (j + 1) hi hj
    exact ((Check_cell_true board i (j + 1) b hc hb).1 a (by omega) (by simpa using ha)).symm
  · intro i j a b hi hj ha hb
    have hc := h (i + 1) j hi hj
    exact ((Check_cell_true board (i + 1) j b hc hb).2.1 a (by omega) (by simpa using ha)).symm

theorem Board.getTile_setTile_self (b : Board) (i j : Nat) (t : Tile)
    (h : i < b.numRows ∧ j < b.numColumns) :
    (b.setTile i j t).getTile i j = some (some t) := by
  simp [Board.getTile, Board.setTile, h]

theorem Board.getTile_setTile_ne (b : Board) (i j a c : Nat) (t : Tile) (h : ¬ (a = i ∧ c = j)) :
    (b.setTile i j t).getTile a c = b.getTile a c := by
  simp [Board.getTile, Board.setTile, h]

theorem Can_place_fuel_zero_edges (rows cols : Nat) (tiles : List Tile) (allow : Bool)
    (temp num : Int) (s : SearchState)
    (h : Can_place (Board.new rows cols) tiles [] 0 allow temp num = some (true, s)) :
    Check_all_cells s.board = some true := by
  unfold Can_place at h
  exact (Can_place_fuel_sound tiles allow num (fun _ _ _ => True)
    (fun _ _ _ _ _ _ _ _ _ _ _ _ => trivial) _ _ _ _ _ _ trivial h).2

/-! ## Properties of an accepted Solution -/

/-- The search for the two road tiles on a 2 by 2 board: the first tile goes to (0, 0), the
second to (0, 1), both unrotated. -/
theorem twoRoad_run :
    Can_place (Board.new 2 2) twoRoadTiles [] 0 false 0 0 = some (true, twoRoadSolved) := by
  rfl

/-- C1: on a board with at least 2 rows and 2 columns, when `Can_place` started at index 0 on
the empty board with an empty location stack returns true, every two orthogonally adjacent
occupied cells of the resulting board have equal touching edges: east against west for
horizontal neighbours, south against north for vertical neighbours. -/
theorem Can_place_true_edges_equal (rows cols : Nat) (tiles : List Tile) (allow_rotations : Bool)
    (temp_Solutions num_Solutions : Int) (s : SearchState) (hrows : 2 ≤ rows) (hcols : 2 ≤ cols)
    (h : Can_place (Board.new rows cols) tiles [] 0 allow_rotations temp_Solutions num_Solutions
      = some (true, s)) :
    (∀ i j a b, s.board.getTile i j = some (some a) → s.board.getTile i (j + 1) = some (some b) →
      a.east = b.west) ∧
    (∀ i j a b, s.board.getTile i j = some (some a) → s.board.getTile (i + 1) j = some (some b) →
      a.south = b.north) := by
  have hm := Check_all_cells_edgesMatch _ (Can_place_fuel_zero_edges _ _ _ _ _ _ _ h)
  constructor
  · intro i j a b ha hb
    obtain ⟨⟨hi, _⟩, hca⟩ := (s.board.getTile_eq_some_iff _ _ _).mp ha
    obtain ⟨⟨_, hj⟩, hcb⟩ := (s.board.getTile_eq_some_iff _ _ _).mp hb
    exact hm.1 i j a b hi hj hca hcb
  · intro i j a b ha hb
    obtain ⟨⟨_, hj⟩, hca⟩ := (s.board.getTile_eq_some_iff _ _ _).mp ha
    obtain ⟨⟨hi, _⟩, hcb⟩ := (s.board.getTile_eq_some_iff _ _ _).mp hb
    exact hm.2 i j a b hi hj hca hcb

/-- An instance of C1: the two road tiles on a 2 by 2 board end side by side, road against
road. -/
theorem Can_place_true_edges_equal_witness :
    Can_place (Board.new 2 2) twoRoadTiles [] 0 false 0 0 = some (true, twoRoadSolved) ∧
    twoRoadSolved.board.getTile 0 0 = some (some tileRoadEast) ∧
    twoRoadSolved.board.getTile 0 1 = some (some tileRoadWest) ∧
    tileRoadEast.east = tileRoadWest.west :=
  ⟨twoRoad_run, by decide, by decide,
    (Can_place_true_edges_equal 2 2 twoRoadTiles false 0 0 twoRoadSolved (by decide) (by decide)
      twoRoad_run).1 0 0 tileRoadEast tileRoadWest (by decide) (by decide)⟩

theorem isRoadOrCity_false_ne (x : Terrain) (h : isRoadOrCity x = false) :
    x ≠ Terrain.road ∧ x ≠ Terrain.city := by
  cases x <;> simp_all [isRoadOrCity]

theorem BoundaryInv_new (rows cols : Nat) : BoundaryInv rows cols (Board.new rows cols) := by
  refine ⟨rfl, rfl, ?_⟩
  intro i j t h
  have := ((Board.getTile_eq_some_iff _ _ _ _).mp h).2
  simp [Board.new] at this

theorem BoundaryInv_setTile (rows cols : Nat) (b : Board) (i j : Nat) (t : Tile)
    (hI : BoundaryInv rows cols b) (hc : Check_tile b t i j = some true) :
    BoundaryInv rows cols (b.setTile i j t) := by
  obtain ⟨h1, h2, h3⟩ := hI
  refine ⟨h1, h2, ?_⟩
  intro a c u hu
  by_cases hp : a = i ∧ c = j
  · obtain ⟨rfl, rfl⟩ := hp
    have hcell := ((Board.getTile_eq_some_iff _ _ _ _).mp hu).2
    simp only [Board.setTile, and_self, if_true, Option.some.injEq] at hcell
    subst hcell
    exact Check_tile_boundary b t a c hc
  · rw [Board.getTile_setTile_ne _ _ _ _ _ _ hp] at hu
    exact h3 a c u hu

theorem Can_place_BoundaryInv (rows cols : Nat) (tiles : List Tile) (locations : List Location)
    (allow : Bool) (temp num : Int) (s : SearchState)
    (h : Can_place (Board.new rows cols) tiles locations 0 allow temp num = some (true, s)) :
    BoundaryInv rows cols s.board := by
  unfold Can_place at h
  exact (Can_place_fuel_sound tiles allow num (fun _ b _ => BoundaryInv rows cols b)
    (fun _ b _ i j n tile hI _ _ _ hc => BoundaryInv_setTile rows cols b i j _ hI hc)
    _ _ _ _ _ _ (BoundaryInv_new rows cols) h).1

/-- C2: when `Can_place` started at index 0 on an empty board returns true, no placed tile shows
a road or a city towards the board boundary: not to the north in row 0, not to the south in the
last row, not to the west in column 0, not to the east in the last column. -/
theorem Can_place_true_boundary (rows cols : Nat) (tiles : List Tile)
    (locations : List Location) (allow_rotations : Bool) (temp_Solutions num_Solutions : Int)
    (s : SearchState)
    (h : Can_place (Board.new rows cols) tiles locations 0 allow_rotations temp_Solutions
      num_Solutions = some (true, s)) :
    s.board.numRows = rows ∧ s.board.numColumns = cols ∧
    ∀ i j t, s.board.getTile i j = some (some t) →
      (i = 0 → t.north ≠ Terrain.road ∧ t.north ≠ Terrain.city) ∧
      (i + 1 = rows → t.south ≠ Terrain.road ∧ t.south ≠ Terrain.city) ∧
      (j = 0 → t.west ≠ Terrain.road ∧ t.west ≠ Terrain.city) ∧
      (j + 1 = cols → t.east ≠ Terrain.road ∧ t.east ≠ Terrain.city) := by
  obtain ⟨h1, h2, h3⟩ := Can_place_BoundaryInv rows cols tiles locations allow_rotations _ _ s h
  refine ⟨h1, h2, ?_⟩
  intro i j t ht
  obtain ⟨b1, b2, b3, b4⟩ := h3 i j t ht
  exact ⟨fun hi => isRoadOrCity_false_ne _ (b1 hi),
    fun hi => isRoadOrCity_false_ne _ (b3 (by omega)),
    fun hj => isRoadOrCity_false_ne _ (b2 hj),
    fun hj => isRoadOrCity_false_ne _ (b4 (by omega))⟩

theorem ShapeInv_new (rows cols : Nat) (tiles : List Tile) (m : Nat) :
    ShapeInv rows cols tiles m 0 (Board.new rows cols) [] := by
  refine ⟨rfl, rfl, rfl, ?_, ?_, ?_, List.Pairwise.nil⟩
  · intro k tile hk
    omega
  · intro loc hloc
    simp at hloc
  · intro i j h
    simp [Board.new] at h

theorem ShapeInv_setTile (rows cols : Nat) (tiles : List Tile) (m index : Nat) (b : Board)
    (l : List Location) (i j n : Nat) (tile : Tile)
    (hI : ShapeInv rows cols tiles m index b l) (ht : tiles[index]? = some tile) (hn : n < m)
    (hg : b.getTile i j = some none) :
    ShapeInv rows cols tiles m (index + 1) (b.setTile i j (rotatedTile tile n))
      (l ++ [⟨i, j, 90 * n⟩]) := by
  obtain ⟨h1, h2, h3, h4, h5, h6, h7⟩ := hI
  obtain ⟨hrange, hcell⟩ := (b.getTile_eq_some_iff i j none).mp hg
  have hfresh : ∀ loc ∈ l, ¬ (loc.row = i ∧ loc.column = j) := by
    intro loc hloc hp
    apply h5 loc hloc
    rw [hp.1, hp.2]
    exact hcell
  refine ⟨h1, h2, by simp [h3], ?_, ?_, ?_, ?_⟩
  · intro k tile1 hk hk1
    rcases Nat.lt_succ_iff_lt_or_eq.mp hk with hlt | heq
    · obtain ⟨loc, n1, hl, hn1, hrot, hget⟩ := h4 k tile1 hlt hk1
      refine ⟨loc, n1, ?_, hn1, hrot, ?_⟩
      · rw [List.getElem?_append_left (by omega)]
        exact hl
      · rw [Board.getTile_setTile_ne _ _ _ _ _ _ (hfresh loc (List.getElem?_mem hl))]
        exact hget
    · subst heq
      rw [ht] at hk1
      simp only [Option.some.injEq] at hk1
      subst hk1
      refine ⟨⟨i, j, 90 * n⟩, n, ?_, hn, rfl, ?_⟩
      · rw [← h3]
        simp
      · exact Board.getTile_setTile_self b i j _ hrange
  · intro loc hloc
    rw [List.mem_append, List.mem_singleton] at hloc
    rcases hloc with hloc | rfl
    · have := hfresh loc hloc
      simp only [Board.setTile, this, if_false]
      exact h5 loc hloc
    · simp [Board.setTile]
  · intro a c hne
    by_cases hp : a = i ∧ c = j
    · exact ⟨⟨i, j, 90 * n⟩, by simp, hp.1.symm, hp.2.symm⟩
    · simp only [Board.setTile, hp, if_false] at hne
      obtain ⟨loc, hloc, hr⟩ := h6 a c hne
      exact ⟨loc, List.mem_append_left _ hloc, hr⟩
  · rw [List.pairwise_append]
    refine ⟨h7, List.pairwise_singleton _ _, ?_⟩
    intro a ha c hc
    rw [List.mem_singleton] at hc
    subst hc
    exact hfresh a ha

theorem Can_place_ShapeInv (rows cols : Nat) (tiles : List Tile)
    (allow : Bool) (temp num : Int) (s : SearchState)
    (h : Can_place (Board.new rows cols) tiles [] 0 allow temp num = some (true, s)) :
    ShapeInv rows cols tiles (if allow then 4 else 1) tiles.length s.board s.locations := by
  unfold Can_place at h
  exact (Can_place_fuel_sound tiles allow num (ShapeInv rows cols tiles (if allow then 4 else 1))
    (fun index b l i j n tile hI ht hn hg _ =>
      ShapeInv_setTile rows cols tiles _ index b l i j n tile hI ht hn hg)
    _ _ _ _ _ _ (ShapeInv_new rows cols tiles _) h).1

/-- C5: when `Can_place` started at index 0 on an empty board with an empty location stack
returns true, the stack has one Location per tile in input order; the Location of tile `k` names
a cell inside the board that holds tile `k` rotated by the recorded rotation, which is 0, 90, 180
or 270, and 0 when rotations are disabled; distinct Locations name distinct cells, and a cell
named by no Location is empty. -/
theorem Can_place_true_solution_shape (rows cols : Nat) (tiles : List Tile)
    (allow_rotations : Bool) (temp_Solutions num_Solutions : Int) (s : SearchState)
    (h : Can_place (Board.new rows cols) tiles [] 0 allow_rotations temp_Solutions num_Solutions
      = some (true, s)) :
    s.locations.length = tiles.length ∧
    (∀ (k : Nat) (tile : Tile), tiles[k]? = some tile → ∃ loc : Location, s.locations[k]? = some loc ∧
      loc.row < rows ∧ loc.column < cols ∧
      (loc.rotation = 0 ∨ loc.rotation = 90 ∨ loc.rotation = 180 ∨ loc.rotation = 270) ∧
      (allow_rotations = false → loc.rotation = 0) ∧
      s.board.getTile loc.row loc.column = some (some (rotatedTile tile (loc.rotation / 90)))) ∧
    s.locations.Pairwise (fun a c => ¬ (a.row = c.row ∧ a.column = c.column)) ∧
    (∀ i j, i < rows → j < cols → (∀ loc ∈ s.locations, ¬ (loc.row = i ∧ loc.column = j)) →
      s.board.getTile i j = some none) := by
  obtain ⟨h1, h2, h3, h4, h5, h6, h7⟩ :=
    Can_place_ShapeInv rows cols tiles allow_rotations _ _ s h
  refine ⟨h3, ?_, h7, ?_⟩
  · intro k tile hk
    have hklt : k < tiles.length := by
      rcases Nat.lt_or_ge k tiles.length with hlt | hge
      · exact hlt
      · rw [List.getElem?_eq_none hge] at hk
        simp at hk
    obtain ⟨loc, n, hl, hn, hrot, hget⟩ := h4 k tile hklt hk
    obtain ⟨⟨hr, hc⟩, -⟩ := (s.board.getTile_eq_some_iff _ _ _).mp hget
    have hn4 : n < 4 := by
      cases allow_rotations <;> simp at hn <;> omega
    refine ⟨loc, hl, by omega, by omega, by omega, ?_, ?_⟩
    · intro hfalse
      subst hfalse
      simp at hn
      omega
    · rw [hrot, Nat.mul_div_cancel_left n (by decide : 0 < 90)]
      exact hget
  · intro i j hi hj hfree
    rw [Board.getTile_of_lt _ (by omega) (by omega)]
    by_contra hne
    have hne1 : s.board.cells i j ≠ none := fun hnone => hne (by rw [hnone])
    obtain ⟨loc, hloc, hr, hc⟩ := h6 i j hne1
    exact hfree loc hloc ⟨hr, hc⟩

/-! ## The search engine: termination without contract violation, and completeness -/

theorem Can_place_loop_isSome (num : Int) (recurse : SearchState → Option (Bool × SearchState))
    (tile : Tile) (rows cols : Nat) (hr : 2 ≤ rows) (hc : 2 ≤ cols)
    (hrestore : RestoresOnFalse num recurse)
    (htotal : ∀ s : SearchState, s.board.numRows = rows → s.board.numColumns = cols →
      (recurse s).isSome = true) :
    ∀ (l : List (Nat × Nat × Nat)), (∀ x ∈ l, x.1 < rows ∧ x.2.1 < cols) →
      ∀ s : SearchState, s.board.numRows = rows → s.board.numColumns = cols →
        (Can_place_loop recurse tile l s).isSome = true := by
  intro l
  induction l with
  | nil =>
    intro _ s _ _
    simp [Can_place_loop]
  | cons x rest ih =>
    rcases x with ⟨i, j, n⟩
    intro hm s hsr hsc
    have hrest : ∀ x ∈ rest, x.1 < rows ∧ x.2.1 < cols :=
      fun x hx => hm x (List.mem_cons_of_mem _ hx)
    obtain ⟨hi, hj⟩ := hm (i, j, n) (List.mem_cons_self _ _)
    simp only at hi hj
    rw [Can_place_loop, s.board.getTile_of_lt (by omega) (by omega)]
    cases hcell : s.board.cells i j with
    | some t => exact ih hrest s hsr hsc
    | none =>
      simp only
      have hct := Check_tile_isSome s.board (rotatedTile tile n) i j (by omega) (by omega)
        (by omega) (by omega)
      cases hc : Check_tile s.board (rotatedTile tile n) i j with
      | none => rw [hc] at hct; simp at hct
      | some ok =>
        cases ok with
        | false => exact ih hrest s hsr hsc
        | true =>
          simp only
          have hrt := htotal ⟨s.board.setTile i j (rotatedTile tile n),
            s.locations ++ [⟨i, j, 90 * n⟩], s.temp_Solutions⟩ hsr hsc
          cases hr : recurse ⟨s.board.setTile i j (rotatedTile tile n),
              s.locations ++ [⟨i, j, 90 * n⟩], s.temp_Solutions⟩ with
          | none => rw [hr] at hrt; simp at hrt
          | some res =>
            rcases res with ⟨r, s2⟩
            cases r with
            | true => simp
            | false =>
              simp only
              obtain ⟨hb, -, -⟩ := hrestore _ _ hr
              simp only at hb
              apply ih hrest
              · simp only [Board.eraseTile, hb, Board.setTile]
                exact hsr
              · simp only [Board.eraseTile, hb, Board.setTile]
                exact hsc

theorem Check_the_whole_board_isSome (board : Board) (temp num : Int)
    (hr : 2 ≤ board.numRows) (hc : 2 ≤ board.numColumns) :
    (Check_the_whole_board board temp num).isSome = true := by
  unfold Check_the_whole_board
  have h : (Check_all_cells board).isSome = true := by
    unfold Check_all_cells
    apply runChecks_isSome
    intro c hc1
    obtain ⟨⟨i, j⟩, hm, rfl⟩ := List.mem_map.mp hc1
    obtain ⟨hi, hj⟩ := (mem_cellOrder _ _ _).mp hm
    exact Check_cell_isSome board i j hr hc hi hj
  cases hcc : Check_all_cells board with
  | none => rw [hcc] at h; simp at h
  | some ok => cases ok <;> simp

/-- On a board with at least two rows and two columns the search returns a result: no call of
`getTile` leaves the grid and the recursion depth `tiles.size() - index` suffices. -/
theorem Can_place_fuel_isSome (tiles : List Tile) (allow : Bool) (num : Int) :
    ∀ (fuel : Nat) (board : Board) (locations : List Location) (index : Nat) (temp : Int),
      2 ≤ board.numRows → 2 ≤ board.numColumns → index ≤ tiles.length →
      tiles.length ≤ index + fuel →
      (Can_place_fuel fuel board tiles locations index allow temp num).isSome = true := by
  intro fuel
  induction fuel with
  | zero =>
    intro board locations index temp hr hc hle hfuel
    rw [Can_place_fuel, if_pos (by omega)]
    have h := Check_the_whole_board_isSome board temp num hr hc
    cases hcw : Check_the_whole_board board temp num with
    | none => rw [hcw] at h; simp at h
    | some res => rcases res with ⟨r, t⟩; simp
  | succ fuel ih =>
    intro board locations index temp hr hc hle hfuel
    rw [Can_place_fuel]
    split
    · have h := Check_the_whole_board_isSome board temp num hr hc
      cases hcw : Check_the_whole_board board temp num with
      | none => rw [hcw] at h; simp at h
      | some res => rcases res with ⟨r, t⟩; simp
    · rename_i hne
      have hlt : index < tiles.length := by omega
      simp only
      rw [List.getElem?_eq_getElem hlt]
      simp only
      apply Can_place_loop_isSome num _ _ board.numRows board.numColumns hr hc
      · exact fun s s2 hs => Can_place_fuel_restores tiles allow num _ _ _ _ _ _ hs
      · intro s hsr hsc
        exact ih _ _ _ _ (by omega) (by omega) (by omega) (by omega)
      · intro x hx
        obtain ⟨h1, h2, -⟩ := (mem_scanOrder _ _ _ x).mp hx
        exact ⟨h1, h2⟩
      · rfl
      · rfl

theorem Can_place_loop_complete (num : Int) (recurse : SearchState → Option (Bool × SearchState))
    (tile : Tile) (rows cols : Nat) (hr : 2 ≤ rows) (hc : 2 ≤ cols)
    (hrestore : RestoresOnFalse num recurse)
    (htotal : ∀ s : SearchState, s.board.numRows = rows → s.board.numColumns = cols →
      (recurse s).isSome = true)
    (s : SearchState) (hsr : s.board.numRows = rows) (hsc : s.board.numColumns = cols)
    (htemp : num ≤ s.temp_Solutions) :
    ∀ (l : List (Nat × Nat × Nat)), (∀ x ∈ l, x.1 < rows ∧ x.2.1 < cols) →
      (∃ x ∈ l, s.board.getTile x.1 x.2.1 = some none ∧
        Check_tile s.board (rotatedTile tile x.2.2) x.1 x.2.1 = some true ∧
        ∃ s1, recurse ⟨s.board.setTile x.1 x.2.1 (rotatedTile tile x.2.2),
          s.locations ++ [⟨x.1, x.2.1, 90 * x.2.2⟩], s.temp_Solutions⟩ = some (true, s1)) →
      ∃ s1, Can_place_loop recurse tile l s = some (true, s1) := by
  intro l
  induction l with
  | nil =>
    rintro _ ⟨x, hx, -⟩
    simp at hx
  | cons y rest ih =>
    rcases y with ⟨i, j, n⟩
    intro hm hex
    have hrest : ∀ x ∈ rest, x.1 < rows ∧ x.2.1 < cols :=
      fun x hx => hm x (List.mem_cons_of_mem _ hx)
    obtain ⟨hi, hj⟩ := hm (i, j, n) (List.mem_cons_self _ _)
    simp only at hi hj
    rw [Can_place_loop, s.board.getTile_of_lt (by omega) (by omega)]
    have hex_rest : ¬ (s.board.getTile i j = some none ∧
        Check_tile s.board (rotatedTile tile n) i j = some true ∧
        ∃ s1, recurse ⟨s.board.setTile i j (rotatedTile tile n),
          s.locations ++ [⟨i, j, 90 * n⟩], s.temp_Solutions⟩ = some (true, s1)) →
        ∃ s1, Can_place_loop recurse tile rest s = some (true, s1) := by
      intro hnot
      apply ih hrest
      obtain ⟨x, hx, hprop⟩ := hex
      rcases List.mem_cons.mp hx with rfl | hx1
      · exact absurd hprop hnot
      · exact ⟨x, hx1, hprop⟩
    cases hcell : s.board.cells i j with
    | some t =>
      simp only
      apply hex_rest
      rintro ⟨hg, -⟩
      rw [s.board.getTile_of_lt (by omega) (by omega), hcell] at hg
      simp at hg
    | none =>
      simp only
      have hct := Check_tile_isSome s.board (rotatedTile tile n) i j (by omega) (by omega)
        (by omega) (by omega)
      cases hck : Check_tile s.board (rotatedTile tile n) i j with
      | none => rw [hck] at hct; simp at hct
      | some ok =>
        cases ok with
        | false =>
          simp only
          apply hex_rest
          rintro ⟨-, hc1, -⟩
          rw [hck] at hc1
          simp at hc1
        | true =>
          simp only
          have hrt := htotal ⟨s.board.setTile i j (rotatedTile tile n),
            s.locations ++ [⟨i, j, 90 * n⟩], s.temp_Solutions⟩ hsr hsc
          cases hrec : recurse ⟨s.board.setTile i j (rotatedTile tile n),
              s.locations ++ [⟨i, j, 90 * n⟩], s.temp_Solutions⟩ with
          | none => rw [hrec] at hrt; simp at hrt
          | some res =>
            rcases res with ⟨r, s2⟩
            cases r with
            | true => exact ⟨s2, rfl⟩
            | false =>
              simp only
              obtain ⟨hb, hl, ht⟩ := hrestore _ _ hrec
              simp only at hb hl ht
              have hs : (⟨s2.board.eraseTile i j, s2.locations.dropLast, s2.temp_Solutions⟩ :
                  SearchState) = s := by
                rw [hb, hl, ht htemp, Board.eraseTile_setTile _ _ _ _ hcell,
                  List.dropLast_concat]
              rw [hs]
              apply hex_rest
              rintro ⟨-, -, s1, hs1⟩
              rw [hrec] at hs1
              simp at hs1

theorem placeAll_nil_right (board : Board) (ts : List Tile) : placeAll board ts [] = board := by
  cases ts <;> rfl

theorem placeAll_dims (ts : List Tile) :
    ∀ (ls : List Location) (board : Board),
      (placeAll board ts ls).numRows = board.numRows ∧
        (placeAll board ts ls).numColumns = board.numColumns := by
  induction ts with
  | nil => intro ls board; exact ⟨rfl, rfl⟩
  | cons t ts ih =>
    intro ls board
    cases ls with
    | nil => exact ⟨rfl, rfl⟩
    | cons l ls =>
      rw [placeAll]
      exact ih ls _

theorem placeAll_cells_of_not_named (ts : List Tile) :
    ∀ (ls : List Location) (board : Board) (i j : Nat),
      (∀ loc ∈ ls, ¬ (loc.row = i ∧ loc.column = j)) →
      (placeAll board ts ls).cells i j = board.cells i j := by
  induction ts with
  | nil => intro ls board i j _; rfl
  | cons t ts ih =>
    intro ls board i j h
    cases ls with
    | nil => rfl
    | cons l ls =>
      rw [placeAll, ih ls _ i j (fun loc hloc => h loc (List.mem_cons_of_mem _ hloc))]
      have hl := h l (List.mem_cons_self _ _)
      have hl1 : ¬ (i = l.row ∧ j = l.column) := fun hp => hl ⟨hp.1.symm, hp.2.symm⟩
      simp [Board.setTile, hl1]

/-- Completeness of the search below a partial placement: if the remaining tiles can be placed,
in order, in empty cells so that the final board `F` is legal, the search succeeds. -/
theorem Can_place_fuel_complete (tiles : List Tile) (allow : Bool) (num : Int) (F : Board)
    (hr : 2 ≤ F.numRows) (hc : 2 ≤ F.numColumns) (hF : Check_all_cells F = some true)
    (hFb : ∀ i j t, F.getTile i j = some (some t) → boundaryRule F t i j) :
    ∀ (rest : List Location) (fuel : Nat) (board : Board) (locations : List Location)
      (index : Nat) (temp : Int),
      num ≤ temp → index + rest.length = tiles.length → tiles.length ≤ index + fuel →
      (∀ loc ∈ rest, loc.row < F.numRows ∧ loc.column < F.numColumns ∧
        board.cells loc.row loc.column = none ∧
        ∃ n, n < (if allow then 4 else 1) ∧ loc.rotation = 90 * n) →
      rest.Pairwise (fun a c => ¬ (a.row = c.row ∧ a.column = c.column)) →
      placeAll board (tiles.drop index) rest = F →
      ∃ s1, Can_place_fuel fuel board tiles locations index allow temp num = some (true, s1) := by
  intro rest
  induction rest with
  | nil =>
    intro fuel board locations index temp htemp hlen hfuel hrest hpw hplace
    rw [placeAll_nil_right] at hplace
    subst hplace
    simp only [List.length_nil, Nat.add_zero] at hlen
    have hw : Check_the_whole_board board temp num = some (true, temp + 1) := by
      unfold Check_the_whole_board
      rw [hF]
      simp only
      rw [decide_eq_true (by omega : temp + 1 > num)]
    cases fuel with
    | zero =>
      rw [Can_place_fuel, if_pos hlen, hw]
      exact ⟨_, rfl⟩
    | succ fuel =>
      rw [Can_place_fuel, if_pos hlen, hw]
      exact ⟨_, rfl⟩
  | cons loc rest ih =>
    intro fuel board locations index temp htemp hlen hfuel hrest hpw hplace
    simp only [List.length_cons] at hlen
    have hlt : index < tiles.length := by omega
    obtain ⟨hFr, hFc⟩ := placeAll_dims (tiles.drop index) (loc :: rest) board
    rw [hplace] at hFr hFc
    cases fuel with
    | zero => omega
    | succ fuel =>
      obtain ⟨hlr, hlc, hlcell, n, hn, hrot⟩ := hrest loc (List.mem_cons_self _ _)
      have hdrop : tiles.drop index = tiles[index] :: tiles.drop (index + 1) :=
        List.drop_eq_getElem_cons hlt
      rw [hdrop, placeAll, hrot, Nat.mul_div_cancel_left n (by decide : 0 < 90)] at hplace
      obtain ⟨hpw1, hpw2⟩ := List.pairwise_cons.mp hpw
      -- the tile of `loc` is in the final board
      have hFloc : F.cells loc.row loc.column = some (rotatedTile tiles[index] n) := by
        rw [← hplace, placeAll_cells_of_not_named _ _ _ _ _
          (fun l hl hp => hpw1 l hl ⟨hp.1.symm, hp.2.symm⟩)]
        simp [Board.setTile]
      -- every tile of the current board is in the final board
      have hsub : ∀ i j t, board.cells i j = some t → F.cells i j = some t := by
        intro i j t ht
        have hne : ¬ (i = loc.row ∧ j = loc.column) := by
          rintro ⟨rfl, rfl⟩
          rw [hlcell] at ht
          simp at ht
        rw [← hplace, placeAll_cells_of_not_named]
        · simp only [Board.setTile, hne, if_false]
          exact ht
        · intro l hl hp
          have := (hrest l (List.mem_cons_of_mem _ hl)).2.2.1
          rw [hp.1, hp.2, ht] at this
          simp at this
      have hmatch := Check_all_cells_edgesMatch F hF
      have hbr : boundaryRule board (rotatedTile tiles[index] n) loc.row loc.column := by
        have := hFb loc.row loc.column _ (by rw [F.getTile_of_lt hlr hlc, hFloc])
        unfold boundaryRule at this ⊢
        rw [← hFr, ← hFc]
        exact this
      have hcheck : Check_tile board (rotatedTile tiles[index] n) loc.row loc.column
          = some true := by
        apply Check_tile_of_rules board _ _ _ (by omega) (by omega) (by omega) (by omega) hbr
        · intro t hpos ht
          have := hmatch.2 (loc.row - 1) loc.column t _ (by omega) hlc (hsub _ _ _ ht)
            (by rw [Nat.sub_add_cancel hpos]; exact hFloc)
          exact this.symm
        · intro t hlt1 ht
          exact hmatch.2 loc.row loc.column _ t (by omega) hlc hFloc (hsub _ _ _ ht)
        · intro t hpos ht
          have := hmatch.1 loc.row (loc.column - 1) t _ hlr (by omega) (hsub _ _ _ ht)
            (by rw [Nat.sub_add_cancel hpos]; exact hFloc)
          exact this.symm
        · intro t hlt1 ht
          exact hmatch.1 loc.row loc.column _ t hlr (by omega) hFloc (hsub _ _ _ ht)
      rw [Can_place_fuel, if_neg (by omega)]
      simp only
      rw [List.getElem?_eq_getElem hlt]
      simp only
      apply Can_place_loop_complete num _ _ board.numRows board.numColumns (by omega) (by omega)
        (fun s s2 hs => Can_place_fuel_restores tiles allow num _ _ _ _ _ _ hs)
        (fun s hsr hsc => Can_place_fuel_isSome tiles allow num _ _ _ _ _ (by omega) (by omega)
          (by omega) (by omega))
        ⟨board, locations, temp⟩ rfl rfl htemp
      · intro x hx
        obtain ⟨h1, h2, -⟩ := (mem_scanOrder _ _ _ x).mp hx
        exact ⟨h1, h2⟩
      · refine ⟨(loc.row, loc.column, n), ?_, ?_, hcheck, ?_⟩
        · rw [mem_scanOrder]
          refine ⟨by simp only; omega, by simp only; omega, ?_⟩
          cases allow <;> simpa using hn
        · simp only
          rw [board.getTile_of_lt (by omega) (by omega), hlcell]
        · apply ih fuel _ _ (index + 1) temp htemp (by omega) (by omega) _ hpw2 hplace
          intro l hl
          obtain ⟨h1, h2, h3, h4⟩ := hrest l (List.mem_cons_of_mem _ hl)
          refine ⟨h1, h2, ?_, h4⟩
          have hne : ¬ (l.row = loc.row ∧ l.column = loc.column) :=
            fun hp => hpw1 l hl ⟨hp.1.symm, hp.2.symm⟩
          simp only [Board.setTile, hne, if_false]
          exact h3

theorem placeAll_cells_some (ts : List Tile) :
    ∀ (ls : List Location) (board : Board) (i j : Nat) (t : Tile),
      (placeAll board ts ls).cells i j = some t →
      board.cells i j = some t ∨
        ∃ p ∈ ts.zip ls, p.2.row = i ∧ p.2.column = j ∧
          t = rotatedTile p.1 (p.2.rotation / 90) := by
  induction ts with
  | nil => intro ls board i j t h; exact Or.inl h
  | cons t0 ts ih =>
    intro ls board i j t h
    cases ls with
    | nil => exact Or.inl h
    | cons l ls =>
      rw [placeAll] at h
      rcases ih ls _ i j t h with h1 | ⟨p, hp, hp1⟩
      · by_cases hc : i = l.row ∧ j = l.column
        · simp only [Board.setTile, hc, and_self, if_true, Option.some.injEq] at h1
          exact Or.inr ⟨(t0, l), by simp, hc.1.symm, hc.2.symm, h1.symm⟩
        · simp only [Board.setTile, hc, if_false] at h1
          exact Or.inl h1
      · exact Or.inr ⟨p, by simp [hp], hp1⟩

/-- C4: completeness of the single-solution search. On a board with at least 2 rows and 2
columns, if the tiles can be assigned pairwise distinct cells inside the board and rotations
(0 only, unless rotations are allowed) so that every tile obeys the boundary rule and the
resulting board is accepted by `Check_the_whole_board`, then `Can_place` started at index 0 on
the empty board with both counters 0 returns true. -/
theorem Can_place_complete (rows cols : Nat) (tiles : List Tile) (allow_rotations : Bool)
    (sol : List Location) (hrows : 2 ≤ rows) (hcols : 2 ≤ cols)
    (hlen : sol.length = tiles.length)
    (hrange : ∀ loc ∈ sol, loc.row < rows ∧ loc.column < cols)
    (hrot : ∀ loc ∈ sol, loc.rotation = 0 ∨
      (allow_rotations = true ∧ (loc.rotation = 90 ∨ loc.rotation = 180 ∨ loc.rotation = 270)))
    (hdistinct : sol.Pairwise (fun a c => ¬ (a.row = c.row ∧ a.column = c.column)))
    (hboundary : ∀ p ∈ tiles.zip sol,
      boundaryRule (Board.new rows cols) (rotatedTile p.1 (p.2.rotation / 90)) p.2.row p.2.column)
    (hlegal : Check_the_whole_board (placeAll (Board.new rows cols) tiles sol) 0 0
      = some (true, 1)) :
    ∃ s, Can_place (Board.new rows cols) tiles [] 0 allow_rotations 0 0 = some (true, s) := by
  obtain ⟨hFr, hFc⟩ := placeAll_dims tiles sol (Board.new rows cols)
  unfold Can_place
  apply Can_place_fuel_complete tiles allow_rotations 0
    (placeAll (Board.new rows cols) tiles sol) (by rw [hFr]; exact hrows)
    (by rw [hFc]; exact hcols) (Check_the_whole_board_true _ _ _ _ hlegal) ?_ sol _ _ _ 0 0
    (le_refl _) (by omega) (by omega) ?_ hdistinct (by simp)
  · intro i j t ht
    obtain ⟨-, hcell⟩ := (Board.getTile_eq_some_iff _ _ _ _).mp ht
    rcases placeAll_cells_some tiles sol _ i j t hcell with h1 | ⟨p, hp, h1, h2, h3⟩
    · simp [Board.new] at h1
    · have := hboundary p hp
      rw [h1, h2, ← h3] at this
      unfold boundaryRule at this ⊢
      rw [hFr, hFc]
      exact this
  · intro loc hloc
    obtain ⟨h1, h2⟩ := hrange loc hloc
    rw [hFr, hFc]
    refine ⟨h1, h2, rfl, ?_⟩
    rcases hrot loc hloc with h0 | ⟨ha, h90 | h180 | h270⟩
    · exact ⟨0, by cases allow_rotations <;> simp, by omega⟩
    · exact ⟨1, by simp [ha], by omega⟩
    · exact ⟨2, by simp [ha], by omega⟩
    · exact ⟨3, by simp [ha], by omega⟩

/-- An instance of C4: the arrangement of the two road tiles in cells (0, 0) and (0, 1) is legal,
so the search succeeds. -/
theorem Can_place_complete_witness :
    ∃ s, Can_place (Board.new 2 2) twoRoadTiles [] 0 false 0 0 = some (true, s) :=
  Can_place_complete 2 2 twoRoadTiles false [⟨0, 0, 0⟩, ⟨0, 1, 0⟩] (by decide) (by decide)
    (by decide) (by decide) (by decide) (by decide) (by decide) (by decide)

/-- An instance of C2: the tile that the search puts in the corner (0, 1) shows pasture to the
north and to the east. -/
theorem Can_place_true_boundary_witness :
    Can_place (Board.new 2 2) twoRoadTiles [] 0 false 0 0 = some (true, twoRoadSolved) ∧
    twoRoadSolved.board.getTile 0 1 = some (some tileRoadWest) ∧
    tileRoadWest.north ≠ Terrain.road ∧ tileRoadWest.east ≠ Terrain.city :=
  ⟨twoRoad_run, by decide,
    (((Can_place_true_boundary 2 2 twoRoadTiles [] false 0 0 twoRoadSolved twoRoad_run).2.2
      0 1 tileRoadWest (by decide)).1 rfl).1,
    (((Can_place_true_boundary 2 2 twoRoadTiles [] false 0 0 twoRoadSolved twoRoad_run).2.2
      0 1 tileRoadWest (by decide)).2.2.2 rfl).2⟩

/-- An instance of C5: the Solution for the two road tiles has two Locations. -/
theorem Can_place_true_solution_shape_witness :
    Can_place (Board.new 2 2) twoRoadTiles [] 0 false 0 0 = some (true, twoRoadSolved) ∧
    twoRoadSolved.locations.length = twoRoadTiles.length :=
  ⟨twoRoad_run,
    (Can_place_true_solution_shape 2 2 twoRoadTiles false 0 0 twoRoadSolved twoRoad_run).1⟩

/-! ## The local checker -/

/-- C8: boundary rule of the local checker. If `Check_tile` returns true for a cell inside the
board, the candidate shows neither road nor city to the north in the top row, to the south in
the bottom row, to the west in the leftmost column, to the east in the rightmost column. -/
theorem Check_tile_true_boundary_rule (board : Board) (tmp : Tile) (i j : Nat)
    (hi : i < board.numRows) (hj : j < board.numColumns)
    (h : Check_tile board tmp i j = some true) :
    (i = 0 → tmp.north ≠ Terrain.road ∧ tmp.north ≠ Terrain.city) ∧
    (i + 1 = board.numRows → tmp.south ≠ Terrain.road ∧ tmp.south ≠ Terrain.city) ∧
    (j = 0 → tmp.west ≠ Terrain.road ∧ tmp.west ≠ Terrain.city) ∧
    (j + 1 = board.numColumns → tmp.east ≠ Terrain.road ∧ tmp.east ≠ Terrain.city) := by
  obtain ⟨b1, b2, b3, b4⟩ := Check_tile_boundary board tmp i j h
  exact ⟨fun hi => isRoadOrCity_false_ne _ (b1 hi), fun hi => isRoadOrCity_false_ne _ (b3 hi),
    fun hj => isRoadOrCity_false_ne _ (b2 hj), fun hj => isRoadOrCity_false_ne _ (b4 hj)⟩

/-- An instance of C8: a tile accepted in the corner (0, 0) shows pasture to the north. -/
theorem Check_tile_true_boundary_rule_witness :
    Check_tile (Board.new 2 2) tileRoadEast 0 0 = some true ∧
    tileRoadEast.north ≠ Terrain.road ∧ tileRoadEast.north ≠ Terrain.city :=
  ⟨by decide,
    (Check_tile_true_boundary_rule (Board.new 2 2) tileRoadEast 0 0 (by decide) (by decide)
      (by decide)).1 rfl⟩

/-- C9: the local checker defers the check of empty neighbours. On a board with at least 2 rows
and 2 columns, for a cell inside the board, if the candidate obeys the boundary rule and its
edge equals the opposite edge of every occupied orthogonal neighbour, `Check_tile` returns
true; nothing is asked of an edge that faces an empty cell. -/
theorem Check_tile_accepts (board : Board) (tmp : Tile) (i j : Nat)
    (hrows : 2 ≤ board.numRows) (hcols : 2 ≤ board.numColumns)
    (hi : i < board.numRows) (hj : j < board.numColumns)
    (hboundary : boundaryRule board tmp i j)
    (hnorth : ∀ a t, a + 1 = i → board.getTile a j = some (some t) → tmp.north = t.south)
    (hsouth : ∀ t, board.getTile (i + 1) j = some (some t) → tmp.south = t.north)
    (hwest : ∀ c t, c + 1 = j → board.getTile i c = some (some t) → tmp.west = t.east)
    (heast : ∀ t, board.getTile i (j + 1) = some (some t) → tmp.east = t.west) :
    Check_tile board tmp i j = some true := by
  apply Check_tile_of_rules board tmp i j hrows hcols hi hj hboundary
  · intro t hpos ht
    exact hnorth (i - 1) t (by omega) (by rw [board.getTile_of_lt (by omega) hj, ht])
  · intro t hlt ht
    exact hsouth t (by rw [board.getTile_of_lt hlt hj, ht])
  · intro t hpos ht
    exact hwest (j - 1) t (by omega) (by rw [board.getTile_of_lt hi (by omega), ht])
  · intro t hlt ht
    exact heast t (by rw [board.getTile_of_lt hi hlt, ht])

/-- An instance of C9: a road that faces the empty cell (0, 1) does not make `Check_tile`
reject the candidate. -/
theorem Check_tile_accepts_witness :
    (Board.new 2 2).getTile 0 1 = some none ∧ tileRoadEast.east = Terrain.road ∧
    Check_tile (Board.new 2 2) tileRoadEast 0 0 = some true :=
  ⟨by decide, rfl,
    Check_tile_accepts (Board.new 2 2) tileRoadEast 0 0 (by decide) (by decide) (by decide)
      (by decide) (by decide)
      (fun a t _ h => by simp [Board.getTile, Board.new] at h)
      (fun t h => by simp [Board.getTile, Board.new] at h)
      (fun c t _ h => by simp [Board.getTile, Board.new] at h)
      (fun t h => by simp [Board.getTile, Board.new] at h)⟩

/-! ## Inputs on which the code departs from the specification -/

/-- C3, at the failing input: one tile with a city on its south edge on a 2 by 2 board. The
search returns true with the tile in cell (0, 0), its city facing the cell (1, 0), which is
inside the board and empty: the test of line 157 compares `south` with "road" twice and never
with "city". -/
theorem Can_place_city_faces_empty_cell :
    Can_place (Board.new 2 2) [tileCitySouth] [] 0 false 0 0 = some (true, citySouthSolved) ∧
    citySouthSolved.board.getTile 0 0 = some (some tileCitySouth) ∧
    tileCitySouth.south = Terrain.city ∧
    citySouthSolved.board.getTile 1 0 = some none :=
  ⟨rfl, by decide, rfl, by decide⟩

/-- C7, at the failing input: on a 2 by 2 board whose cell (0, 1) holds a tile with a road on
its west edge, `Check_tile` accepts an all-pasture candidate for the corner cell (0, 0), although
the candidate's east edge differs from the neighbour's west edge: the three neighbour blocks of
`Check_tile` cover `j == 0 && i > 0`, `i == 0 && j > 0` and `i > 0 && j > 0` only. -/
theorem Check_tile_corner_skips_neighbours :
    boardRoadAtEast.getTile 0 1 = some (some tileRoadWest) ∧
    Check_tile boardRoadAtEast tilePasture 0 0 = some true ∧
    tilePasture.east ≠ tileRoadWest.west :=
  ⟨by decide, by decide, by decide⟩

/-- C10, at the failing input: two all-pasture tiles, a requested 1 by 2 board, all solutions,
no rotations. `main` replaces the board by a 1 by 1 board (lines 411-414, since 1 + 2 > 2) and
reports "No Solution."; on the requested 1 by 2 board itself the search leaves the grid
(`getTile(1, 1)` in `Check_tile`). -/
theorem main_two_pastures_no_solution :
    (∀ fuel, main_search 1 2 [tilePasture, tilePasture] true false (fuel + 1)
      = some Outcome.noSolution) ∧
    (Can_place (Board.new 1 2) [tilePasture, tilePasture] [] 0 false 0 0).isNone = true :=
  ⟨fun _ => rfl, by decide⟩

/-! ## The global checker on a full board -/

theorem isRoadOrCity_false_of_ne (x : Terrain) (h1 : x ≠ Terrain.road) (h2 : x ≠ Terrain.city) :
    isRoadOrCity x = false := by
  cases x <;> simp_all [isRoadOrCity]

theorem Check_cell_of_full (board : Board) (hr : 2 ≤ board.numRows) (hc : 2 ≤ board.numColumns)
    (hfull : ∀ i j, i < board.numRows → j < board.numColumns → board.cells i j ≠ none)
    (hm : board.edgesMatch)
    (hN : ∀ j t, j < board.numColumns → board.cells 0 j = some t → isRoadOrCity t.north = false)
    (hW : ∀ i t, i < board.numRows → board.cells i 0 = some t → isRoadOrCity t.west = false)
    (i j : Nat) (hi : i < board.numRows) (hj : j < board.numColumns) :
    Check_cell board i j = some true := by
  unfold Check_cell
  rw [board.getTile_of_lt hi hj]
  cases hcell : board.cells i j with
  | none => exact absurd hcell (hfull i j hi hj)
  | some t =>
    simp only [runChecks_cons_true_iff, runChecks_nil_true, and_true,
      whenB_true_iff, failIf_true_iff, matchOrElse_true_iff, emptyNeedsPasture_true_iff,
      Bool.and_eq_true, decide_eq_true_eq, beq_iff_eq]
    have hE : ∀ u, j + 1 < board.numColumns → board.cells i (j + 1) = some u →
        t.east = u.west := fun u h1 hu => hm.1 i j t u hi h1 hcell hu
    have hS : ∀ u, i + 1 < board.numRows → board.cells (i + 1) j = some u →
        t.south = u.north := fun u h1 hu => hm.2 i j t u h1 hj hcell hu
    have hWe : ∀ u, 0 < j → board.cells i (j - 1) = some u → t.west = u.east := by
      intro u h1 hu
      have := hm.1 i (j - 1) u t hi (by omega) hu (by rw [Nat.sub_add_cancel h1]; exact hcell)
      exact this.symm
    have hNo : ∀ u, 0 < i → board.cells (i - 1) j = some u → t.north = u.south := by
      intro u h1 hu
      have := hm.2 (i - 1) j u t (by omega) hj hu (by rw [Nat.sub_add_cancel h1]; exact hcell)
      exact this.symm
    refine ⟨?_, ?_, ?_, ?_, ?_, ?_⟩
    · rintro ⟨rfl, rfl⟩
      refine ⟨?_, ⟨⟨by omega, by omega⟩, fun h => absurd h (hfull _ _ (by omega) (by omega)),
        fun u hu => hE u (by omega) hu⟩, ⟨by omega, by omega⟩,
        fun h => absurd h (hfull _ _ (by omega) (by omega)), fun u hu => hS u (by omega) hu⟩
      have h1 := hN 0 t hj hcell
      have h2 := hW 0 t hi hcell
      revert h1 h2
      cases t.north <;> cases t.west <;> simp [isRoadOrCity]
    · rintro ⟨rfl, hpos⟩
      refine ⟨?_, fun h => ⟨⟨by omega, by omega⟩,
        fun h1 => absurd h1 (hfull _ _ (by omega) (by omega))⟩,
        ⟨⟨by omega, by omega⟩, fun h => absurd h (hfull _ _ (by omega) (by omega)),
          fun u hu => hWe u hpos hu⟩,
        ⟨by omega, by omega⟩, fun h => absurd h (hfull _ _ (by omega) (by omega)),
          fun u hu => hS u (by omega) hu⟩
      have h1 := hN j t hj hcell
      simpa [isRoadOrCity] using h1
    · rintro ⟨rfl, hpos⟩
      refine ⟨?_, fun h => ⟨⟨by omega, by omega⟩,
        fun h1 => absurd h1 (hfull _ _ (by omega) (by omega))⟩,
        ⟨⟨by omega, by omega⟩, fun h => absurd h (hfull _ _ (by omega) (by omega)),
          fun u hu => hNo u hpos hu⟩,
        ⟨by omega, by omega⟩, fun h => absurd h (hfull _ _ (by omega) (by omega)),
          fun u hu => hE u (by omega) hu⟩
      have h1 := hW i t hi hcell
      simpa [isRoadOrCity] using h1
    · rintro ⟨hpi, hpj⟩
      exact ⟨fun h => ⟨⟨by omega, by omega⟩,
          fun h1 => absurd h1 (hfull _ _ (by omega) (by omega))⟩,
        fun h => ⟨⟨by omega, by omega⟩,
          fun h1 => absurd h1 (hfull _ _ (by omega) (by omega))⟩,
        ⟨⟨by omega, by omega⟩, fun h => absurd h (hfull _ _ (by omega) (by omega)),
          fun u hu => hNo u hpi hu⟩,
        ⟨by omega, by omega⟩, fun h => absurd h (hfull _ _ (by omega) (by omega)),
          fun u hu => hWe u hpj hu⟩
    · rintro ⟨hpi, hlt⟩
      rw [diagonalStep_true_iff board _ _ _ _ _ _ ⟨by omega, by omega⟩ ⟨by omega, by omega⟩
        ⟨by omega, by omega⟩]
      exact fun h => hfull _ _ (by omega) (by omega) h.1
    · rintro ⟨hlt1, hlt2⟩
      rw [diagonalStep_true_iff board _ _ _ _ _ _ ⟨by omega, by omega⟩ ⟨by omega, by omega⟩
        ⟨by omega, by omega⟩]
      exact fun h => hfull _ _ (by omega) (by omega) h.1

/-- C6 as stated fails: on the full 2 by 2 board `boardRoadOut` all touching edges are equal and
`Check_the_whole_board` returns true, yet the tile in cell (1, 1) shows a road to the east
boundary. -/
theorem Check_the_whole_board_misses_east_boundary :
    2 ≤ boardRoadOut.numRows ∧ 2 ≤ boardRoadOut.numColumns ∧
    (∀ i j, i < boardRoadOut.numRows → j < boardRoadOut.numColumns →
      boardRoadOut.getTile i j ≠ some none) ∧
    ¬ (Check_the_whole_board boardRoadOut 0 0 = some (true, 1) ↔
      (boardRoadOut.edgesMatch ∧
        ∀ i j t, boardRoadOut.getTile i j = some (some t) → boundaryRule boardRoadOut t i j)) := by
  refine ⟨by decide, by decide, ?_, ?_⟩
  · intro i j hi hj
    have hi2 : i < 2 := hi
    have hj2 : j < 2 := hj
    interval_cases i <;> interval_cases j <;> decide
  · intro h
    have h1 := (h.mp (by decide)).2 1 1 tileRoadEast (by decide)
    exact absurd h1 (by decide)

/-- C6, amended: on a board with at least 2 rows and 2 columns in which every cell is occupied,
`Check_the_whole_board` with both counters 0 returns true if and only if every two orthogonally
adjacent tiles have equal touching edges, no tile of row 0 shows a road or city to the north and
no tile of column 0 shows one to the west. -/
theorem Check_the_whole_board_full_iff (board : Board)
    (hrows : 2 ≤ board.numRows) (hcols : 2 ≤ board.numColumns)
    (hfull : ∀ i j, i < board.numRows → j < board.numColumns → board.getTile i j ≠ some none) :
    Check_the_whole_board board 0 0 = some (true, 1) ↔
      (board.edgesMatch ∧
        (∀ j t, board.getTile 0 j = some (some t) →
          t.north ≠ Terrain.road ∧ t.north ≠ Terrain.city) ∧
        (∀ i t, board.getTile i 0 = some (some t) →
          t.west ≠ Terrain.road ∧ t.west ≠ Terrain.city)) := by
  constructor
  · intro h
    have hall := Check_the_whole_board_true _ _ _ _ h
    refine ⟨Check_all_cells_edgesMatch board hall, ?_, ?_⟩
    · intro j t ht
      obtain ⟨⟨h0, hj⟩, hcell⟩ := (board.getTile_eq_some_iff _ _ _).mp ht
      have hc := (Check_all_cells_true_iff board).mp hall 0 j h0 hj
      exact isRoadOrCity_false_ne _ ((Check_cell_true board 0 j t hc hcell).2.2.1 rfl)
    · intro i t ht
      obtain ⟨⟨hi, h0⟩, hcell⟩ := (board.getTile_eq_some_iff _ _ _).mp ht
      have hc := (Check_all_cells_true_iff board).mp hall i 0 hi h0
      exact isRoadOrCity_false_ne _ ((Check_cell_true board i 0 t hc hcell).2.2.2 rfl)
  · rintro ⟨hm, hN, hW⟩
    have hfull1 : ∀ i j, i < board.numRows → j < board.numColumns → board.cells i j ≠ none := by
      intro i j hi hj hnone
      exact hfull i j hi hj (by rw [board.getTile_of_lt hi hj, hnone])
    have hall : Check_all_cells board = some true := by
      rw [Check_all_cells_true_iff]
      intro i j hi hj
      apply Check_cell_of_full board hrows hcols hfull1 hm _ _ i j hi hj
      · intro c t hc hcell
        have h1 := hN c t (by rw [board.getTile_of_lt (by omega) hc, hcell])
        exact isRoadOrCity_false_of_ne _ h1.1 h1.2
      · intro r t hr hcell
        have h1 := hW r t (by rw [board.getTile_of_lt hr (by omega), hcell])
        exact isRoadOrCity_false_of_ne _ h1.1 h1.2
    unfold Check_the_whole_board
    rw [hall]
    rfl

/-- An instance of C6 as amended: the full board of pasture tiles is accepted and all its
touching edges are equal. -/
theorem Check_the_whole_board_full_iff_witness :
    Check_the_whole_board boardAllPasture 0 0 = some (true, 1) ∧
    boardAllPasture.edgesMatch :=
  ⟨by decide,
    ((Check_the_whole_board_full_iff boardAllPasture (by decide) (by decide)
      (fun i j hi hj => by
        have hi2 : i < 2 := hi
        have hj2 : j < 2 := hj
        interval_cases i <;> interval_cases j <;> decide)).mp (by decide)).1⟩

/-! ## The neighbour rule of the local checker away from the corner -/

/-- Away from the corner cell (0, 0) the local checker does compare the candidate with every
occupied orthogonal neighbour. -/
theorem Check_tile_neighbours (board : Board) (tmp : Tile) (i j : Nat)
    (hne : ¬ (i = 0 ∧ j = 0)) (h : Check_tile board tmp i j = some true) :
    (∀ a t, a + 1 = i → board.getTile a j = some (some t) → tmp.north = t.south) ∧
    (∀ t, board.getTile (i + 1) j = some (some t) → tmp.south = t.north) ∧
    (∀ c t, c + 1 = j → board.getTile i c = some (some t) → tmp.west = t.east) ∧
    (∀ t, board.getTile i (j + 1) = some (some t) → tmp.east = t.west) := by
  simp only [Check_tile, runChecks_cons_true_iff, runChecks_nil_true, and_true,
    whenB_true_iff, failIf_true_iff, matchIfPresent_true_iff,
    Bool.and_eq_true, decide_eq_true_eq, beq_iff_eq] at h
  obtain ⟨-, -, -, -, hi0, h0j, hij⟩ := h
  refine ⟨?_, ?_, ?_, ?_⟩
  · intro a t ha ht
    obtain ⟨-, hcell⟩ := (board.getTile_eq_some_iff _ _ _).mp ht
    subst ha
    rcases Nat.eq_zero_or_pos j with hj | hj
    · subst hj
      exact (hi0 ⟨rfl, by omega⟩).1.2 t (by simpa using hcell)
    · exact (hij ⟨by omega, hj⟩).1.2 t (by simpa using hcell)
  · intro t ht
    obtain ⟨⟨hr, -⟩, hcell⟩ := (board.getTile_eq_some_iff _ _ _).mp ht
    rcases Nat.eq_zero_or_pos i with hi | hi
    · subst hi
      exact (h0j ⟨rfl, by omega⟩).2.2.2 t hcell
    · rcases Nat.eq_zero_or_pos j with hj | hj
      · subst hj
        exact ((hi0 ⟨rfl, hi⟩).2.1 (by omega)).2 t hcell
      · exact ((hij ⟨hi, hj⟩).2.2.1 (by omega)).2 t hcell
  · intro c t hc ht
    obtain ⟨-, hcell⟩ := (board.getTile_eq_some_iff _ _ _).mp ht
    subst hc
    rcases Nat.eq_zero_or_pos i with hi | hi
    · subst hi
      exact (h0j ⟨rfl, by omega⟩).1.2 t (by simpa using hcell)
    · exact (hij ⟨hi, by omega⟩).2.1.2 t (by simpa using hcell)
  · intro t ht
    obtain ⟨⟨-, hc⟩, hcell⟩ := (board.getTile_eq_some_iff _ _ _).mp ht
    rcases Nat.eq_zero_or_pos j with hj | hj
    · subst hj
      exact (hi0 ⟨rfl, by omega⟩).2.2.2 t hcell
    · rcases Nat.eq_zero_or_pos i with hi | hi
      · subst hi
        exact ((h0j ⟨rfl, hj⟩).2.1 (by omega)).2 t hcell
      · exact ((hij ⟨hi, hj⟩).2.2.2 (by omega)).2 t hcell

/-! ## The duplicate test of the all-solutions loop -/

theorem foldlM_option_isSome {α β : Type} (f : β → α → Option β) :
    ∀ (l : List α) (b : β), (∀ x ∈ l, ∀ c, (f c x).isSome = true) →
      (l.foldlM f b).isSome = true := by
  intro l
  induction l with
  | nil => intro b _; simp
  | cons x l ih =>
    intro b h
    rw [List.foldlM_cons]
    have hx := h x (List.mem_cons_self _ _) b
    cases hfx : f b x with
    | none => rw [hfx] at hx; simp at hx
    | some c =>
      simp only [Option.some_bind, Option.bind_eq_bind]
      exact ih c (fun y hy d => h y (List.mem_cons_of_mem _ hy) d)

theorem count_single (r x : Location) : List.count r [x] = if r = x then 1 else 0 := by
  by_cases h : r = x
  · subst h; simp
  · rw [if_neg h]
    exact List.count_eq_zero.mpr (by simpa using h)

theorem foldlM_option_singleton {α β : Type} (f : β → α → Option β) (b : β) (x : α) :
    [x].foldlM f b = f b x := by
  rw [List.foldlM_cons]
  cases f b x <;> rfl

theorem countEqualPairs_inner (S : List Location) (r : Location) :
    ∀ (k c0 : Nat), k ≤ S.length →
      (List.range k).foldlM (fun count j =>
        match some r, S[j]? with
        | some r, some l => some (if r = l then count + 1 else count)
        | _, _ => none) c0 = some (c0 + (S.take k).count r) := by
  intro k
  induction k with
  | zero =>
    intro c0 _
    rfl
  | succ k ih =>
    intro c0 hk
    have hlt : k < S.length := by omega
    rw [List.range_succ, List.foldlM_append, ih c0 (by omega)]
    rw [List.take_succ, List.getElem?_eq_getElem hlt, List.count_append]
    rw [show (some S[k]).toList = [S[k]] from rfl]
    simp only [Option.bind_eq_bind, Option.some_bind]
    rw [foldlM_option_singleton, List.getElem?_eq_getElem hlt, count_single]
    by_cases h : r = S[k]
    · simp only [if_pos h]
      rfl
    · simp only [if_neg h]
      rfl

theorem countEqualPairs_eq (n : Nat) (R S : List Location) (hR : R.length = n)
    (hS : S.length = n) :
    countEqualPairs n R S = some ((R.map fun r => S.count r).sum) := by
  unfold countEqualPairs
  have key : ∀ (k c0 : Nat), k ≤ R.length →
      (List.range k).foldlM (fun count i =>
        (List.range n).foldlM (fun count j =>
          match R[i]?, S[j]? with
          | some r, some l => some (if r = l then count + 1 else count)
          | _, _ => none) count) c0
        = some (c0 + ((R.take k).map fun r => S.count r).sum) := by
    intro k
    induction k with
    | zero =>
      intro c0 _
      rfl
    | succ k ih =>
      intro c0 hk
      have hlt : k < R.length := by omega
      rw [List.range_succ, List.foldlM_append, ih c0 (by omega)]
      simp only [Option.bind_eq_bind, Option.some_bind]
      rw [foldlM_option_singleton, List.getElem?_eq_getElem hlt,
        countEqualPairs_inner S R[k] n _ (by omega)]
      rw [List.take_succ, List.getElem?_eq_getElem hlt, List.take_of_length_le (by omega :
        S.length ≤ n), show (some R[k]).toList = [R[k]] from rfl, List.map_append,
        List.sum_append]
      simp only [List.map_cons, List.map_nil, List.sum_cons, List.sum_nil, Nat.add_zero,
        Nat.add_assoc]
  have := key n 0 (by omega)
  rw [List.take_of_length_le (by omega : R.length ≤ n), Nat.zero_add] at this
  exact this

theorem countEqualPairs_of_perm (n : Nat) (R S : List Location) (hR : R.length = n)
    (hnodup : R.Nodup) (hperm : S.Perm R) : countEqualPairs n R S = some n := by
  rw [countEqualPairs_eq n R S hR (by rw [hperm.length_eq, hR])]
  have h1 : (R.map fun r => S.count r) = R.map fun _ => 1 := by
    apply List.map_congr_left
    intro r hr
    rw [hperm.count_eq r]
    exact List.count_eq_one_of_mem hnodup hr
  rw [h1]
  simp [hR]

theorem countInterchangeable_isSome (tiles : List Tile) (locations : List Location) (n : Nat)
    (r : Location) (D : Int × Int × Int) (count : Nat)
    (hl : locations.length = tiles.length) (hn : n < tiles.length) :
    (countInterchangeable tiles locations n r D count).isSome = true := by
  unfold countInterchangeable
  apply foldlM_option_isSome
  intro i hi c
  have hi1 : i < tiles.length := List.mem_range.mp hi
  rw [List.getElem?_eq_getElem hi1, List.getElem?_eq_getElem hn]
  simp only
  split
  · rw [List.getElem?_eq_getElem (by omega : i < locations.length)]
    simp
  · simp

theorem countOffsetMatches_isSome (tiles : List Tile) (R locations : List Location)
    (hR : R.length = tiles.length) (hl : locations.length = tiles.length) :
    (countOffsetMatches tiles R locations).isSome = true := by
  unfold countOffsetMatches
  rw [Option.isSome_map']
  apply foldlM_option_isSome
  intro n hn st
  have hn1 : n < tiles.length := List.mem_range.mp hn
  rw [List.getElem?_eq_getElem (by omega : n < locations.length),
    List.getElem?_eq_getElem (by omega : n < R.length)]
  simp only
  split_ifs
  · rfl
  · rw [Option.isSome_map']
    exact countInterchangeable_isSome tiles locations n _ _ _ hl hn1
  · rfl
  · rw [Option.isSome_map']
    exact countInterchangeable_isSome tiles locations n _ _ _ hl hn1

theorem duplicateLoop_of_perm (tiles : List Tile) (Results : List (List Location))
    (R S : List Location) (hlen : ∀ X ∈ Results, X.length = tiles.length)
    (hnodup : R.Nodup) (hperm : S.Perm R) :
    ∀ (ms : List Nat) (count : Nat), (∃ m ∈ ms, Results[m]? = some R) →
      (∀ m ∈ ms, m < Results.length) →
      duplicateLoop tiles Results S ms count = some tiles.length := by
  intro ms
  induction ms with
  | nil =>
    rintro count ⟨m, hm, -⟩
    simp at hm
  | cons m ms ih =>
    intro count hex hbound
    have hm : m < Results.length := hbound m (List.mem_cons_self _ _)
    have hRlen : R.length = tiles.length := by
      obtain ⟨m0, -, h0⟩ := hex
      exact hlen R (List.getElem?_mem h0)
    have hSlen : S.length = tiles.length := by rw [hperm.length_eq, hRlen]
    rw [duplicateLoop, List.getElem?_eq_getElem hm]
    simp only
    have hXlen : Results[m].length = tiles.length := hlen _ (List.getElem_mem _)
    rw [countEqualPairs_eq tiles.length Results[m] S hXlen hSlen]
    simp only
    split
    · rename_i hc1
      rw [hc1]
    · rename_i hc1
      have h2 := countOffsetMatches_isSome tiles Results[m] S hXlen hSlen
      cases hc2 : countOffsetMatches tiles Results[m] S with
      | none => rw [hc2] at h2; simp at h2
      | some c2 =>
        simp only
        split
        · rename_i hc3
          rw [hc3]
        · apply ih c2
          · obtain ⟨m0, hm0, h0⟩ := hex
            rcases List.mem_cons.mp hm0 with rfl | hm1
            · exfalso
              apply hc1
              rw [List.getElem?_eq_getElem hm, Option.some.injEq] at h0
              have := countEqualPairs_of_perm tiles.length R S hRlen hnodup hperm
              rw [countEqualPairs_eq tiles.length R S hRlen hSlen, Option.some.injEq] at this
              rw [h0]
              exact this
            · exact ⟨m0, hm1, h0⟩
          · exact fun k hk => hbound k (List.mem_cons_of_mem _ hk)

/-- The duplicate test collapses permuted solutions: if `R` is one of the accepted `Results`,
its Locations are pairwise distinct, and `locations` lists the same Locations in another order
(as when interchangeable tiles swap their places), then `count` ends equal to `tiles.size()`
and `locations` is not appended. -/
theorem duplicateCount_of_perm (tiles : List Tile) (Results : List (List Location))
    (R locations : List Location) (hR : R ∈ Results)
    (hlen : ∀ X ∈ Results, X.length = tiles.length) (hnodup : R.Nodup)
    (hperm : locations.Perm R) :
    duplicateCount tiles Results.length Results locations = some tiles.length := by
  unfold duplicateCount
  have hpos : Results.length ≠ 0 := by
    intro h0
    rw [List.length_eq_zero] at h0
    rw [h0] at hR
    simp at hR
  rw [if_pos hpos]
  obtain ⟨m, hm⟩ := List.getElem?_of_mem hR
  have hmlt : m < Results.length := by
    rcases Nat.lt_or_ge m Results.length with h | h
    · exact h
    · rw [List.getElem?_eq_none h] at hm
      simp at hm
  exact duplicateLoop_of_perm tiles Results R locations hlen hnodup hperm _ 0
    ⟨m, List.mem_range.mpr hmlt, hm⟩ (fun k hk => List.mem_range.mp hk)

/-! ## Edges that face an empty cell -/

/-- What the body of the global checker establishes about empty neighbours of an occupied cell:
an edge that faces an empty cell inside the board shows neither road nor city, except that for
the south edge of the tile in cell (0, 0) only a road is excluded. -/
theorem Check_cell_faces_empty (board : Board) (i j : Nat) (t : Tile)
    (h : Check_cell board i j = some true) (hcell : board.cells i j = some t) :
    (j + 1 < board.numColumns → board.cells i (j + 1) = none → isRoadOrCity t.east = false) ∧
    (0 < j → board.cells i (j - 1) = none → isRoadOrCity t.west = false) ∧
    (0 < i → board.cells (i - 1) j = none → isRoadOrCity t.north = false) ∧
    (i + 1 < board.numRows → board.cells (i + 1) j = none → ¬ (i = 0 ∧ j = 0) →
      isRoadOrCity t.south = false) ∧
    (i = 0 → j = 0 → board.cells 1 0 = none → t.south ≠ Terrain.road) := by
  unfold Check_cell at h
  have hget : board.getTile i j = some (some t) := by
    cases hg : board.getTile i j with
    | none => rw [hg] at h; simp at h
    | some o =>
      rw [(board.getTile_eq_some_iff i j o).mp hg |>.2] at hcell
      rw [hcell]
  rw [hget] at h
  simp only [runChecks_cons_true_iff, runChecks_nil_true, and_true,
    whenB_true_iff, failIf_true_iff, matchOrElse_true_iff, emptyNeedsPasture_true_iff,
    Bool.and_eq_true, decide_eq_true_eq, beq_iff_eq] at h
  obtain ⟨h00, h0j, hi0, hij, -, -⟩ := h
  have hp : ∀ x : Terrain, x = Terrain.pasture → isRoadOrCity x = false := by
    intro x hx; rw [hx]; rfl
  refine ⟨?_, ?_, ?_, ?_, ?_⟩
  · intro hlt hnone
    rcases Nat.eq_zero_or_pos i with hi | hi
    · rcases Nat.eq_zero_or_pos j with hj | hj
      · exact (h00 ⟨hi, hj⟩).2.1.2.1 hnone
      · subst hi
        exact hp _ (((h0j ⟨rfl, hj⟩).2.1 (by omega)).2 hnone)
    · rcases Nat.eq_zero_or_pos j with hj | hj
      · exact (hi0 ⟨hj, hi⟩).2.2.2.2.1 hnone
      · exact hp _ (((hij ⟨hi, hj⟩).1 (by omega)).2 hnone)
  · intro hj hnone
    rcases Nat.eq_zero_or_pos i with hi | hi
    · exact (h0j ⟨hi, hj⟩).2.2.1.2.1 hnone
    · exact (hij ⟨hi, hj⟩).2.2.2.2.1 hnone
  · intro hi hnone
    rcases Nat.eq_zero_or_pos j with hj | hj
    · exact (hi0 ⟨hj, hi⟩).2.2.1.2.1 hnone
    · exact (hij ⟨hi, hj⟩).2.2.1.2.1 hnone
  · intro hlt hnone hne
    rcases Nat.eq_zero_or_pos i with hi | hi
    · rcases Nat.eq_zero_or_pos j with hj | hj
      · exact absurd ⟨hi, hj⟩ hne
      · exact (h0j ⟨hi, hj⟩).2.2.2.2.1 hnone
    · rcases Nat.eq_zero_or_pos j with hj | hj
      · subst hj
        exact hp _ (((hi0 ⟨rfl, hi⟩).2.1 (by omega)).2 hnone)
      · exact hp _ (((hij ⟨hi, hj⟩).2.1 (by omega)).2 hnone)
  · intro hi hj hnone
    subst hi
    subst hj
    have := (h00 ⟨rfl, rfl⟩).2.2.2.1 hnone
    revert this
    cases t.south <;> simp

/-- What a successful search guarantees about empty neighbours: in the returned board an edge
of a placed tile that faces an empty cell inside the board shows neither road nor city, with
the single exception of a city on the south edge of the tile in cell (0, 0). -/
theorem Can_place_true_faces_empty (rows cols : Nat) (tiles : List Tile) (allow : Bool)
    (temp num : Int) (s : SearchState)
    (h : Can_place (Board.new rows cols) tiles [] 0 allow temp num = some (true, s))
    (i j : Nat) (t : Tile) (ht : s.board.getTile i j = some (some t)) :
    (s.board.getTile i (j + 1) = some none → isRoadOrCity t.east = false) ∧
    (∀ c, c + 1 = j → s.board.getTile i c = some none → isRoadOrCity t.west = false) ∧
    (∀ a, a + 1 = i → s.board.getTile a j = some none → isRoadOrCity t.north = false) ∧
    (s.board.getTile (i + 1) j = some none → ¬ (i = 0 ∧ j = 0) →
      isRoadOrCity t.south = false) := by
  have hall := Can_place_fuel_zero_edges _ _ _ _ _ _ _ h
  obtain ⟨⟨hi, hj⟩, hcell⟩ := (s.board.getTile_eq_some_iff _ _ _).mp ht
  have hc := (Check_all_cells_true_iff s.board).mp hall i j hi hj
  obtain ⟨hE, hW, hN, hS, -⟩ := Check_cell_faces_empty s.board i j t hc hcell
  refine ⟨?_, ?_, ?_, ?_⟩
  · intro hg
    obtain ⟨⟨-, h2⟩, h3⟩ := (s.board.getTile_eq_some_iff _ _ _).mp hg
    exact hE h2 h3
  · intro c hcj hg
    obtain ⟨-, h3⟩ := (s.board.getTile_eq_some_iff _ _ _).mp hg
    subst hcj
    exact hW (by omega) (by simpa using h3)
  · intro a hai hg
    obtain ⟨-, h3⟩ := (s.board.getTile_eq_some_iff _ _ _).mp hg
    subst hai
    exact hN (by omega) (by simpa using h3)
  · intro hg hne
    obtain ⟨⟨h2, -⟩, h3⟩ := (s.board.getTile_eq_some_iff _ _ _).mp hg
    exact hS h2 h3 hne

/-! ## The empty tile list, hopeless tiles, rotations -/

theorem Check_all_cells_new (rows cols : Nat) :
    Check_all_cells (Board.new rows cols) = some true := by
  rw [Check_all_cells_true_iff]
  intro i j hi hj
  unfold Check_cell
  rw [Board.getTile_of_lt _ hi hj]
  rfl

/-- C14: for the empty tile list and the empty board of any size, 0 rows and 0 columns
included, `Can_place` at index 0 with both counters 0 returns true at once, with the board
untouched and the location stack empty. -/
theorem Can_place_no_tiles (rows cols : Nat) (allow_rotations : Bool) :
    Can_place (Board.new rows cols) [] [] 0 allow_rotations 0 0
      = some (true, ⟨Board.new rows cols, [], 1⟩) := by
  unfold Can_place
  simp only [List.length_nil, Nat.sub_zero]
  rw [Can_place_fuel, if_pos (by rfl : 0 = ([] : List Tile).length)]
  unfold Check_the_whole_board
  rw [Check_all_cells_new]
  rfl

/-- C15: with rotations disabled, if one of the input tiles breaks the boundary rule in every
cell of the board, `Can_place` started at index 0 on the empty board does not return true. -/
theorem Can_place_hopeless_tile (rows cols : Nat) (tiles : List Tile) (t : Tile)
    (temp_Solutions num_Solutions : Int) (s : SearchState) (ht : t ∈ tiles)
    (hbad : ∀ i j, i < rows → j < cols → ¬ boundaryRule (Board.new rows cols) t i j) :
    Can_place (Board.new rows cols) tiles [] 0 false temp_Solutions num_Solutions
      ≠ some (true, s) := by
  intro h
  obtain ⟨h1, h2, h3, h4, -⟩ := Can_place_ShapeInv rows cols tiles false _ _ s h
  obtain ⟨-, -, hb⟩ := Can_place_BoundaryInv rows cols tiles [] false _ _ s h
  obtain ⟨k, hk⟩ := List.getElem?_of_mem ht
  have hklt : k < tiles.length := by
    rcases Nat.lt_or_ge k tiles.length with hlt | hge
    · exact hlt
    · rw [List.getElem?_eq_none hge] at hk
      simp at hk
  obtain ⟨loc, n, -, hn, -, hget⟩ := h4 k t hklt hk
  have hn0 : n = 0 := by
    simp at hn
    exact hn
  subst hn0
  have hbr := hb _ _ _ hget
  obtain ⟨⟨hr, hc⟩, -⟩ := (s.board.getTile_eq_some_iff _ _ _).mp hget
  apply hbad loc.row loc.column (by omega) (by omega)
  unfold boundaryRule at hbr ⊢
  rw [h1, h2] at hbr
  exact hbr

/-- The two examples of C15: a tile with a road to the north on a 1 by 1 board, and tile A with
a city to the north followed by tile B on a 1 by 2 board; the search returns false and leaves
board and stack as they were. -/
theorem Can_place_hopeless_tile_witness :
    Can_place (Board.new 1 1) [tileRoadNorth] [] 0 false 0 0
      ≠ some (true, ⟨Board.new 1 1, [⟨0, 0, 0⟩], 1⟩) ∧
    Can_place (Board.new 1 1) [tileRoadNorth] [] 0 false 0 0
      = some (false, ⟨Board.new 1 1, [], 0⟩) ∧
    Can_place (Board.new 1 2) [tileCityNorth, tileCityWest] [] 0 false 0 0
      = some (false, ⟨Board.new 1 2, [], 0⟩) :=
  ⟨Can_place_hopeless_tile 1 1 [tileRoadNorth] tileRoadNorth 0 0 _ (by decide)
      (fun i j hi hj => by
        have hi0 : i = 0 := by omega
        have hj0 : j = 0 := by omega
        subst hi0
        subst hj0
        decide),
    rfl, rfl⟩

/-- Through `main`, both examples of C15 are reported as "No Solution.". -/
theorem main_hopeless_examples :
    main_search 1 1 [tileRoadNorth] false false 0 = some Outcome.noSolution ∧
    main_search 1 2 [tileCityNorth, tileCityWest] false false 0 = some Outcome.noSolution :=
  ⟨rfl, rfl⟩

/-- C18: the tile that `Can_place` builds for the rotation index `n` below 4 is the input tile
turned `n` times by the single rotation (N, E, S, W) to (W, N, E, S), and four single rotations
give back the tile. -/
theorem rotatedTile_eq_iterate (t : Tile) (n : Nat) (hn : n < 4) :
    rotatedTile t n = rotateOnce^[n] t ∧ rotateOnce^[4] t = t := by
  refine ⟨?_, rfl⟩
  interval_cases n <;> rfl

/-- An instance of C18: rotation index 2 turns a road on the east edge to the west edge. -/
theorem rotatedTile_eq_iterate_witness :
    rotatedTile tileRoadEast 2 = rotateOnce (rotateOnce tileRoadEast) ∧
    (rotatedTile tileRoadEast 2).west = Terrain.road :=
  ⟨(rotatedTile_eq_iterate tileRoadEast 2 (by decide)).1, rfl⟩

/-! ## The geometry that `main` hands to the search -/

/-- The board of `main_board` is the board that `main_search` searches, and `usage` is reported
exactly when no board is constructed. -/
theorem main_search_eq_main_board (rows columns : Int) (tiles : List Tile)
    (all_solutions allow_rotations : Bool) (fuel : Nat) :
    main_search rows columns tiles all_solutions allow_rotations fuel =
      match main_board rows columns tiles with
      | none => some Outcome.usage
      | some board =>
        if !all_solutions && !allow_rotations then
          match Can_place board tiles [] 0 allow_rotations 0 0 with
          | none => none
          | some (true, s) => some (Outcome.solution s.locations)
          | some (false, _) => some Outcome.noSolution
        else
          match all_solutions_loop tiles allow_rotations fuel ⟨⟨board, [], 0⟩, 0, 0, []⟩ with
          | none => none
          | some st =>
            if st.num_Solutions = 0 then some Outcome.noSolution
            else some (Outcome.found st.total_Solutions st.Results) := by
  unfold main_search main_board
  split <;> rfl

/-- The first half of C17 holds: a request with `rows < 1`, `columns < 1` or fewer cells than
tiles is rejected, and no board is constructed. -/
theorem main_board_rejects (rows columns : Int) (tiles : List Tile)
    (h : rows < 1 ∨ columns < 1 ∨ rows * columns < (tiles.length : Int)) :
    main_board rows columns tiles = none := by
  unfold main_board
  rw [if_pos h]

/-- When the requested board is not replaced (`rows + columns <= tiles.size()`), the board that
is searched is the requested one. -/
theorem main_board_kept (rows columns : Int) (tiles : List Tile)
    (h : ¬ (rows < 1 ∨ columns < 1 ∨ rows * columns < (tiles.length : Int)))
    (hsmall : rows + columns ≤ (tiles.length : Int)) :
    main_board rows columns tiles = some (Board.new rows.toNat columns.toNat) := by
  unfold main_board
  rw [if_neg h]
  have hb : decide (rows + columns > (tiles.length : Int)) = false := by
    rw [decide_eq_false_iff_not]
    omega
  simp only [hb]
  rfl

/-- When the requested board is replaced (`rows + columns > tiles.size()`), the board that is
searched has `tiles.size() / 2` rows and columns, whatever was requested. -/
theorem main_board_replaced (rows columns : Int) (tiles : List Tile)
    (h : ¬ (rows < 1 ∨ columns < 1 ∨ rows * columns < (tiles.length : Int)))
    (hbig : rows + columns > (tiles.length : Int)) :
    main_board rows columns tiles = some (Board.new (tiles.length / 2) (tiles.length / 2)) := by
  unfold main_board
  rw [if_neg h]
  have hb : decide (rows + columns > (tiles.length : Int)) = true := by
    rw [decide_eq_true_eq]
    exact hbig
  simp only [hb]
  rfl

/-! ## Further inputs on which the code departs from the specification -/

/-- C16, at the failing input: tiles A and B on a 1 by 2 board with rotations enabled. The
search places A turned by 90 degrees in cell (0, 0) and then, testing B in cell (0, 1), leaves
the grid with `getTile(1, 1)` (line 288); through `main` the requested 1 by 2 board is replaced
by a 1 by 1 board and "No Solution." is reported. On a 2 by 2 board the same tiles are placed
as the specification expects. -/
theorem Can_place_city_pair_one_row :
    (Can_place (Board.new 1 2) [tileCityNorth, tileCityWest] [] 0 true 0 0).isNone = true ∧
    (∀ fuel, main_search 1 2 [tileCityNorth, tileCityWest] false true (fuel + 1)
      = some Outcome.noSolution) ∧
    (Can_place (Board.new 2 2) [tileCityNorth, tileCityWest] [] 0 true 0 0).map
      (fun r => (r.1, r.2.locations)) = some (true, [⟨0, 0, 90⟩, ⟨0, 1, 0⟩]) :=
  ⟨by decide, fun _ => rfl, by decide⟩

/-- C17, at the failing inputs: one tile and a requested 1 by 1 board pass the size test and
`Can_place` is called on a board with 0 rows and 0 columns; two tiles and a requested 1 by 2
board pass the size test and `Can_place` is called on a 1 by 1 board, which has fewer cells
than there are tiles. -/
theorem main_board_too_small :
    (main_board 1 1 [tilePasture]).map (fun b => (b.numRows, b.numColumns)) = some (0, 0) ∧
    (main_board 1 2 [tilePasture, tilePasture]).map (fun b => (b.numRows, b.numColumns))
      = some (1, 1) ∧
    1 * 1 < [tilePasture, tilePasture].length :=
  ⟨by decide, by decide, by decide⟩

/-- Calls of `getTile` outside the grid on boards with one row or one column, each with at
least one row and one column: on a 1 by 2 board `Check_tile` for cell (0, 1) calls
`getTile(1, 1)` (line 288), and row 1 is not a row of the board; on a 1 by 1 board holding a
tile `Check_the_whole_board` calls `getTile(0, 1)` (line 149); on a 2 by 1 board `Check_tile`
for cell (1, 0) calls `getTile(1, 1)` (line 274); and a search on the empty 1 by 2 board with
two pasture tiles runs into the first of these. -/
theorem getTile_leaves_the_grid :
    1 ≤ (Board.new 1 2).numRows ∧ 1 ≤ (Board.new 1 2).numColumns ∧
    ¬ (1 < (Board.new 1 2).numRows) ∧ (Board.new 1 2).getTile 1 1 = none ∧
    Check_tile (Board.new 1 2) tilePasture 0 1 = none ∧
    Check_the_whole_board ((Board.new 1 1).setTile 0 0 tilePasture) 0 0 = none ∧
    Check_tile (Board.new 2 1) tilePasture 1 0 = none ∧
    (Can_place (Board.new 1 2) [tilePasture, tilePasture] [] 0 false 0 0).isNone = true :=
  ⟨by decide, by decide, by decide, by decide, by decide, by decide, by decide, by decide⟩

/-! ## Step 1 of the duplicate test -/

theorem sum_eq_length_iff (l : List Nat) (h : ∀ x ∈ l, x ≤ 1) :
    l.sum = l.length ↔ ∀ x ∈ l, x = 1 := by
  induction l with
  | nil => simp
  | cons a l ih =>
    have ha : a ≤ 1 := h a (List.mem_cons_self _ _)
    have hl : ∀ x ∈ l, x ≤ 1 := fun x hx => h x (List.mem_cons_of_mem _ hx)
    have hsum : l.sum ≤ l.length := by
      clear ih
      induction l with
      | nil => simp
      | cons b l ih2 =>
        have hb : b ≤ 1 := hl b (List.mem_cons_self _ _)
        have := ih2 (fun x hx => h x (by
          rcases List.mem_cons.mp hx with rfl | hx1
          · exact List.mem_cons_self _ _
          · exact List.mem_cons_of_mem _ (List.mem_cons_of_mem _ hx1)))
          (fun x hx => hl x (List.mem_cons_of_mem _ hx))
        simp only [List.sum_cons, List.length_cons]
        omega
    simp only [List.sum_cons, List.length_cons, List.mem_cons, forall_eq_or_imp]
    rw [← ih hl]
    omega

/-- Step 1 counts set membership: for Solutions with pairwise distinct Locations, `count`
reaches `tiles.size()` exactly when the two Solutions list the same Locations, in any order. -/
theorem countEqualPairs_eq_iff_perm (n : Nat) (R S : List Location) (hR : R.length = n)
    (hS : S.length = n) (hRn : R.Nodup) (hSn : S.Nodup) :
    countEqualPairs n R S = some n ↔ S.Perm R := by
  constructor
  · intro h
    rw [countEqualPairs_eq n R S hR hS, Option.some.injEq] at h
    have hle : ∀ x ∈ R.map (fun r => S.count r), x ≤ 1 := by
      intro x hx
      obtain ⟨r, -, rfl⟩ := List.mem_map.mp hx
      exact List.nodup_iff_count_le_one.mp hSn r
    have hall := (sum_eq_length_iff _ hle).mp (by rw [h, List.length_map, hR])
    have hsub : R ⊆ S := by
      intro r hr
      have := hall _ (List.mem_map.mpr ⟨r, hr, rfl⟩)
      exact List.count_pos_iff.mp (by omega)
    exact ((List.subperm_of_subset hRn hsub).perm_of_length_le (by omega)).symm
  · intro h
    exact countEqualPairs_of_perm n R S hR hRn h

/-- C11 as stated fails: for two pasture tiles, the accepted Result with Locations (0,0), (0,1)
and the new Solution with Locations (0,1), (0,0), step 1 declares a duplicate although tile 0
has different Locations in the two. -/
theorem step1_ignores_tile_index :
    locationsLeftRight.length = [tilePasture, tilePasture].length ∧
    locationsRightLeft.length = [tilePasture, tilePasture].length ∧
    ¬ (step1Duplicate [tilePasture, tilePasture] locationsLeftRight locationsRightLeft ↔
      exactMatchSpec [tilePasture, tilePasture] locationsLeftRight locationsRightLeft) := by
  refine ⟨rfl, rfl, ?_⟩
  intro h
  have h1 := h.mp (by decide)
  have h2 := h1 0 (by decide)
  exact absurd h2 (by decide)

/-- C11, amended: for a new Solution `S` and an accepted Result `R` over the same tile list,
each with pairwise distinct Locations, step 1 declares `S` a duplicate of `R` exactly when `S`
lists the same Locations as `R` in some order: the comparison is between the two unordered sets
of Locations, not by tile index. In particular, equal Locations at every tile index make `S` a
duplicate. -/
theorem step1Duplicate_iff_perm (tiles : List Tile) (R S : List Location)
    (hR : R.length = tiles.length) (hS : S.length = tiles.length)
    (hRn : R.Nodup) (hSn : S.Nodup) :
    (step1Duplicate tiles R S ↔ S.Perm R) ∧
    (exactMatchSpec tiles R S → step1Duplicate tiles R S) := by
  have hiff := countEqualPairs_eq_iff_perm tiles.length R S hR hS hRn hSn
  refine ⟨hiff, ?_⟩
  intro h
  apply hiff.mpr
  have heq : S = R := by
    apply List.ext_getElem (by omega)
    intro n h1 h2
    have := h n (by omega)
    rw [List.getD_eq_getElem _ _ h1, List.getD_eq_getElem _ _ h2] at this
    exact this
  rw [heq]

/-- An instance of C11 as amended: the swapped pair of Locations is a duplicate at step 1. -/
theorem step1Duplicate_iff_perm_witness :
    step1Duplicate [tilePasture, tilePasture] locationsLeftRight locationsRightLeft ∧
    locationsRightLeft.Perm locationsLeftRight :=
  ⟨by decide,
    (step1Duplicate_iff_perm [tilePasture, tilePasture] locationsLeftRight locationsRightLeft
      rfl rfl (by decide) (by decide)).1.mp (by decide)⟩

/-! ## Step 2 of the duplicate test -/

theorem getElem?_eq_some_getD {α : Type} (l : List α) (n : Nat) (d : α) (h : n < l.length) :
    l[n]? = some (l.getD n d) := by
  rw [List.getElem?_eq_getElem h, List.getD_eq_getElem _ _ h]

theorem foldlM_count {α : Type} (p : α → Bool) (f : Nat → α → Option Nat) :
    ∀ (l : List α), (∀ x ∈ l, ∀ c, f c x = some (if p x = true then c + 1 else c)) →
      ∀ c, l.foldlM f c = some (c + l.countP p) := by
  intro l
  induction l with
  | nil => intro _ c; rfl
  | cons x l ih =>
    intro h c
    rw [List.foldlM_cons, h x (List.mem_cons_self _ _) c]
    simp only [Option.bind_eq_bind, Option.some_bind]
    rw [ih (fun y hy d => h y (List.mem_cons_of_mem _ hy) d), List.countP_cons]
    by_cases hp : p x = true
    · simp only [hp, if_true]
      congr 1
      omega
    · simp only [hp, if_false]
      rfl

theorem countInterchangeable_eq (tiles : List Tile) (S : List Location) (n : Nat)
    (r : Location) (D : Int × Int × Int) (count : Nat)
    (hS : S.length = tiles.length) (hn : n < tiles.length) :
    countInterchangeable tiles S n r D count =
      some (count + (List.range tiles.length).countP fun i =>
        decide (n ≠ i ∧ sameEdges (tiles.getD i tilePasture) (tiles.getD n tilePasture) = true ∧
          D = locationDiff (S.getD i noLocation) r)) := by
  unfold countInterchangeable
  apply foldlM_count
  intro i hi c
  have hi1 : i < tiles.length := List.mem_range.mp hi
  rw [getElem?_eq_some_getD tiles i tilePasture hi1, getElem?_eq_some_getD tiles n tilePasture hn,
    getElem?_eq_some_getD S i noLocation (by omega)]
  simp only
  by_cases h1 : n ≠ i ∧ sameEdges (tiles.getD i tilePasture) (tiles.getD n tilePasture) = true
  · rw [if_pos h1]
    by_cases h2 : D = locationDiff (S.getD i noLocation) r
    · rw [if_pos h2, if_pos (by simp only [decide_eq_true_eq]; exact ⟨h1.1, h1.2, h2⟩)]
    · rw [if_neg h2, if_neg (by simp only [decide_eq_true_eq]; exact fun h => h2 h.2.2)]
  · rw [if_neg h1, if_neg (by simp only [decide_eq_true_eq]; exact fun h => h1 ⟨h.1, h.2.1⟩)]

/-- The loop of step 2 adds up the contributions of the tile indices. -/
theorem countOffsetMatches_eq (tiles : List Tile) (R S : List Location)
    (hR : R.length = tiles.length) (hS : S.length = tiles.length) :
    countOffsetMatches tiles R S =
      some (((List.range tiles.length).map (offsetContribution tiles R S)).sum) := by
  unfold countOffsetMatches
  have key : ∀ k, k ≤ tiles.length →
      (List.range k).foldlM (fun (st : (Int × Int × Int) × Nat) n =>
        match S[n]?, R[n]? with
        | some l, some r =>
          let D := if n = 0 then locationDiff l r else st.1
          if D = locationDiff l r then some (D, st.2 + 1)
          else (countInterchangeable tiles S n r D st.2).map fun c => (D, c)
        | _, _ => none) ((0, 0, 0), 0)
      = some (if k = 0 then (0, 0, 0) else firstOffset R S,
          ((List.range k).map (offsetContribution tiles R S)).sum) := by
    intro k
    induction k with
    | zero => intro _; rfl
    | succ k ih =>
      intro hk
      have hlt : k < tiles.length := by omega
      rw [List.range_succ, List.foldlM_append, ih (by omega)]
      simp only [Option.bind_eq_bind, Option.some_bind]
      rw [foldlM_option_singleton, getElem?_eq_some_getD S k noLocation (by omega),
        getElem?_eq_some_getD R k noLocation (by omega)]
      simp only [List.map_append, List.map_cons, List.map_nil, List.sum_append, List.sum_cons,
        List.sum_nil, Nat.add_zero, Nat.succ_ne_zero, if_false]
      have hD : (if k = 0 then locationDiff (S.getD k noLocation) (R.getD k noLocation)
          else (if k = 0 then ((0 : Int), (0 : Int), (0 : Int)) else firstOffset R S))
          = firstOffset R S := by
        by_cases h0 : k = 0
        · subst h0
          rfl
        · rw [if_neg h0, if_neg h0]
      rw [hD]
      unfold offsetContribution
      by_cases ha : firstOffset R S = locationDiff (S.getD k noLocation) (R.getD k noLocation)
      · rw [if_pos ha, if_pos ha]
      · rw [if_neg ha, if_neg ha, countInterchangeable_eq tiles S k _ _ _ hS hlt]
        rfl
  exact (congrArg (Option.map Prod.snd) (key tiles.length (le_refl _))).trans rfl

theorem countP_le_one_of_unique {α : Type} (p : α → Bool) :
    ∀ (l : List α), l.Nodup → (∀ x ∈ l, ∀ y ∈ l, p x = true → p y = true → x = y) →
      l.countP p ≤ 1 := by
  intro l
  induction l with
  | nil => intro _ _; simp
  | cons a l ih =>
    intro hnd huniq
    obtain ⟨hal, hl⟩ := List.nodup_cons.mp hnd
    have ihl := ih hl (fun x hx y hy => huniq x (List.mem_cons_of_mem _ hx) y
      (List.mem_cons_of_mem _ hy))
    rw [List.countP_cons]
    by_cases hp : p a = true
    · have hz : l.countP p = 0 := by
        rw [List.countP_eq_zero]
        intro x hx hpx
        have := huniq a (List.mem_cons_self _ _) x (List.mem_cons_of_mem _ hx) hp hpx
        exact hal (this ▸ hx)
      simp [hz, hp]
    · simp [hp, ihl]

theorem locationDiff_left_inj (a b r : Location) (h : locationDiff a r = locationDiff b r) :
    a = b := by
  rcases a with ⟨a1, a2, a3⟩
  rcases b with ⟨b1, b2, b3⟩
  rcases r with ⟨r1, r2, r3⟩
  simp only [locationDiff, Prod.mk.injEq] at h
  obtain ⟨h1, h2, h3⟩ := h
  have e1 : a1 = b1 := by omega
  have e2 : a2 = b2 := by omega
  have e3 : a3 = b3 := by omega
  rw [e1, e2, e3]

theorem locationDiff_right_inj (s a b : Location) (h : locationDiff s a = locationDiff s b) :
    a = b := by
  rcases a with ⟨a1, a2, a3⟩
  rcases b with ⟨b1, b2, b3⟩
  rcases s with ⟨s1, s2, s3⟩
  simp only [locationDiff, Prod.mk.injEq] at h
  obtain ⟨h1, h2, h3⟩ := h
  have e1 : a1 = b1 := by omega
  have e2 : a2 = b2 := by omega
  have e3 : a3 = b3 := by omega
  rw [e1, e2, e3]

theorem getD_inj_of_nodup (l : List Location) (hnd : l.Nodup) (i j : Nat)
    (hi : i < l.length) (hj : j < l.length)
    (h : l.getD i noLocation = l.getD j noLocation) : i = j := by
  rw [List.getD_eq_getElem _ _ hi, List.getD_eq_getElem _ _ hj] at h
  exact (List.Nodup.getElem_inj_iff hnd).mp h

/-- For a new Solution with pairwise distinct Locations every tile index adds at most 1 to
`count`, and it adds 1 exactly when the offset of the tile is `D` or another tile `i` with the
same edges has `D == locations[i] - Results[m][n]`. -/
theorem offsetContribution_eq_one_iff (tiles : List Tile) (R S : List Location)
    (hS : S.length = tiles.length) (hSn : S.Nodup) (n : Nat) :
    offsetContribution tiles R S n ≤ 1 ∧
    (offsetContribution tiles R S n = 1 ↔
      (locationDiff (S.getD n noLocation) (R.getD n noLocation) = firstOffset R S ∨
        ∃ i, i < tiles.length ∧ i ≠ n ∧
          sameEdges (tiles.getD i tilePasture) (tiles.getD n tilePasture) = true ∧
          locationDiff (S.getD i noLocation) (R.getD n noLocation) = firstOffset R S)) := by
  unfold offsetContribution
  by_cases ha : firstOffset R S = locationDiff (S.getD n noLocation) (R.getD n noLocation)
  · rw [if_pos ha]
    exact ⟨le_refl _, fun _ => Or.inl ha.symm, fun _ => rfl⟩
  · rw [if_neg ha]
    have hle : (List.range tiles.length).countP (fun i =>
        decide (n ≠ i ∧ sameEdges (tiles.getD i tilePasture) (tiles.getD n tilePasture) = true ∧
          firstOffset R S = locationDiff (S.getD i noLocation) (R.getD n noLocation))) ≤ 1 := by
      apply countP_le_one_of_unique _ _ (List.nodup_range _)
      intro x hx y hy hpx hpy
      simp only [decide_eq_true_eq] at hpx hpy
      have hxy := locationDiff_left_inj _ _ _ (hpx.2.2.symm.trans hpy.2.2)
      exact getD_inj_of_nodup S hSn x y (by rw [hS]; exact List.mem_range.mp hx)
        (by rw [hS]; exact List.mem_range.mp hy) hxy
    refine ⟨hle, ?_, ?_⟩
    · intro h1
      right
      have hpos : 0 < (List.range tiles.length).countP (fun i =>
          decide (n ≠ i ∧ sameEdges (tiles.getD i tilePasture) (tiles.getD n tilePasture) = true ∧
            firstOffset R S = locationDiff (S.getD i noLocation) (R.getD n noLocation))) := by
        omega
      obtain ⟨i, hi, hp⟩ := List.countP_pos_iff.mp hpos
      simp only [decide_eq_true_eq] at hp
      exact ⟨i, List.mem_range.mp hi, fun h => hp.1 h.symm, hp.2.1, hp.2.2.symm⟩
    · rintro (h1 | ⟨i, hi, hne, hsame, hd⟩)
      · exact absurd h1.symm ha
      · have hpos : 0 < (List.range tiles.length).countP (fun i =>
            decide (n ≠ i ∧ sameEdges (tiles.getD i tilePasture) (tiles.getD n tilePasture) = true ∧
              firstOffset R S = locationDiff (S.getD i noLocation) (R.getD n noLocation))) := by
          rw [List.countP_pos_iff]
          refine ⟨i, List.mem_range.mpr hi, ?_⟩
          simp only [decide_eq_true_eq]
          exact ⟨fun h => hne h.symm, hsame, hd.symm⟩
        omega

theorem exists_column_of_exists_row (len : Nat) (T : Nat → Nat → Prop)
    (hinj : ∀ i n k, i < len → n < len → k < len → T i n → T i k → n = k)
    (h : ∀ n, n < len → ∃ i, i < len ∧ T i n) :
    ∀ m, m < len → ∃ n, n < len ∧ T m n := by
  have h1 : ∀ n : Fin len, ∃ i : Fin len, T i.val n.val := by
    intro n
    obtain ⟨i, hi, hT⟩ := h n.val n.isLt
    exact ⟨⟨i, hi⟩, hT⟩
  choose f hf using h1
  have hfi : Function.Injective f := by
    intro a b hab
    apply Fin.ext
    have ha := hf a
    have hb := hf b
    rw [hab] at ha
    exact hinj (f b).val a.val b.val (f b).isLt a.isLt b.isLt ha hb
  have hfs : Function.Surjective f := Finite.injective_iff_surjective.mp hfi
  intro m hm
  obtain ⟨n, hn⟩ := hfs ⟨m, hm⟩
  have := hf n
  rw [hn] at this
  exact ⟨n.val, n.isLt, this⟩

theorem sameEdges_symm (a b : Tile) (h : sameEdges a b = true) : sameEdges b a = true := by
  simp only [sameEdges, Bool.and_eq_true, beq_iff_eq] at h ⊢
  obtain ⟨⟨⟨h1, h2⟩, h3⟩, h4⟩ := h
  exact ⟨⟨⟨h1.symm, h2.symm⟩, h3.symm⟩, h4.symm⟩

/-- The condition that the code of step 2 tests tile by tile (`D == locations[i] -
Results[m][n]` for another tile `i`) and the condition of the specification (`D ==
locations[n] - Results[m][i]`) agree once they are required of every tile index, for Solutions
with pairwise distinct Locations. -/
theorem offsetDuplicateSpec_iff_code (tiles : List Tile) (R S : List Location)
    (hR : R.length = tiles.length) (hS : S.length = tiles.length)
    (hRn : R.Nodup) (hSn : S.Nodup) :
    (∀ n, n < tiles.length →
      (locationDiff (S.getD n noLocation) (R.getD n noLocation) = firstOffset R S ∨
        ∃ i, i < tiles.length ∧ i ≠ n ∧
          sameEdges (tiles.getD i tilePasture) (tiles.getD n tilePasture) = true ∧
          locationDiff (S.getD i noLocation) (R.getD n noLocation) = firstOffset R S)) ↔
    offsetDuplicateSpec tiles R S := by
  -- `T i n`: tile `i` of `S` sits, up to the offset, where tile `n` of `R` sits, and the two
  -- tiles are the same tile or interchangeable
  let T : Nat → Nat → Prop := fun i n =>
    (i = n ∨ (i ≠ n ∧ sameEdges (tiles.getD i tilePasture) (tiles.getD n tilePasture) = true)) ∧
      locationDiff (S.getD i noLocation) (R.getD n noLocation) = firstOffset R S
  have hcode : (∀ n, n < tiles.length →
      (locationDiff (S.getD n noLocation) (R.getD n noLocation) = firstOffset R S ∨
        ∃ i, i < tiles.length ∧ i ≠ n ∧
          sameEdges (tiles.getD i tilePasture) (tiles.getD n tilePasture) = true ∧
          locationDiff (S.getD i noLocation) (R.getD n noLocation) = firstOffset R S)) ↔
      ∀ n, n < tiles.length → ∃ i, i < tiles.length ∧ T i n := by
    constructor
    · intro h n hn
      rcases h n hn with ha | ⟨i, hi, hne, hsame, hd⟩
      · exact ⟨n, hn, Or.inl rfl, ha⟩
      · exact ⟨i, hi, Or.inr ⟨hne, hsame⟩, hd⟩
    · intro h n hn
      obtain ⟨i, hi, hE, hd⟩ := h n hn
      rcases hE with rfl | ⟨hne, hsame⟩
      · exact Or.inl hd
      · exact Or.inr ⟨i, hi, hne, hsame, hd⟩
  have hspec : offsetDuplicateSpec tiles R S ↔
      ∀ m, m < tiles.length → ∃ n, n < tiles.length ∧ T m n := by
    unfold offsetDuplicateSpec
    constructor
    · intro h m hm
      rcases h m hm with ha | ⟨i, hi, hne, hsame, hd⟩
      · exact ⟨m, hm, Or.inl rfl, ha⟩
      · exact ⟨i, hi, Or.inr ⟨fun h => hne h.symm, sameEdges_symm _ _ hsame⟩, hd⟩
    · intro h m hm
      obtain ⟨n, hn, hE, hd⟩ := h m hm
      rcases hE with rfl | ⟨hne, hsame⟩
      · exact Or.inl hd
      · exact Or.inr ⟨n, hn, fun h => hne h.symm, sameEdges_symm _ _ hsame, hd⟩
  rw [hcode, hspec]
  constructor
  · apply exists_column_of_exists_row tiles.length T
    intro i n k hi hn hk h1 h2
    have := locationDiff_right_inj _ _ _ (h1.2.trans h2.2.symm)
    exact getD_inj_of_nodup R hRn n k (by omega) (by omega) this
  · intro h
    have := exists_column_of_exists_row tiles.length (fun n i => T i n) (by
      intro n i k hn hi hk h1 h2
      have := locationDiff_left_inj _ _ _ (h1.2.trans h2.2.symm)
      exact getD_inj_of_nodup S hSn i k (by omega) (by omega) this) h
    exact this

/-- C12: for a new Solution `S` and an accepted Result `R` over the same tile list, each with
pairwise distinct Locations, and with the offset `D` taken between the Locations of tile 0,
step 2 declares `S` a duplicate of `R` if and only if for every tile index `n` either the offset
between `S` and `R` at `n` is `D`, or another tile `i` with the same four edge terrains as tile
`n` exists for which `D` is the offset between the Location of `n` in `S` and the Location of
`i` in `R`. -/
theorem step2Duplicate_iff_spec (tiles : List Tile) (R S : List Location)
    (hR : R.length = tiles.length) (hS : S.length = tiles.length)
    (hRn : R.Nodup) (hSn : S.Nodup) :
    step2Duplicate tiles R S ↔ offsetDuplicateSpec tiles R S := by
  rw [← offsetDuplicateSpec_iff_code tiles R S hR hS hRn hSn]
  unfold step2Duplicate
  rw [countOffsetMatches_eq tiles R S hR hS, Option.some.injEq]
  have hle : ∀ x ∈ (List.range tiles.length).map (offsetContribution tiles R S), x ≤ 1 := by
    intro x hx
    obtain ⟨n, -, rfl⟩ := List.mem_map.mp hx
    exact (offsetContribution_eq_one_iff tiles R S hS hSn n).1
  have hlen : ((List.range tiles.length).map (offsetContribution tiles R S)).length
      = tiles.length := by simp
  constructor
  · intro h n hn
    have hall := (sum_eq_length_iff _ hle).mp (by rw [h, hlen])
    exact (offsetContribution_eq_one_iff tiles R S hS hSn n).2.mp
      (hall _ (List.mem_map.mpr ⟨n, List.mem_range.mpr hn, rfl⟩))
  · intro h
    refine ((sum_eq_length_iff _ hle).mpr ?_).trans hlen
    intro x hx
    obtain ⟨n, hn, rfl⟩ := List.mem_map.mp hx
    exact (offsetContribution_eq_one_iff tiles R S hS hSn n).2.mpr (h n (List.mem_range.mp hn))

/-- An instance of C12: two pasture tiles side by side; the Result shifted by one column is a
duplicate at step 2, with offset one column. -/
theorem step2Duplicate_iff_spec_witness :
    offsetDuplicateSpec [tilePasture, tilePasture] [⟨0, 0, 0⟩, ⟨0, 1, 0⟩]
      [⟨0, 1, 0⟩, ⟨0, 2, 0⟩] ∧
    countOffsetMatches [tilePasture, tilePasture] [⟨0, 0, 0⟩, ⟨0, 1, 0⟩]
      [⟨0, 1, 0⟩, ⟨0, 2, 0⟩] = some 2 :=
  ⟨(step2Duplicate_iff_spec [tilePasture, tilePasture] [⟨0, 0, 0⟩, ⟨0, 1, 0⟩]
      [⟨0, 1, 0⟩, ⟨0, 2, 0⟩] rfl rfl (by decide) (by decide)).mp (by decide),
    by decide⟩

/-! ## Acceptance into `Results` -/

theorem duplicateLoop_spec (tiles : List Tile) (Results : List (List Location))
    (S : List Location) (hlen : ∀ X ∈ Results, X.length = tiles.length)
    (hS : S.length = tiles.length) :
    ∀ (ms : List Nat) (c0 : Nat), (∀ m ∈ ms, m < Results.length) → c0 ≠ tiles.length →
      ∃ c, duplicateLoop tiles Results S ms c0 = some c ∧
        (c = tiles.length ↔ ∃ m ∈ ms, ∃ R, Results[m]? = some R ∧ isDuplicateOf tiles R S) := by
  intro ms
  induction ms with
  | nil =>
    intro c0 _ hc0
    exact ⟨c0, rfl, fun h => absurd h hc0, fun ⟨m, hm, _⟩ => by simp at hm⟩
  | cons m ms ih =>
    intro c0 hbound hc0
    have hm : m < Results.length := hbound m (List.mem_cons_self _ _)
    have hXlen : Results[m].length = tiles.length := hlen _ (List.getElem_mem _)
    rw [duplicateLoop, List.getElem?_eq_getElem hm]
    simp only
    rw [countEqualPairs_eq tiles.length Results[m] S hXlen hS]
    simp only
    by_cases hc1 : ((Results[m].map fun r => S.count r).sum) = tiles.length
    · rw [if_pos hc1]
      refine ⟨_, rfl, fun _ => ⟨m, List.mem_cons_self _ _, Results[m],
        List.getElem?_eq_getElem hm, Or.inl ?_⟩, fun _ => hc1⟩
      unfold step1Duplicate
      rw [countEqualPairs_eq tiles.length Results[m] S hXlen hS, hc1]
    · rw [if_neg hc1]
      have hstep1 : ¬ step1Duplicate tiles Results[m] S := by
        unfold step1Duplicate
        rw [countEqualPairs_eq tiles.length Results[m] S hXlen hS, Option.some.injEq]
        exact hc1
      rw [countOffsetMatches_eq tiles Results[m] S hXlen hS]
      simp only
      by_cases hc2 : ((List.range tiles.length).map
          (offsetContribution tiles Results[m] S)).sum = tiles.length
      · rw [if_pos hc2]
        refine ⟨_, rfl, fun _ => ⟨m, List.mem_cons_self _ _, Results[m],
          List.getElem?_eq_getElem hm, Or.inr ?_⟩, fun _ => hc2⟩
        unfold step2Duplicate
        rw [countOffsetMatches_eq tiles Results[m] S hXlen hS, hc2]
      · rw [if_neg hc2]
        have hstep2 : ¬ step2Duplicate tiles Results[m] S := by
          unfold step2Duplicate
          rw [countOffsetMatches_eq tiles Results[m] S hXlen hS, Option.some.injEq]
          exact hc2
        obtain ⟨c, hc, hiff⟩ := ih _ (fun k hk => hbound k (List.mem_cons_of_mem _ hk)) hc2
        refine ⟨c, hc, ?_⟩
        rw [hiff]
        constructor
        · rintro ⟨k, hk, R, hR, hd⟩
          exact ⟨k, List.mem_cons_of_mem _ hk, R, hR, hd⟩
        · rintro ⟨k, hk, R, hR, hd⟩
          rcases List.mem_cons.mp hk with rfl | hk1
          · rw [List.getElem?_eq_getElem hm, Option.some.injEq] at hR
            subst hR
            rcases hd with h1 | h2
            · exact absurd h1 hstep1
            · exact absurd h2 hstep2
          · exact ⟨k, hk1, R, hR, hd⟩

/-- With at least one tile, `count` differs from `tiles.size()` after the loop over the
accepted Results exactly when the duplicate test fails against every one of them. -/
theorem duplicateCount_spec (tiles : List Tile) (Results : List (List Location))
    (S : List Location) (hpos : 1 ≤ tiles.length)
    (hlen : ∀ X ∈ Results, X.length = tiles.length) (hS : S.length = tiles.length) :
    ∃ c, duplicateCount tiles Results.length Results S = some c ∧
      (c ≠ tiles.length ↔ ∀ R ∈ Results, ¬ isDuplicateOf tiles R S) := by
  unfold duplicateCount
  by_cases h0 : Results.length ≠ 0
  · rw [if_pos h0]
    obtain ⟨c, hc, hiff⟩ := duplicateLoop_spec tiles Results S hlen hS
      (List.range Results.length) 0 (fun m hm => List.mem_range.mp hm) (by omega)
    refine ⟨c, hc, ?_⟩
    rw [Ne, hiff]
    constructor
    · intro h R hR hd
      obtain ⟨m, hm⟩ := List.getElem?_of_mem hR
      have hmlt : m < Results.length := by
        rcases Nat.lt_or_ge m Results.length with hlt | hge
        · exact hlt
        · rw [List.getElem?_eq_none hge] at hm
          simp at hm
      exact h ⟨m, List.mem_range.mpr hmlt, R, hm, hd⟩
    · rintro h ⟨m, -, R, hR, hd⟩
      exact h R (List.getElem?_mem hR) hd
  · rw [if_neg h0]
    have hnil : Results = [] := List.length_eq_zero.mp (by omega)
    subst hnil
    exact ⟨0, rfl, fun _ R hR => by simp at hR, fun _ => by omega⟩

theorem Board.clear_eq_new (b : Board) : b.clear = Board.new b.numRows b.numColumns := rfl

theorem LoopInv_initial (rows cols : Nat) (tiles : List Tile) :
    LoopInv rows cols tiles ⟨⟨Board.new rows cols, [], 0⟩, 0, 0, []⟩ :=
  ⟨rfl, rfl, rfl, rfl, fun X hX => by simp at hX, List.Pairwise.nil⟩

/-- One successful pass of the all-solutions loop: the new Solution is appended exactly when it
is a duplicate of no accepted Result, and the state for the next search is as at the start. -/
theorem all_solutions_step_spec (rows cols : Nat) (tiles : List Tile) (allow : Bool)
    (st : MainState) (s : SearchState) (hpos : 1 ≤ tiles.length)
    (hinv : LoopInv rows cols tiles st)
    (hrun : Can_place st.search.board tiles st.search.locations 0 allow
      st.search.temp_Solutions st.num_Solutions = some (true, s)) :
    ∃ st1, all_solutions_step tiles allow st = some (some st1) ∧
      LoopInv rows cols tiles st1 ∧ st1.num_Solutions = st.num_Solutions + 1 ∧
      ((∀ R ∈ st.Results, ¬ isDuplicateOf tiles R s.locations) →
        st1.Results = st.Results ++ [s.locations] ∧
          st1.total_Solutions = st.total_Solutions + 1) ∧
      ((∃ R ∈ st.Results, isDuplicateOf tiles R s.locations) →
        st1.Results = st.Results ∧ st1.total_Solutions = st.total_Solutions) := by
  obtain ⟨hb, hl, ht, htot, hlen, hpw⟩ := hinv
  rw [hb, hl] at hrun
  have hshape := Can_place_ShapeInv rows cols tiles allow _ _ s hrun
  have hSlen : s.locations.length = tiles.length := hshape.2.2.1
  obtain ⟨c, hc, hiff⟩ := duplicateCount_spec tiles st.Results s.locations hpos hlen hSlen
  unfold all_solutions_step
  rw [hb, hl, hrun]
  simp only
  rw [htot, hc]
  simp only
  refine ⟨_, rfl, ?_, rfl, ?_, ?_⟩
  · refine ⟨?_, rfl, rfl, ?_, ?_, ?_⟩
    · show s.board.clear = Board.new rows cols
      rw [Board.clear_eq_new, hshape.1, hshape.2.1]
    · show (if c ≠ tiles.length then st.Results.length + 1 else st.Results.length)
        = (if c ≠ tiles.length then st.Results ++ [s.locations] else st.Results).length
      split <;> simp
    · show ∀ X ∈ (if c ≠ tiles.length then st.Results ++ [s.locations] else st.Results),
        X.length = tiles.length
      split
      · intro X hX
        rcases List.mem_append.mp hX with h1 | h1
        · exact hlen X h1
        · rw [List.mem_singleton.mp h1]
          exact hSlen
      · exact hlen
    · show (if c ≠ tiles.length then st.Results ++ [s.locations] else st.Results).Pairwise
        (fun R S => ¬ isDuplicateOf tiles R S)
      split
      · rename_i hne
        rw [List.pairwise_append]
        refine ⟨hpw, List.pairwise_singleton _ _, ?_⟩
        intro R hR S hS
        rw [List.mem_singleton.mp hS]
        exact hiff.mp hne R hR
      · exact hpw
  · intro hno
    have hne := hiff.mpr hno
    show (if c ≠ tiles.length then st.Results ++ [s.locations] else st.Results)
        = st.Results ++ [s.locations] ∧
      (if c ≠ tiles.length then st.Results.length + 1 else st.Results.length)
        = st.Results.length + 1
    rw [if_pos hne, if_pos hne]
    exact ⟨rfl, rfl⟩
  · rintro ⟨R, hR, hd⟩
    have heq : ¬ c ≠ tiles.length := fun hne => hiff.mp hne R hR hd
    show (if c ≠ tiles.length then st.Results ++ [s.locations] else st.Results) = st.Results ∧
      (if c ≠ tiles.length then st.Results.length + 1 else st.Results.length)
        = st.Results.length
    rw [if_neg heq, if_neg heq]
    exact ⟨rfl, rfl⟩

/-- The all-solutions loop is the repetition of `all_solutions_step`. -/
theorem all_solutions_loop_succ (tiles : List Tile) (allow : Bool) (fuel : Nat) (st : MainState) :
    all_solutions_loop tiles allow (fuel + 1) st =
      match all_solutions_step tiles allow st with
      | none => none
      | some none => some st
      | some (some st1) => all_solutions_loop tiles allow fuel st1 := by
  rw [all_solutions_loop]
  unfold all_solutions_step
  cases hrun : Can_place st.search.board tiles st.search.locations 0 allow
      st.search.temp_Solutions st.num_Solutions with
  | none => rfl
  | some res =>
    rcases res with ⟨r, s⟩
    cases r with
    | false => rfl
    | true =>
      simp only
      cases hc : duplicateCount tiles st.total_Solutions st.Results s.locations with
      | none => rfl
      | some c => rfl

/-- Throughout the all-solutions loop, started on the empty board with no Results, every Result
has one Location per tile and no Result is a duplicate of an earlier one. -/
theorem all_solutions_loop_inv (rows cols : Nat) (tiles : List Tile) (allow : Bool)
    (hpos : 1 ≤ tiles.length) :
    ∀ (fuel : Nat) (st stf : MainState), LoopInv rows cols tiles st →
      all_solutions_loop tiles allow fuel st = some stf → LoopInv rows cols tiles stf := by
  intro fuel
  induction fuel with
  | zero =>
    intro st stf _ h
    simp [all_solutions_loop] at h
  | succ fuel ih =>
    intro st stf hinv h
    rw [all_solutions_loop_succ] at h
    cases hrun : Can_place st.search.board tiles st.search.locations 0 allow
        st.search.temp_Solutions st.num_Solutions with
    | none =>
      have : all_solutions_step tiles allow st = none := by
        unfold all_solutions_step
        rw [hrun]
      rw [this] at h
      simp at h
    | some res =>
      rcases res with ⟨r, s⟩
      cases r with
      | false =>
        have : all_solutions_step tiles allow st = some none := by
          unfold all_solutions_step
          rw [hrun]
        rw [this] at h
        simp only [Option.some.injEq] at h
        rw [← h]
        exact hinv
      | true =>
        obtain ⟨st1, hst1, hinv1, -⟩ :=
          all_solutions_step_spec rows cols tiles allow st s hpos hinv hrun
        rw [hst1] at h
        exact ih st1 stf hinv1 h

/-- C13: in all-solutions mode with at least one tile, at the head of a pass of the loop (board
and location stack empty, `total_Solutions` the size of `Results`, no Result a duplicate of an
earlier one), a Solution found by `Can_place` is appended to `Results`, and `total_Solutions`
incremented, if and only if the duplicate test fails against every accepted Result; otherwise
`Results` and `total_Solutions` stay as they are. The first Solution is therefore appended, no
Result is a duplicate of an earlier one after the pass either, and in both cases the board and
the location stack are empty for the next search. -/
theorem all_solutions_step_accepts (rows cols : Nat) (tiles : List Tile)
    (allow_rotations : Bool) (st : MainState) (s : SearchState) (hpos : 1 ≤ tiles.length)
    (hinv : LoopInv rows cols tiles st)
    (hrun : Can_place st.search.board tiles st.search.locations 0 allow_rotations
      st.search.temp_Solutions st.num_Solutions = some (true, s)) :
    ∃ st1, all_solutions_step tiles allow_rotations st = some (some st1) ∧
      ((st1.Results = st.Results ++ [s.locations] ∧
          st1.total_Solutions = st.total_Solutions + 1) ↔
        ∀ R ∈ st.Results, ¬ isDuplicateOf tiles R s.locations) ∧
      ((st1.Results = st.Results ∧ st1.total_Solutions = st.total_Solutions) ↔
        ∃ R ∈ st.Results, isDuplicateOf tiles R s.locations) ∧
      (st.Results = [] → st1.Results = [s.locations]) ∧
      st1.Results.Pairwise (fun R S => ¬ isDuplicateOf tiles R S) ∧
      st1.search.board = Board.new rows cols ∧ st1.search.locations = [] ∧
      st1.search.temp_Solutions = 0 ∧ st1.num_Solutions = st.num_Solutions + 1 := by
  obtain ⟨st1, hst1, hinv1, hnum, happ, hkeep⟩ :=
    all_solutions_step_spec rows cols tiles allow_rotations st s hpos hinv hrun
  obtain ⟨hb, hl, ht, -, -, hpw⟩ := hinv1
  refine ⟨st1, hst1, ⟨?_, happ⟩, ⟨?_, hkeep⟩, ?_, hpw, hb, hl, ht, hnum⟩
  · rintro ⟨hres, -⟩ R hR hd
    have := (hkeep ⟨R, hR, hd⟩).1
    rw [this] at hres
    have hlen := congrArg List.length hres
    simp at hlen
  · rintro ⟨hres, -⟩
    by_contra hno
    have hall : ∀ R ∈ st.Results, ¬ isDuplicateOf tiles R s.locations :=
      fun R hR hd => hno ⟨R, hR, hd⟩
    have := (happ hall).1
    rw [this] at hres
    have hlen := congrArg List.length hres
    simp at hlen
  · intro hnil
    have := (happ (by rw [hnil]; intro R hR; simp at hR)).1
    rw [this, hnil]
    rfl

/-- An instance of C13: the first Solution for the two road tiles on a 2 by 2 board is
appended to the empty `Results`. -/
theorem all_solutions_step_accepts_witness :
    ∃ st1, all_solutions_step twoRoadTiles false ⟨⟨Board.new 2 2, [], 0⟩, 0, 0, []⟩
        = some (some st1) ∧
      st1.Results = [[⟨0, 0, 0⟩, ⟨0, 1, 0⟩]] ∧ st1.search.locations = [] := by
  obtain ⟨st1, h1, -, -, h2, -, -, h3, -⟩ :=
    all_solutions_step_accepts 2 2 twoRoadTiles false ⟨⟨Board.new 2 2, [], 0⟩, 0, 0, []⟩
      twoRoadSolved (by decide) (LoopInv_initial 2 2 twoRoadTiles) twoRoad_run
  exact ⟨st1, h1, h2 rfl, h3⟩

/-! ## Erase-on-backtrack -/

/-- C22: erase-on-backtrack. For every board, tile list, location stack, index and flag
setting, a call of `Can_place` that returns false leaves the board with exactly the same tiles
in the same cells and the location stack with the same contents as on entry. -/
theorem Can_place_false_restores (board : Board) (tiles : List Tile) (locations : List Location)
    (index : Nat) (allow_rotations : Bool) (temp_Solutions num_Solutions : Int) (s : SearchState)
    (h : Can_place board tiles locations index allow_rotations temp_Solutions num_Solutions
      = some (false, s)) :
    s.board = board ∧ s.locations = locations ∧
    ∀ i j, s.board.getTile i j = board.getTile i j := by
  have h1 := Can_place_fuel_restores tiles allow_rotations num_Solutions _ board locations index
    temp_Solutions s h
  exact ⟨h1.1, h1.2.1, fun i j => by rw [h1.1]⟩

/-- An instance of C22: on a 2 by 2 board that holds one pasture tile, the search for a
second pasture tile and a tile that fits nowhere places and erases the second tile three times
and returns false with the board and the location stack as on entry. -/
theorem Can_place_false_restores_witness :
    ∃ s, Can_place boardOnePasture [tilePasture, tilePasture, tileCrossRoads] [⟨0, 0, 0⟩] 1
        false 0 0 = some (false, s) ∧
      s.board = boardOnePasture ∧ s.locations = [⟨0, 0, 0⟩] := by
  have h1 : (Can_place boardOnePasture [tilePasture, tilePasture, tileCrossRoads] [⟨0, 0, 0⟩] 1
      false 0 0).map Prod.fst = some false := by decide
  match hrun : Can_place boardOnePasture [tilePasture, tilePasture, tileCrossRoads] [⟨0, 0, 0⟩] 1
      false 0 0 with
  | none => rw [hrun] at h1; simp at h1
  | some (true, s) => rw [hrun] at h1; simp at h1
  | some (false, s) =>
    have h2 := Can_place_false_restores _ _ _ _ _ _ _ s hrun
    exact ⟨s, rfl, h2.1, h2.2.1⟩

/-! ## The diagonal-corner rule -/

theorem Check_cell_diagonal (board : Board) (i j : Nat) (t : Tile)
    (hi : i < board.numRows) (hj : j < board.numColumns)
    (h : Check_cell board i j = some true) (hcell : board.cells i j = some t) :
    (0 < i → j + 1 < board.numColumns → board.cells (i - 1) j = none →
      board.cells i (j + 1) = none → board.cells (i - 1) (j + 1) = none) ∧
    (i + 1 < board.numRows → j + 1 < board.numColumns → board.cells i (j + 1) = none →
      board.cells (i + 1) j = none → board.cells (i + 1) (j + 1) = none) := by
  unfold Check_cell at h
  have hget : board.getTile i j = some (some t) := by
    rw [board.getTile_of_lt hi hj, hcell]
  rw [hget] at h
  simp only [runChecks_cons_true_iff, runChecks_nil_true, and_true,
    whenB_true_iff, Bool.and_eq_true, decide_eq_true_eq] at h
  obtain ⟨-, -, -, -, hup, hdown⟩ := h
  constructor
  · intro hi0 hj1 h1 h2
    have hstep := hup ⟨hi0, by omega⟩
    have := (diagonalStep_true_iff board (i - 1) j i (j + 1) (i - 1) (j + 1)
      ⟨by omega, hj⟩ ⟨hi, hj1⟩ ⟨by omega, hj1⟩).mp hstep
    by_contra hne
    exact this ⟨h1, h2, hne⟩
  · intro hi1 hj1 h1 h2
    have hstep := hdown ⟨by omega, by omega⟩
    have := (diagonalStep_true_iff board i (j + 1) (i + 1) j (i + 1) (j + 1)
      ⟨hi, hj1⟩ ⟨hi1, hj⟩ ⟨hi1, hj1⟩).mp hstep
    by_contra hne
    exact this ⟨h1, h2, hne⟩

theorem Check_all_cells_false_of_not_true (board : Board)
    (hr : 2 ≤ board.numRows) (hc : 2 ≤ board.numColumns)
    (h : Check_all_cells board ≠ some true) (temp num : Int) :
    Check_the_whole_board board temp num = some (false, temp) := by
  have hs := Check_the_whole_board_isSome board temp num hr hc
  unfold Check_the_whole_board at hs ⊢
  cases hcc : Check_all_cells board with
  | none => rw [hcc] at hs; simp at hs
  | some ok =>
    cases ok with
    | false => rfl
    | true => exact absurd hcc h

theorem Check_the_whole_board_diagonal_false (board : Board) (temp num : Int) (i j : Nat)
    (hi : i + 1 < board.numRows) (hj : j + 1 < board.numColumns)
    (h : (board.cells i j ≠ none ∧ board.cells (i + 1) (j + 1) ≠ none ∧
          board.cells i (j + 1) = none ∧ board.cells (i + 1) j = none) ∨
        (board.cells i (j + 1) ≠ none ∧ board.cells (i + 1) j ≠ none ∧
          board.cells i j = none ∧ board.cells (i + 1) (j + 1) = none)) :
    Check_the_whole_board board temp num = some (false, temp) := by
  apply Check_all_cells_false_of_not_true board (by omega) (by omega)
  intro hall
  rw [Check_all_cells_true_iff] at hall
  rcases h with ⟨h1, h2, h3, h4⟩ | ⟨h1, h2, h3, h4⟩
  · obtain ⟨t, ht⟩ := Option.ne_none_iff_exists'.mp h1
    have hc := hall i j (by omega) (by omega)
    exact h2 ((Check_cell_diagonal board i j t (by omega) (by omega) hc ht).2 hi hj h3 h4)
  · obtain ⟨t, ht⟩ := Option.ne_none_iff_exists'.mp h2
    have hc := hall (i + 1) j hi (by omega)
    have := (Check_cell_diagonal board (i + 1) j t hi (by omega) hc ht).1 (by omega) hj
      (by simpa using h3) h4
    exact h1 (by simpa using this)

/-- C24: the diagonal-corner rule. On every board with at least 2 rows and 2 columns,
`Check_the_whole_board` returns false (and leaves `temp_Solutions` alone) whenever two
occupied cells are diagonal neighbours and the two cells orthogonally adjacent to both of them
are empty. The two occupied cells are the ends of one of the two diagonals of the 2 by 2 window
with upper left corner `(i, j)`; seen from either cell this covers the four diagonal
directions. -/
theorem Check_the_whole_board_diagonal_rule (board : Board) (temp_Solutions num_Solutions : Int)
    (i j : Nat) (hrows : 2 ≤ board.numRows) (hcols : 2 ≤ board.numColumns)
    (hi : i + 1 < board.numRows) (hj : j + 1 < board.numColumns)
    (h : ((∃ t, board.getTile i j = some (some t)) ∧
          (∃ t, board.getTile (i + 1) (j + 1) = some (some t)) ∧
          board.getTile i (j + 1) = some none ∧ board.getTile (i + 1) j = some none) ∨
        ((∃ t, board.getTile i (j + 1) = some (some t)) ∧
          (∃ t, board.getTile (i + 1) j = some (some t)) ∧
          board.getTile i j = some none ∧ board.getTile (i + 1) (j + 1) = some none)) :
    Check_the_whole_board board temp_Solutions num_Solutions = some (false, temp_Solutions) := by
  apply Check_the_whole_board_diagonal_false board temp_Solutions num_Solutions i j hi hj
  simp only [Board.getTile_eq_some_iff] at h
  rcases h with ⟨⟨t, -, h1⟩, ⟨u, -, h2⟩, ⟨-, h3⟩, ⟨-, h4⟩⟩ | ⟨⟨t, -, h1⟩, ⟨u, -, h2⟩, ⟨-, h3⟩, ⟨-, h4⟩⟩
  · exact Or.inl ⟨by simp [h1], by simp [h2], h3, h4⟩
  · exact Or.inr ⟨by simp [h1], by simp [h2], h3, h4⟩

/-- An instance of C24: two pasture tiles on either diagonal of a 2 by 2 board. -/
theorem Check_the_whole_board_diagonal_rule_witness :
    Check_the_whole_board boardDiagonal 0 0 = some (false, 0) ∧
    boardDiagonal.getTile 0 0 = some (some tilePasture) ∧
    boardDiagonal.getTile 1 1 = some (some tilePasture) ∧
    boardDiagonal.getTile 0 1 = some none ∧ boardDiagonal.getTile 1 0 = some none ∧
    Check_the_whole_board boardAntiDiagonal 0 0 = some (false, 0) :=
  ⟨Check_the_whole_board_diagonal_rule boardDiagonal 0 0 0 0 (by decide) (by decide)
      (by decide) (by decide)
      (Or.inl ⟨⟨tilePasture, by decide⟩, ⟨tilePasture, by decide⟩, by decide, by decide⟩),
    by decide, by decide, by decide, by decide,
    Check_the_whole_board_diagonal_rule boardAntiDiagonal 0 0 0 0 (by decide) (by decide)
      (by decide) (by decide)
      (Or.inr ⟨⟨tilePasture, by decide⟩, ⟨tilePasture, by decide⟩, by decide, by decide⟩)⟩

/-! ## The board that `main` searches and the board that was requested -/

theorem LegalPlacement_two_pastures :
    LegalPlacement 2 2 [tilePasture, tilePasture] [⟨0, 0, 0⟩, ⟨0, 1, 0⟩] := by
  refine ⟨rfl, ?_, ?_, ?_, ?_⟩
  · decide
  · decide
  · decide
  · decide

theorem not_LegalPlacement_one_cell (tiles : List Tile) (h : 2 ≤ tiles.length)
    (sol : List Location) : ¬ LegalPlacement 1 1 tiles sol := by
  rintro ⟨hlen, hrange, hdist, -, -⟩
  match sol, hlen, hrange, hdist with
  | [], hlen, _, _ => simp at hlen; omega
  | [a], hlen, _, _ => simp at hlen; omega
  | a :: b :: rest, _, hrange, hdist =>
    have ha := hrange a (by simp)
    have hb := hrange b (by simp)
    have hab := (List.pairwise_cons.mp hdist).1 b (by simp)
    exact hab ⟨by omega, by omega⟩

/-- C25: the board that `main` searches can lose every solution of the requested board. Two
pasture tiles have a legal complete placement on the requested 2 by 2 board, and `Can_place`
finds it there; `main` replaces the board by the 1 by 1 board (2 + 2 exceeds the number of
tiles), on which no placement of two tiles exists, and reports that there is no solution. -/
theorem main_shrink_loses_solution :
    (2 : Int) + 2 > ([tilePasture, tilePasture].length : Int) ∧
    LegalPlacement 2 2 [tilePasture, tilePasture] [⟨0, 0, 0⟩, ⟨0, 1, 0⟩] ∧
    (Can_place (Board.new 2 2) [tilePasture, tilePasture] [] 0 false 0 0).map
      (fun r => (r.1, r.2.locations)) = some (true, [⟨0, 0, 0⟩, ⟨0, 1, 0⟩]) ∧
    (main_board 2 2 [tilePasture, tilePasture]).map (fun b => (b.numRows, b.numColumns))
      = some ([tilePasture, tilePasture].length / 2, [tilePasture, tilePasture].length / 2) ∧
    [tilePasture, tilePasture].length / 2 = 1 ∧
    (∀ sol, ¬ LegalPlacement 1 1 [tilePasture, tilePasture] sol) ∧
    main_search 2 2 [tilePasture, tilePasture] false false 0 = some Outcome.noSolution :=
  ⟨by decide, LegalPlacement_two_pastures, by decide, by decide, by decide,
    not_LegalPlacement_one_cell _ (by decide), by decide⟩

/-! ## Symmetry of the duplicate test -/

theorem nodup_of_distinct_cells (l : List Location)
    (h : l.Pairwise (fun a c => ¬ (a.row = c.row ∧ a.column = c.column))) : l.Nodup := by
  unfold List.Nodup
  refine h.imp ?_
  intro a c hac heq
  exact hac ⟨by rw [heq], by rw [heq]⟩

theorem step2Duplicate_iff_code (tiles : List Tile) (R S : List Location)
    (hR : R.length = tiles.length) (hS : S.length = tiles.length) (hSn : S.Nodup) :
    step2Duplicate tiles R S ↔ offsetCodeCondition tiles R S := by
  unfold step2Duplicate offsetCodeCondition
  rw [countOffsetMatches_eq tiles R S hR hS, Option.some.injEq]
  have hle : ∀ x ∈ (List.range tiles.length).map (offsetContribution tiles R S), x ≤ 1 := by
    intro x hx
    obtain ⟨n, -, rfl⟩ := List.mem_map.mp hx
    exact (offsetContribution_eq_one_iff tiles R S hS hSn n).1
  have hlen : ((List.range tiles.length).map (offsetContribution tiles R S)).length
      = tiles.length := by simp
  constructor
  · intro h n hn
    have hall := (sum_eq_length_iff _ hle).mp (by rw [h, hlen])
    exact (offsetContribution_eq_one_iff tiles R S hS hSn n).2.mp
      (hall _ (List.mem_map.mpr ⟨n, List.mem_range.mpr hn, rfl⟩))
  · intro h
    refine ((sum_eq_length_iff _ hle).mpr ?_).trans hlen
    intro x hx
    obtain ⟨n, hn, rfl⟩ := List.mem_map.mp hx
    exact (offsetContribution_eq_one_iff tiles R S hS hSn n).2.mpr (h n (List.mem_range.mp hn))

theorem locationDiff_swap (a b c d : Location) :
    locationDiff a b = locationDiff c d ↔ locationDiff b a = locationDiff d c := by
  simp only [locationDiff, Prod.mk.injEq]
  constructor <;> rintro ⟨h1, h2, h3⟩ <;> exact ⟨by omega, by omega, by omega⟩

theorem offsetCodeCondition_swap (tiles : List Tile) (R S : List Location) :
    offsetCodeCondition tiles S R ↔ offsetDuplicateSpec tiles R S := by
  unfold offsetCodeCondition offsetDuplicateSpec firstOffset
  constructor
  · intro h n hn
    rcases h n hn with h1 | ⟨i, hi, hne, hsame, h1⟩
    · exact Or.inl ((locationDiff_swap _ _ _ _).mp h1)
    · exact Or.inr ⟨i, hi, hne, hsame, (locationDiff_swap _ _ _ _).mp h1⟩
  · intro h n hn
    rcases h n hn with h1 | ⟨i, hi, hne, hsame, h1⟩
    · exact Or.inl ((locationDiff_swap _ _ _ _).mp h1)
    · exact Or.inr ⟨i, hi, hne, hsame, (locationDiff_swap _ _ _ _).mp h1⟩

theorem step2Duplicate_symm (tiles : List Tile) (R S : List Location)
    (hR : R.length = tiles.length) (hS : S.length = tiles.length)
    (hRn : R.Nodup) (hSn : S.Nodup) :
    step2Duplicate tiles R S ↔ step2Duplicate tiles S R := by
  rw [step2Duplicate_iff_code tiles R S hR hS hSn, step2Duplicate_iff_code tiles S R hS hR hRn,
    offsetCodeCondition_swap tiles R S]
  exact offsetDuplicateSpec_iff_code tiles R S hR hS hRn hSn

theorem step1Duplicate_symm (tiles : List Tile) (R S : List Location)
    (hR : R.length = tiles.length) (hS : S.length = tiles.length)
    (hRn : R.Nodup) (hSn : S.Nodup) :
    step1Duplicate tiles R S ↔ step1Duplicate tiles S R := by
  unfold step1Duplicate
  rw [countEqualPairs_eq_iff_perm _ R S hR hS hRn hSn,
    countEqualPairs_eq_iff_perm _ S R hS hR hSn hRn]
  exact ⟨List.Perm.symm, List.Perm.symm⟩

/-- C27, as the code has it: the duplicate test is symmetric. For every tile list and every two
Solutions `S` and `R` over it (one Location per tile), each placing its tiles in pairwise
distinct cells, the test of `main` (step 1, then step 2) run with `S` as the new Solution and
`R` as the accepted Result declares a duplicate if and only if it does so with the roles
exchanged; the same holds for each of the two steps alone. -/
theorem isDuplicateOf_symm (tiles : List Tile) (R S : List Location)
    (hR : R.length = tiles.length) (hS : S.length = tiles.length)
    (hRd : R.Pairwise (fun a c => ¬ (a.row = c.row ∧ a.column = c.column)))
    (hSd : S.Pairwise (fun a c => ¬ (a.row = c.row ∧ a.column = c.column))) :
    (isDuplicateOf tiles R S ↔ isDuplicateOf tiles S R) ∧
    (step1Duplicate tiles R S ↔ step1Duplicate tiles S R) ∧
    (step2Duplicate tiles R S ↔ step2Duplicate tiles S R) := by
  have hRn := nodup_of_distinct_cells R hRd
  have hSn := nodup_of_distinct_cells S hSd
  have h1 := step1Duplicate_symm tiles R S hR hS hRn hSn
  have h2 := step2Duplicate_symm tiles R S hR hS hRn hSn
  refine ⟨?_, h1, h2⟩
  unfold isDuplicateOf
  rw [h1, h2]

/-- An instance of C27: two pasture tiles side by side in row 0 and in row 1; each Solution is
a duplicate of the other at step 2 and not at step 1. -/
theorem isDuplicateOf_symm_witness :
    isDuplicateOf [tilePasture, tilePasture] [⟨0, 0, 0⟩, ⟨0, 1, 0⟩] [⟨1, 0, 0⟩, ⟨1, 1, 0⟩] ∧
    isDuplicateOf [tilePasture, tilePasture] [⟨1, 0, 0⟩, ⟨1, 1, 0⟩] [⟨0, 0, 0⟩, ⟨0, 1, 0⟩] ∧
    ¬ step1Duplicate [tilePasture, tilePasture] [⟨0, 0, 0⟩, ⟨0, 1, 0⟩] [⟨1, 0, 0⟩, ⟨1, 1, 0⟩] :=
  ⟨by decide,
    (isDuplicateOf_symm [tilePasture, tilePasture] [⟨0, 0, 0⟩, ⟨0, 1, 0⟩] [⟨1, 0, 0⟩, ⟨1, 1, 0⟩]
      (by decide) (by decide) (by decide) (by decide)).1.mp (by decide),
    by decide⟩

/-! ## The valid placements and their order -/

theorem ninety_mul_div (n : Nat) : 90 * n / 90 = n := by omega

theorem mem_validPlacements (m : Nat) :
    ∀ (ts : List Tile) (board : Board) (ls : List Location),
      ls ∈ validPlacements m board ts ↔ ValidPlacement m board ts ls := by
  intro ts
  induction ts with
  | nil =>
    intro board ls
    rw [validPlacements]
    cases ls with
    | nil =>
      rw [ValidPlacement]
      by_cases h : Check_all_cells board = some true
      · simp [h]
      · simp [h]
    | cons l ls =>
      by_cases h : Check_all_cells board = some true
      · simp [h, ValidPlacement]
      · simp [h, ValidPlacement]
  | cons t ts ih =>
    intro board ls
    rw [validPlacements, List.mem_flatMap]
    cases ls with
    | nil =>
      constructor
      · rintro ⟨x, -, hx⟩
        split_ifs at hx
        · simp at hx
        · simp at hx
      · intro h
        simp [ValidPlacement] at h
    | cons l ls =>
      rw [ValidPlacement]
      constructor
      · rintro ⟨⟨i, j, n⟩, hx, hmem⟩
        obtain ⟨hi, hj, hn⟩ := (mem_scanOrder _ _ _ _).mp hx
        simp only at hi hj hn hmem
        split_ifs at hmem with hc
        · obtain ⟨ls1, hls1, heq⟩ := List.mem_map.mp hmem
          rw [List.cons.injEq] at heq
          obtain ⟨rfl, rfl⟩ := heq
          simp only [ninety_mul_div]
          exact ⟨hi, hj, ⟨n, hn, rfl⟩, hc.1, hc.2, (ih _ _).mp hls1⟩
        · simp at hmem
      · rintro ⟨hi, hj, ⟨n, hn, hrot⟩, hcell, hcheck, hrest⟩
        have hl : l = ⟨l.row, l.column, 90 * n⟩ := by
          cases l; simp only [Location.mk.injEq, true_and]; exact hrot
        rw [hrot, ninety_mul_div] at hcheck hrest
        refine ⟨(l.row, l.column, n), (mem_scanOrder _ _ _ _).mpr ⟨hi, hj, hn⟩, ?_⟩
        simp only
        rw [if_pos ⟨hcell, hcheck⟩]
        exact List.mem_map.mpr ⟨ls, (ih _ _).mpr hrest, by rw [← hl]⟩

theorem scanOrder_sorted (rows cols m : Nat) :
    (scanOrder rows cols m).Pairwise (fun x y =>
      x.1 < y.1 ∨ (x.1 = y.1 ∧ x.2.1 < y.2.1) ∨ (x.1 = y.1 ∧ x.2.1 = y.2.1 ∧ x.2.2 < y.2.2)) := by
  unfold scanOrder
  rw [List.pairwise_flatMap]
  constructor
  · intro i _
    rw [List.pairwise_flatMap]
    constructor
    · intro j _
      rw [List.pairwise_map]
      exact (List.pairwise_lt_range m).imp fun h => Or.inr (Or.inr ⟨rfl, rfl, h⟩)
    · refine (List.pairwise_lt_range cols).imp ?_
      intro j1 j2 h x hx y hy
      obtain ⟨n1, -, rfl⟩ := List.mem_map.mp hx
      obtain ⟨n2, -, rfl⟩ := List.mem_map.mp hy
      exact Or.inr (Or.inl ⟨rfl, h⟩)
  · refine (List.pairwise_lt_range rows).imp ?_
    intro i1 i2 h x hx y hy
    obtain ⟨j1, -, hx1⟩ := List.mem_flatMap.mp hx
    obtain ⟨n1, -, rfl⟩ := List.mem_map.mp hx1
    obtain ⟨j2, -, hy1⟩ := List.mem_flatMap.mp hy
    obtain ⟨n2, -, rfl⟩ := List.mem_map.mp hy1
    exact Or.inl h

theorem validPlacements_sorted (m : Nat) :
    ∀ (ts : List Tile) (board : Board), (validPlacements m board ts).Pairwise placementLt := by
  intro ts
  induction ts with
  | nil =>
    intro board
    rw [validPlacements]
    split_ifs <;> simp
  | cons t ts ih =>
    intro board
    rw [validPlacements, List.pairwise_flatMap]
    constructor
    · intro x _
      split_ifs
      · rw [List.pairwise_map]
        exact (ih _).imp fun h => Or.inr ⟨rfl, h⟩
      · exact List.Pairwise.nil
    · refine (scanOrder_sorted _ _ m).imp ?_
      intro x y hxy a ha b hb
      split_ifs at ha with h1
      · split_ifs at hb with h2
        · obtain ⟨a1, -, rfl⟩ := List.mem_map.mp ha
          obtain ⟨b1, -, rfl⟩ := List.mem_map.mp hb
          left
          unfold locationLt
          rcases hxy with h | ⟨h3, h4⟩ | ⟨h3, h4, h5⟩
          · exact Or.inl h
          · exact Or.inr (Or.inl ⟨h3, h4⟩)
          · exact Or.inr (Or.inr ⟨h3, h4, by simp only; omega⟩)
        · simp at hb
      · simp at ha

/-! ## The search counts the valid placements in order -/

theorem searchResult_of_some (board : Board) (ts : List Tile) (locations : List Location)
    (temp num : Int) (V : List (List Location)) (ls : List Location)
    (h : V[(num - temp).toNat]? = some ls) :
    searchResult board ts locations temp num V =
      some (true, ⟨placeAll board ts ls, locations ++ ls,
        temp + ((num - temp).toNat : Int) + 1⟩) := by
  simp only [searchResult, h]

theorem searchResult_of_none (board : Board) (ts : List Tile) (locations : List Location)
    (temp num : Int) (V : List (List Location))
    (h : V[(num - temp).toNat]? = none) :
    searchResult board ts locations temp num V =
      some (false, ⟨board, locations, temp + (V.length : Int)⟩) := by
  simp only [searchResult, h]

theorem searchResult_nil (board : Board) (ts : List Tile) (locations : List Location)
    (temp num : Int) :
    searchResult board ts locations temp num [] = some (false, ⟨board, locations, temp⟩) := by
  rw [searchResult_of_none _ _ _ _ _ _ (by simp)]
  simp

theorem searchResult_append_skip (board : Board) (ts : List Tile) (locations : List Location)
    (temp num : Int) (W V : List (List Location))
    (h : W[(num - temp).toNat]? = none) :
    searchResult board ts locations temp num (W ++ V) =
      searchResult board ts locations (temp + (W.length : Int)) num V := by
  have hle : W.length ≤ (num - temp).toNat := List.getElem?_eq_none_iff.mp h
  have hj : (num - (temp + (W.length : Int))).toNat = (num - temp).toNat - W.length := by omega
  cases hv : V[(num - temp).toNat - W.length]? with
  | some ls =>
    rw [searchResult_of_some _ _ _ _ _ (W ++ V) ls (by rw [List.getElem?_append_right hle, hv]),
      searchResult_of_some _ _ _ _ _ V ls (by rw [hj, hv])]
    congr 3
    omega
  | none =>
    rw [searchResult_of_none _ _ _ _ _ (W ++ V) (by rw [List.getElem?_append_right hle, hv]),
      searchResult_of_none _ _ _ _ _ V (by rw [hj, hv])]
    congr 3
    rw [List.length_append]
    push_cast
    omega

theorem Can_place_loop_enumerates (num : Int)
    (recurse : SearchState → Option (Bool × SearchState)) (tile : Tile) (ts : List Tile)
    (m rows cols : Nat) (hr : 2 ≤ rows) (hc : 2 ≤ cols)
    (hrec : ∀ (b : Board) (locs : List Location) (temp : Int),
      b.numRows = rows → b.numColumns = cols →
      recurse ⟨b, locs, temp⟩ = searchResult b ts locs temp num (validPlacements m b ts)) :
    ∀ (l : List (Nat × Nat × Nat)), (∀ x ∈ l, x.1 < rows ∧ x.2.1 < cols) →
      ∀ (board : Board) (locations : List Location) (temp : Int),
        board.numRows = rows → board.numColumns = cols →
        Can_place_loop recurse tile l ⟨board, locations, temp⟩ =
          searchResult board (tile :: ts) locations temp num
            (l.flatMap fun x =>
              if board.cells x.1 x.2.1 = none ∧
                  Check_tile board (rotatedTile tile x.2.2) x.1 x.2.1 = some true then
                (validPlacements m (board.setTile x.1 x.2.1 (rotatedTile tile x.2.2)) ts).map
                  fun ls => ⟨x.1, x.2.1, 90 * x.2.2⟩ :: ls
              else []) := by
  intro l
  induction l with
  | nil =>
    intro _ board locations temp _ _
    rw [Can_place_loop, List.flatMap_nil, searchResult_nil]
  | cons x rest ih =>
    intro hl board locations temp hbr hbc
    obtain ⟨i, j, n⟩ := x
    have hij := hl (i, j, n) (List.mem_cons_self _ _)
    simp only at hij
    have hrest : ∀ x ∈ rest, x.1 < rows ∧ x.2.1 < cols :=
      fun x hx => hl x (List.mem_cons_of_mem _ hx)
    have hget : board.getTile i j = some (board.cells i j) :=
      board.getTile_of_lt (by omega) (by omega)
    rw [Can_place_loop, List.flatMap_cons]
    simp only
    rw [hget]
    cases hcell : board.cells i j with
    | some u =>
      simp only
      rw [if_neg (by simp), List.nil_append]
      exact ih hrest board locations temp hbr hbc
    | none =>
      simp only
      have hsome := Check_tile_isSome board (rotatedTile tile n) i j (by omega) (by omega)
        (by omega) (by omega)
      cases hck : Check_tile board (rotatedTile tile n) i j with
      | none => rw [hck] at hsome; simp at hsome
      | some ok =>
        cases ok with
        | false =>
          simp only
          rw [if_neg (by simp), List.nil_append]
          exact ih hrest board locations temp hbr hbc
        | true =>
          simp only
          rw [if_pos ⟨trivial, trivial⟩]
          rw [hrec _ _ _ (by exact hbr) (by exact hbc)]
          cases hw : (validPlacements m (board.setTile i j (rotatedTile tile n)) ts)[
              (num - temp).toNat]? with
          | some ls =>
            rw [searchResult_of_some _ _ _ _ _ _ ls hw]
            simp only
            rw [searchResult_of_some _ _ _ _ _ _ (⟨i, j, 90 * n⟩ :: ls)
              (by
                have hlt : (num - temp).toNat <
                    (validPlacements m (board.setTile i j (rotatedTile tile n)) ts).length := by
                  by_contra hge
                  rw [List.getElem?_eq_none_iff.mpr (by omega)] at hw
                  simp at hw
                rw [List.getElem?_append_left (by rw [List.length_map]; exact hlt),
                  List.getElem?_map, hw]
                rfl)]
            rw [placeAll]
            simp only [ninety_mul_div, List.append_assoc, List.singleton_append]
          | none =>
            rw [searchResult_of_none _ _ _ _ _ _ hw]
            simp only
            rw [Board.eraseTile_setTile board i j _ hcell, List.dropLast_concat,
              searchResult_append_skip _ _ _ _ _ _ _
                (by rw [List.getElem?_map, hw]; rfl),
              List.length_map]
            exact ih hrest board locations _ hbr hbc

theorem Can_place_fuel_enumerates (tiles : List Tile) (allow : Bool) (num : Int)
    (rows cols : Nat) (hr : 2 ≤ rows) (hc : 2 ≤ cols) :
    ∀ (fuel : Nat) (board : Board) (locations : List Location) (index : Nat) (temp : Int),
      board.numRows = rows → board.numColumns = cols → index ≤ tiles.length →
      tiles.length ≤ index + fuel →
      Can_place_fuel fuel board tiles locations index allow temp num =
        searchResult board (tiles.drop index) locations temp num
          (validPlacements (if allow then 4 else 1) board (tiles.drop index)) := by
  intro fuel
  induction fuel with
  | zero =>
    intro board locations index temp hbr hbc hle hfuel
    have hidx : index = tiles.length := by omega
    rw [Can_place_fuel, if_pos hidx, hidx, List.drop_length, validPlacements]
    have hs := Check_the_whole_board_isSome board temp num (by omega) (by omega)
    unfold Check_the_whole_board at hs ⊢
    cases hcc : Check_all_cells board with
    | none => rw [hcc] at hs; simp at hs
    | some ok =>
      cases ok with
      | false =>
        simp only
        rw [if_neg (by simp), searchResult_nil]
      | true =>
        simp only
        rw [if_pos trivial]
        by_cases hgt : temp + 1 > num
        · have hj : (num - temp).toNat = 0 := by omega
          rw [searchResult_of_some _ _ _ _ _ _ [] (by rw [hj]; rfl), hj]
          simp [placeAll, hgt]
        · have hj : 1 ≤ (num - temp).toNat := by omega
          rw [searchResult_of_none _ _ _ _ _ _ (by
            apply List.getElem?_eq_none_iff.mpr
            simpa using hj)]
          simp [hgt]
  | succ fuel ih =>
    intro board locations index temp hbr hbc hle hfuel
    by_cases hidx : index = tiles.length
    · rw [Can_place_fuel, if_pos hidx, hidx, List.drop_length, validPlacements]
      have hs := Check_the_whole_board_isSome board temp num (by omega) (by omega)
      unfold Check_the_whole_board at hs ⊢
      cases hcc : Check_all_cells board with
      | none => rw [hcc] at hs; simp at hs
      | some ok =>
        cases ok with
        | false =>
          simp only
          rw [if_neg (by simp), searchResult_nil]
        | true =>
          simp only
          rw [if_pos trivial]
          by_cases hgt : temp + 1 > num
          · have hj : (num - temp).toNat = 0 := by omega
            rw [searchResult_of_some _ _ _ _ _ _ [] (by rw [hj]; rfl), hj]
            simp [placeAll, hgt]
          · have hj : 1 ≤ (num - temp).toNat := by omega
            rw [searchResult_of_none _ _ _ _ _ _ (by
              apply List.getElem?_eq_none_iff.mpr
              simpa using hj)]
            simp [hgt]
    · have hlt : index < tiles.length := by omega
      rw [Can_place_fuel, if_neg hidx]
      simp only
      rw [List.getElem?_eq_getElem hlt]
      simp only
      rw [List.drop_eq_getElem_cons hlt, validPlacements, hbr, hbc]
      have hm : (if (!allow) = true then 1 else 4) = (if allow = true then 4 else 1) := by
        cases allow <;> rfl
      rw [hm]
      exact Can_place_loop_enumerates num _ tiles[index] (tiles.drop (index + 1))
        (if allow = true then 4 else 1) rows cols hr hc
        (fun b locs temp1 hb1 hb2 => ih b locs (index + 1) temp1 hb1 hb2 (by omega) (by omega))
        _ (fun x hx => by
          obtain ⟨h1, h2, -⟩ := (mem_scanOrder _ _ _ _).mp hx
          exact ⟨h1, h2⟩)
        board locations temp hbr hbc

/-! ## The passes of the all-solutions loop -/

theorem Can_place_empty_board (rows cols : Nat) (tiles : List Tile) (allow : Bool)
    (hr : 2 ≤ rows) (hc : 2 ≤ cols) (num : Int) :
    Can_place (Board.new rows cols) tiles [] 0 allow 0 num =
      searchResult (Board.new rows cols) tiles [] 0 num
        (validPlacements (if allow then 4 else 1) (Board.new rows cols) tiles) := by
  unfold Can_place
  rw [Can_place_fuel_enumerates tiles allow num rows cols hr hc _ _ _ 0 0 rfl rfl (by omega)
    (by omega)]
  rfl

theorem Can_place_pass (rows cols : Nat) (tiles : List Tile) (allow : Bool)
    (hr : 2 ≤ rows) (hc : 2 ≤ cols) (k : Nat) :
    ∃ s, Can_place (Board.new rows cols) tiles [] 0 allow 0 (k : Int) =
        some (decide (k < (validPlacements (if allow then 4 else 1)
          (Board.new rows cols) tiles).length), s) ∧
      (k < (validPlacements (if allow then 4 else 1) (Board.new rows cols) tiles).length →
        (validPlacements (if allow then 4 else 1) (Board.new rows cols) tiles)[k]?
          = some s.locations) := by
  rw [Can_place_empty_board rows cols tiles allow hr hc]
  have hj : ((k : Int) - 0).toNat = k := by omega
  cases hv : (validPlacements (if allow then 4 else 1) (Board.new rows cols) tiles)[k]? with
  | some ls =>
    have hlt : k < (validPlacements (if allow then 4 else 1)
        (Board.new rows cols) tiles).length := by
      by_contra hge
      rw [List.getElem?_eq_none_iff.mpr (by omega)] at hv
      simp at hv
    rw [searchResult_of_some _ _ _ _ _ _ ls (by rw [hj, hv])]
    refine ⟨⟨placeAll (Board.new rows cols) tiles ls, [] ++ ls,
      0 + ((((k : Int) - 0).toNat : Nat) : Int) + 1⟩, ?_, fun _ => ?_⟩
    · rw [decide_eq_true hlt]
    · simp
  | none =>
    have hge := List.getElem?_eq_none_iff.mp hv
    rw [searchResult_of_none _ _ _ _ _ _ (by rw [hj, hv])]
    refine ⟨⟨Board.new rows cols, [], 0 + ((validPlacements (if allow then 4 else 1)
      (Board.new rows cols) tiles).length : Int)⟩, ?_, fun h => ?_⟩
    · rw [decide_eq_false (by omega)]
    · omega

theorem duplicateCount_no_tiles (Results : List (List Location)) (S : List Location) :
    duplicateCount [] Results.length Results S = some 0 := by
  unfold duplicateCount
  cases Results with
  | nil => simp
  | cons R rest =>
    rw [if_pos (by simp), List.length_cons, List.range_succ_eq_map, duplicateLoop]
    simp [countEqualPairs]

theorem all_solutions_step_total (rows cols : Nat) (tiles : List Tile) (allow : Bool)
    (st : MainState) (s : SearchState) (hinv : LoopInv rows cols tiles st)
    (hrun : Can_place st.search.board tiles st.search.locations 0 allow
      st.search.temp_Solutions st.num_Solutions = some (true, s)) :
    ∃ st1, all_solutions_step tiles allow st = some (some st1) ∧
      LoopInv rows cols tiles st1 ∧ st1.num_Solutions = st.num_Solutions + 1 := by
  rcases Nat.eq_zero_or_pos tiles.length with h0 | hpos
  · have hnil : tiles = [] := List.length_eq_zero.mp h0
    subst hnil
    obtain ⟨hb, hl, ht, htot, hlen, hpw⟩ := hinv
    have hrun1 := hrun
    rw [hb, hl] at hrun1
    have hshape := Can_place_ShapeInv rows cols [] allow _ _ s hrun1
    unfold all_solutions_step
    rw [hrun]
    simp only
    rw [htot, duplicateCount_no_tiles]
    simp only
    refine ⟨_, rfl, ⟨?_, rfl, rfl, ?_, ?_, ?_⟩, rfl⟩
    · show s.board.clear = Board.new rows cols
      rw [Board.clear_eq_new, hshape.1, hshape.2.1]
    · simp
    · simpa using hlen
    · simpa using hpw
  · obtain ⟨st1, h1, h2, h3, -, -⟩ :=
      all_solutions_step_spec rows cols tiles allow st s hpos hinv hrun
    exact ⟨st1, h1, h2, h3⟩

theorem stateAtPass_spec (rows cols : Nat) (tiles : List Tile) (allow : Bool)
    (hr : 2 ≤ rows) (hc : 2 ≤ cols) :
    ∀ k, k ≤ (validPlacements (if allow then 4 else 1) (Board.new rows cols) tiles).length →
      ∃ st, stateAtPass tiles allow ⟨⟨Board.new rows cols, [], 0⟩, 0, 0, []⟩ k = some st ∧
        LoopInv rows cols tiles st ∧ st.num_Solutions = (k : Int) := by
  intro k
  induction k with
  | zero =>
    intro _
    exact ⟨_, rfl, LoopInv_initial rows cols tiles, rfl⟩
  | succ k ih =>
    intro hk
    obtain ⟨st, hst, hinv, hnum⟩ := ih (by omega)
    obtain ⟨s, hrun, -⟩ := Can_place_pass rows cols tiles allow hr hc k
    rw [decide_eq_true (by omega)] at hrun
    have hrun1 : Can_place st.search.board tiles st.search.locations 0 allow
        st.search.temp_Solutions st.num_Solutions = some (true, s) := by
      rw [hinv.1, hinv.2.1, hinv.2.2.1, hnum]
      exact hrun
    obtain ⟨st1, h1, h2, h3⟩ := all_solutions_step_total rows cols tiles allow st s hinv hrun1
    refine ⟨st1, ?_, h2, ?_⟩
    · rw [stateAtPass, hst]
      simp only
      rw [h1]
    · rw [h3, hnum]
      push_cast
      rfl

theorem all_solutions_step_last (rows cols : Nat) (tiles : List Tile) (allow : Bool)
    (hr : 2 ≤ rows) (hc : 2 ≤ cols) (st : MainState) (hinv : LoopInv rows cols tiles st)
    (hnum : st.num_Solutions =
      ((validPlacements (if allow then 4 else 1) (Board.new rows cols) tiles).length : Int)) :
    all_solutions_step tiles allow st = some none := by
  obtain ⟨s, hrun, -⟩ := Can_place_pass rows cols tiles allow hr hc
    (validPlacements (if allow then 4 else 1) (Board.new rows cols) tiles).length
  rw [decide_eq_false (by omega)] at hrun
  unfold all_solutions_step
  rw [hinv.1, hinv.2.1, hinv.2.2.1, hnum, hrun]

theorem all_solutions_loop_of_stateAtPass (tiles : List Tile) (allow : Bool) (st0 : MainState) :
    ∀ (k : Nat) (st : MainState), stateAtPass tiles allow st0 k = some st →
      ∀ fuel, all_solutions_loop tiles allow (k + fuel) st0
        = all_solutions_loop tiles allow fuel st := by
  intro k
  induction k with
  | zero =>
    intro st h fuel
    rw [stateAtPass, Option.some.injEq] at h
    rw [h, Nat.zero_add]
  | succ k ih =>
    intro st2 h fuel
    rw [stateAtPass] at h
    cases hk : stateAtPass tiles allow st0 k with
    | none => rw [hk] at h; simp at h
    | some st1 =>
      rw [hk] at h
      simp only at h
      cases hstep : all_solutions_step tiles allow st1 with
      | none => rw [hstep] at h; simp at h
      | some o =>
        cases o with
        | none => rw [hstep] at h; simp at h
        | some st3 =>
          rw [hstep] at h
          simp only [Option.some.injEq] at h
          subst h
          have h1 := ih st1 hk (fuel + 1)
          rw [show k + 1 + fuel = k + (fuel + 1) by omega, h1, all_solutions_loop_succ, hstep]

theorem all_solutions_loop_terminates (rows cols : Nat) (tiles : List Tile) (allow : Bool)
    (hr : 2 ≤ rows) (hc : 2 ≤ cols) (fuel : Nat)
    (hfuel : (validPlacements (if allow then 4 else 1) (Board.new rows cols) tiles).length
      < fuel) :
    ∃ stf, all_solutions_loop tiles allow fuel ⟨⟨Board.new rows cols, [], 0⟩, 0, 0, []⟩
        = some stf ∧
      stateAtPass tiles allow ⟨⟨Board.new rows cols, [], 0⟩, 0, 0, []⟩
        (validPlacements (if allow then 4 else 1) (Board.new rows cols) tiles).length
        = some stf ∧
      LoopInv rows cols tiles stf ∧
      stf.num_Solutions =
        ((validPlacements (if allow then 4 else 1) (Board.new rows cols) tiles).length : Int) := by
  obtain ⟨st, hst, hinv, hnum⟩ := stateAtPass_spec rows cols tiles allow hr hc _ (le_refl _)
  refine ⟨st, ?_, hst, hinv, hnum⟩
  obtain ⟨f, rfl⟩ : ∃ f, fuel =
      (validPlacements (if allow then 4 else 1) (Board.new rows cols) tiles).length + (f + 1) :=
    ⟨fuel - (validPlacements (if allow then 4 else 1) (Board.new rows cols) tiles).length - 1,
      by omega⟩
  rw [all_solutions_loop_of_stateAtPass tiles allow _ _ st hst, all_solutions_loop_succ,
    all_solutions_step_last rows cols tiles allow hr hc st hinv hnum]

theorem validPlacements_twoRoadTiles :
    validPlacements 1 (Board.new 2 2) twoRoadTiles
      = [[⟨0, 0, 0⟩, ⟨0, 1, 0⟩], [⟨1, 0, 0⟩, ⟨1, 1, 0⟩]] := by
  decide

/-! ## Accepted Results and the boards they produce -/

theorem placeAll_cells_at (ts : List Tile) :
    ∀ (ls : List Location) (board : Board) (k : Nat) (loc : Location) (t : Tile),
      ls.Pairwise (fun a c => ¬ (a.row = c.row ∧ a.column = c.column)) →
      ls[k]? = some loc → ts[k]? = some t →
      (placeAll board ts ls).cells loc.row loc.column
        = some (rotatedTile t (loc.rotation / 90)) := by
  induction ts with
  | nil => intro ls board k loc t _ _ ht; simp at ht
  | cons t0 ts ih =>
    intro ls board k loc t hpw hl ht
    cases ls with
    | nil => simp at hl
    | cons l0 ls =>
      rw [placeAll]
      obtain ⟨h0, hpw1⟩ := List.pairwise_cons.mp hpw
      cases k with
      | zero =>
        simp only [List.getElem?_cons_zero, Option.some.injEq] at hl ht
        subst hl ht
        rw [placeAll_cells_of_not_named ts ls _ _ _ (fun loc hloc => by
          intro h
          exact h0 loc hloc ⟨h.1.symm, h.2.symm⟩)]
        simp [Board.setTile]
      | succ k =>
        simp only [List.getElem?_cons_succ] at hl ht
        exact ih ls _ k loc t hpw1 hl ht

theorem subset_of_same_board (rows cols : Nat) (tiles : List Tile) (R S : List Location)
    (hrigid : Rigid tiles) (hR : R.length = tiles.length)
    (hRs : WellShaped R) (hSs : WellShaped S)
    (hsame : ∀ i j, (placeAll (Board.new rows cols) tiles R).cells i j
      = (placeAll (Board.new rows cols) tiles S).cells i j) :
    ∀ loc ∈ R, loc ∈ S := by
  intro loc hloc
  obtain ⟨k, hk⟩ := List.mem_iff_getElem?.mp hloc
  have hklt : k < R.length := by
    by_contra hge
    rw [List.getElem?_eq_none_iff.mpr (by omega)] at hk
    simp at hk
  have ht : tiles[k]? = some (tiles.getD k tilePasture) :=
    getElem?_eq_some_getD tiles k tilePasture (by omega)
  have hcell := placeAll_cells_at tiles R (Board.new rows cols) k loc _ hRs.1 hk ht
  rw [hsame] at hcell
  rcases placeAll_cells_some tiles S (Board.new rows cols) _ _ _ hcell with h1 | ⟨p, hp, h1, h2, h3⟩
  · simp [Board.new] at h1
  · have hp1 : p.1 ∈ tiles := (List.of_mem_zip hp).1
    have hp2 : p.2 ∈ S := (List.of_mem_zip hp).2
    have ht1 : tiles.getD k tilePasture ∈ tiles := List.getElem?_mem ht
    obtain ⟨n, hn, hrot⟩ := hRs.2 loc hloc
    obtain ⟨n1, hn1, hrot1⟩ := hSs.2 p.2 hp2
    rw [hrot, hrot1, ninety_mul_div, ninety_mul_div] at h3
    obtain ⟨-, hnn⟩ := hrigid _ ht1 _ hp1 n hn n1 hn1 h3
    have : p.2 = loc := by
      cases hq : p.2 with
      | mk r c rot =>
        rw [hq] at h1 h2 hrot1
        simp only at h1 h2 hrot1
        cases loc with
        | mk r1 c1 rot1 =>
          simp only at h1 h2 hrot
          simp only [Location.mk.injEq]
          exact ⟨h1, h2, by omega⟩
    rw [← this]
    exact hp2

theorem perm_of_same_board (rows cols : Nat) (tiles : List Tile) (R S : List Location)
    (hrigid : Rigid tiles) (hR : R.length = tiles.length) (hS : S.length = tiles.length)
    (hRs : WellShaped R) (hSs : WellShaped S)
    (hsame : ∀ i j, (placeAll (Board.new rows cols) tiles R).cells i j
      = (placeAll (Board.new rows cols) tiles S).cells i j) :
    S.Perm R := by
  have hsub := subset_of_same_board rows cols tiles R S hrigid hR hRs hSs hsame
  have hRn := nodup_of_distinct_cells R hRs.1
  have hsp : List.Subperm R S := List.subperm_of_subset hRn hsub
  exact (hsp.perm_of_length_le (by omega)).symm

theorem all_solutions_step_Results (tiles : List Tile) (allow : Bool) (st st1 : MainState)
    (h : all_solutions_step tiles allow st = some (some st1)) :
    ∃ s, Can_place st.search.board tiles st.search.locations 0 allow
        st.search.temp_Solutions st.num_Solutions = some (true, s) ∧
      (st1.Results = st.Results ∨ st1.Results = st.Results ++ [s.locations]) := by
  unfold all_solutions_step at h
  cases hcp : Can_place st.search.board tiles st.search.locations 0 allow
      st.search.temp_Solutions st.num_Solutions with
  | none => rw [hcp] at h; simp at h
  | some r =>
    obtain ⟨b, s⟩ := r
    rw [hcp] at h
    cases b with
    | false => simp at h
    | true =>
      simp only at h
      cases hd : duplicateCount tiles st.total_Solutions st.Results s.locations with
      | none => rw [hd] at h; simp at h
      | some c =>
        rw [hd] at h
        simp only [Option.some.injEq] at h
        subst h
        refine ⟨s, rfl, ?_⟩
        by_cases hc : c ≠ tiles.length
        · right; simp [hc]
        · left; simp [hc]

theorem Can_place_WellShaped (rows cols : Nat) (tiles : List Tile) (allow : Bool)
    (temp num : Int) (s : SearchState)
    (h : Can_place (Board.new rows cols) tiles [] 0 allow temp num = some (true, s)) :
    WellShaped s.locations := by
  obtain ⟨-, -, hlen, hk, -, -, hpw⟩ := Can_place_ShapeInv rows cols tiles allow temp num s h
  refine ⟨hpw, ?_⟩
  intro loc hloc
  obtain ⟨k, hkl⟩ := List.mem_iff_getElem?.mp hloc
  have hklt : k < s.locations.length := by
    by_contra hge
    rw [List.getElem?_eq_none_iff.mpr (by omega)] at hkl
    simp at hkl
  obtain ⟨loc1, n, h1, h2, h3, -⟩ := hk k (tiles.getD k tilePasture) (by omega)
    (getElem?_eq_some_getD tiles k tilePasture (by omega))
  rw [hkl, Option.some.injEq] at h1
  subst h1
  refine ⟨n, ?_, h3⟩
  cases allow
  · simp at h2; omega
  · simpa using h2

theorem all_solutions_loop_shaped (rows cols : Nat) (tiles : List Tile) (allow : Bool) :
    ∀ (fuel : Nat) (st stf : MainState), LoopInv rows cols tiles st →
      (∀ X ∈ st.Results, WellShaped X) →
      all_solutions_loop tiles allow fuel st = some stf →
      LoopInv rows cols tiles stf ∧ ∀ X ∈ stf.Results, WellShaped X := by
  intro fuel
  induction fuel with
  | zero =>
    intro st stf _ _ h
    rw [all_solutions_loop] at h
    simp at h
  | succ fuel ih =>
    intro st stf hinv hshape h
    rw [all_solutions_loop_succ] at h
    cases hstep : all_solutions_step tiles allow st with
    | none => rw [hstep] at h; simp at h
    | some o =>
      rw [hstep] at h
      cases o with
      | none =>
        simp only [Option.some.injEq] at h
        subst h
        exact ⟨hinv, hshape⟩
      | some st1 =>
        simp only at h
        obtain ⟨s, hrun, hres⟩ := all_solutions_step_Results tiles allow st st1 hstep
        obtain ⟨st2, h1, h2, -⟩ := all_solutions_step_total rows cols tiles allow st s hinv hrun
        rw [hstep, Option.some.injEq, Option.some.injEq] at h1
        subst h1
        refine ih st1 stf h2 ?_ h
        have hws : WellShaped s.locations := by
          rw [hinv.1, hinv.2.1] at hrun
          exact Can_place_WellShaped rows cols tiles allow _ _ s hrun
        rcases hres with hres | hres
        · rw [hres]; exact hshape
        · rw [hres]
          intro X hX
          rcases List.mem_append.mp hX with h3 | h3
          · exact hshape X h3
          · rw [List.mem_singleton.mp h3]; exact hws

theorem all_solutions_loop_Results_grow (tiles : List Tile) (allow : Bool) :
    ∀ (fuel : Nat) (st stf : MainState),
      all_solutions_loop tiles allow fuel st = some stf → st.Results <+: stf.Results := by
  intro fuel
  induction fuel with
  | zero =>
    intro st stf h
    rw [all_solutions_loop] at h
    simp at h
  | succ fuel ih =>
    intro st stf h
    rw [all_solutions_loop_succ] at h
    cases hstep : all_solutions_step tiles allow st with
    | none => rw [hstep] at h; simp at h
    | some o =>
      rw [hstep] at h
      cases o with
      | none =>
        simp only [Option.some.injEq] at h
        subst h
        exact List.prefix_refl _
      | some st1 =>
        simp only at h
        obtain ⟨s, -, hres⟩ := all_solutions_step_Results tiles allow st st1 hstep
        have h1 := ih st1 stf h
        rcases hres with hres | hres
        · rw [hres] at h1; exact h1
        · rw [hres] at h1
          exact (List.prefix_append _ _).trans h1

/-- C26, as the code has it: in all-solutions mode, on a board with at least 2 rows and 2
columns, the loop returns, and of any two Solutions accepted into `Results` the later one is
not a duplicate of the earlier one under the test of `main` and does not consist of the same
Locations in another order. When the tile list is rigid (two rotated tiles of the list show
the same four terrains only if they are equal tiles in the same rotation), no two accepted
Solutions produce the same final board. -/
theorem accepted_Results_differ (rows cols : Nat) (tiles : List Tile) (allow_rotations : Bool)
    (fuel : Nat) (hrows : 2 ≤ rows) (hcols : 2 ≤ cols)
    (hfuel : (validPlacements (if allow_rotations then 4 else 1)
      (Board.new rows cols) tiles).length < fuel) :
    ∃ stf, all_solutions_loop tiles allow_rotations fuel
        ⟨⟨Board.new rows cols, [], 0⟩, 0, 0, []⟩ = some stf ∧
      stf.Results.Pairwise (fun R S =>
        ¬ isDuplicateOf tiles R S ∧ ¬ S.Perm R ∧
        (Rigid tiles →
          ¬ ∀ i j, (placeAll (Board.new rows cols) tiles R).cells i j
            = (placeAll (Board.new rows cols) tiles S).cells i j)) := by
  obtain ⟨stf, hrun, -, -, -⟩ :=
    all_solutions_loop_terminates rows cols tiles allow_rotations hrows hcols fuel hfuel
  obtain ⟨hinv, hshape⟩ := all_solutions_loop_shaped rows cols tiles allow_rotations fuel _ stf
    (LoopInv_initial rows cols tiles) (fun X hX => by simp at hX) hrun
  refine ⟨stf, hrun, ?_⟩
  obtain ⟨-, -, -, -, hlen, hpw⟩ := hinv
  have hpw2 : stf.Results.Pairwise (fun R S => R ∈ stf.Results ∧ S ∈ stf.Results) :=
    List.pairwise_of_forall_mem_list (fun a ha b hb => ⟨ha, hb⟩)
  refine (hpw.and hpw2).imp ?_
  rintro R S ⟨hnd, hRm, hSm⟩
  have hperm : ¬ S.Perm R := by
    intro hperm
    apply hnd
    left
    exact countEqualPairs_of_perm _ R S (hlen R hRm)
      (nodup_of_distinct_cells R (hshape R hRm).1) hperm
  refine ⟨hnd, hperm, fun hrigid hsame => hperm ?_⟩
  exact perm_of_same_board rows cols tiles R S hrigid (hlen R hRm) (hlen S hSm)
    (hshape R hRm) (hshape S hSm) hsame

theorem validPlacements_threeTiles :
    (validPlacements 4 (Board.new 2 2) threeTiles).length = 4 := by
  decide

/-- An instance of C26: the three tiles of the L shape are rigid; on a 2 by 2 board with
rotations the loop returns, and the accepted Solutions produce pairwise different boards. -/
theorem accepted_Results_differ_witness :
    Rigid threeTiles ∧
    ∃ stf, all_solutions_loop threeTiles true 5 ⟨⟨Board.new 2 2, [], 0⟩, 0, 0, []⟩
        = some stf ∧
      stf.Results.Pairwise (fun R S =>
        ¬ ∀ i j, (placeAll (Board.new 2 2) threeTiles R).cells i j
          = (placeAll (Board.new 2 2) threeTiles S).cells i j) := by
  have hrigid : Rigid threeTiles := by decide
  obtain ⟨stf, h1, h2⟩ := accepted_Results_differ 2 2 threeTiles true 5 (by decide) (by decide)
    (by rw [if_pos rfl, validPlacements_threeTiles]; decide)
  exact ⟨hrigid, stf, h1, h2.imp fun h => h.2.2 hrigid⟩

/-! ## A board that is accepted twice -/

theorem run_of_map (o : Option (Bool × SearchState)) (b : Bool) (L : List Location)
    (h : o.map (fun r => (r.1, r.2.locations)) = some (b, L)) :
    ∃ s, o = some (b, s) ∧ s.locations = L := by
  cases o with
  | none => simp at h
  | some r =>
    obtain ⟨b1, s⟩ := r
    simp only [Option.map_some', Option.some.injEq, Prod.mk.injEq] at h
    obtain ⟨rfl, rfl⟩ := h
    exact ⟨s, rfl, rfl⟩

set_option maxHeartbeats 1000000 in
theorem fourPastures_first_pass :
    (Can_place (Board.new 2 2) fourPastures [] 0 true 0 0).map
      (fun r => (r.1, r.2.locations)) = some (true, solutionUpright) := by
  decide

set_option maxHeartbeats 1000000 in
theorem fourPastures_second_pass :
    (Can_place (Board.new 2 2) fourPastures [] 0 true 0 1).map
      (fun r => (r.1, r.2.locations)) = some (true, solutionTurned) := by
  decide

theorem fourPastures_not_duplicate :
    ¬ isDuplicateOf fourPastures solutionUpright solutionTurned := by
  decide

theorem fourPastures_two_passes :
    ∃ st1 st2,
      all_solutions_step fourPastures true ⟨⟨Board.new 2 2, [], 0⟩, 0, 0, []⟩
        = some (some st1) ∧
      all_solutions_step fourPastures true st1 = some (some st2) ∧
      st2.Results = [solutionUpright, solutionTurned] := by
  obtain ⟨s1, hrun1, hloc1⟩ := run_of_map _ _ _ fourPastures_first_pass
  obtain ⟨st1, hstep1, hinv1, hnum1, hacc1, -⟩ :=
    all_solutions_step_spec 2 2 fourPastures true ⟨⟨Board.new 2 2, [], 0⟩, 0, 0, []⟩ s1
      (by decide) (LoopInv_initial 2 2 fourPastures) hrun1
  have hres1 : st1.Results = [solutionUpright] := by
    rw [(hacc1 (fun R hR => by simp at hR)).1, hloc1]
    rfl
  obtain ⟨s2, hrun2, hloc2⟩ := run_of_map _ _ _ fourPastures_second_pass
  have hrun2a : Can_place st1.search.board fourPastures st1.search.locations 0 true
      st1.search.temp_Solutions st1.num_Solutions = some (true, s2) := by
    rw [hinv1.1, hinv1.2.1, hinv1.2.2.1, hnum1]
    exact hrun2
  obtain ⟨st2, hstep2, -, -, hacc2, -⟩ :=
    all_solutions_step_spec 2 2 fourPastures true st1 s2 (by decide) hinv1 hrun2a
  refine ⟨st1, st2, hstep1, hstep2, ?_⟩
  rw [(hacc2 (fun R hR => by
    rw [hres1, List.mem_singleton] at hR
    rw [hR, hloc2]
    exact fourPastures_not_duplicate)).1, hres1, hloc2]
  rfl

/-- Two accepted Solutions with the same final board: for four pasture tiles on the 2 by 2
board that `main` searches, in all-solutions mode with rotations allowed, the first two passes
of the loop accept the Solution with no tile rotated and the Solution with the last tile rotated
by 90 degrees; both are in `Results` whenever the loop returns, and it does return. The two
Solutions differ and produce the same board. -/
theorem same_board_accepted_twice :
    (main_board 2 2 fourPastures).map (fun b => (b.numRows, b.numColumns)) = some (2, 2) ∧
    solutionUpright ≠ solutionTurned ∧
    (∀ i j, (placeAll (Board.new 2 2) fourPastures solutionUpright).cells i j
      = (placeAll (Board.new 2 2) fourPastures solutionTurned).cells i j) ∧
    (∃ st, stateAtPass fourPastures true ⟨⟨Board.new 2 2, [], 0⟩, 0, 0, []⟩ 2 = some st ∧
      st.Results = [solutionUpright, solutionTurned]) ∧
    (∀ fuel stf, all_solutions_loop fourPastures true fuel ⟨⟨Board.new 2 2, [], 0⟩, 0, 0, []⟩
        = some stf →
      solutionUpright ∈ stf.Results ∧ solutionTurned ∈ stf.Results) ∧
    (∃ fuel stf, all_solutions_loop fourPastures true fuel ⟨⟨Board.new 2 2, [], 0⟩, 0, 0, []⟩
      = some stf) := by
  obtain ⟨st1, st2, hstep1, hstep2, hres⟩ := fourPastures_two_passes
  refine ⟨by decide, by decide, fun i j => rfl, ⟨st2, ?_, hres⟩, ?_, ?_⟩
  · rw [stateAtPass, stateAtPass, stateAtPass]
    simp only [hstep1, hstep2]
  · intro fuel stf h
    cases fuel with
    | zero => rw [all_solutions_loop] at h; simp at h
    | succ f =>
      rw [all_solutions_loop_succ, hstep1] at h
      simp only at h
      cases f with
      | zero => rw [all_solutions_loop] at h; simp at h
      | succ g =>
        rw [all_solutions_loop_succ, hstep2] at h
        simp only at h
        have hp := all_solutions_loop_Results_grow fourPastures true g st2 stf h
        rw [hres] at hp
        exact ⟨hp.subset (by simp), hp.subset (by simp)⟩
  · obtain ⟨stf, h, -⟩ := all_solutions_loop_terminates 2 2 fourPastures true (by decide)
      (by decide) ((validPlacements 4 (Board.new 2 2) fourPastures).length + 1) (by simp)
    exact ⟨_, stf, h⟩

/-! ## The enumeration on boards of any size -/

theorem Check_cell_true_dims (board : Board) (i j : Nat) (t : Tile)
    (hi : i < board.numRows) (hj : j < board.numColumns)
    (h : Check_cell board i j = some true) (hcell : board.cells i j = some t) :
    2 ≤ board.numRows ∧ 2 ≤ board.numColumns := by
  unfold Check_cell at h
  have hget : board.getTile i j = some (some t) := by
    rw [board.getTile_of_lt hi hj, hcell]
  rw [hget] at h
  simp only [runChecks_cons_true_iff, runChecks_nil_true, and_true,
    whenB_true_iff, failIf_true_iff, matchOrElse_true_iff, emptyNeedsPasture_true_iff,
    Bool.and_eq_true, decide_eq_true_eq, beq_iff_eq] at h
  obtain ⟨h00, h0j, hi0, hij, -, -⟩ := h
  rcases Nat.eq_zero_or_pos i with hi1 | hi1
  · rcases Nat.eq_zero_or_pos j with hj1 | hj1
    · have h1 := (h00 ⟨hi1, hj1⟩).2.1.1
      have h2 := (h00 ⟨hi1, hj1⟩).2.2.1
      omega
    · have h1 := (h0j ⟨hi1, hj1⟩).2.2.2.1
      omega
  · rcases Nat.eq_zero_or_pos j with hj1 | hj1
    · have h1 := (hi0 ⟨hj1, hi1⟩).2.2.2.1
      omega
    · omega

theorem ValidPlacement_final (m : Nat) :
    ∀ (ts : List Tile) (board : Board) (ls : List Location), ValidPlacement m board ts ls →
      ∃ final : Board, final.numRows = board.numRows ∧ final.numColumns = board.numColumns ∧
        Check_all_cells final = some true ∧
        ∀ i j, board.cells i j ≠ none → final.cells i j ≠ none := by
  intro ts
  induction ts with
  | nil =>
    intro board ls h
    cases ls with
    | nil =>
      simp only [ValidPlacement] at h
      exact ⟨board, rfl, rfl, h, fun _ _ h1 => h1⟩
    | cons l ls => simp [ValidPlacement] at h
  | cons t ts ih =>
    intro board ls h
    cases ls with
    | nil => simp [ValidPlacement] at h
    | cons l ls =>
      simp only [ValidPlacement] at h
      obtain ⟨-, -, -, -, -, hrest⟩ := h
      obtain ⟨final, h1, h2, h3, h4⟩ := ih _ _ hrest
      refine ⟨final, h1, h2, h3, fun i j hne => h4 i j ?_⟩
      simp only [Board.setTile]
      split
      · simp
      · exact hne

theorem validPlacements_thin (m rows cols : Nat) (t : Tile) (ts : List Tile)
    (hthin : ¬ (2 ≤ rows ∧ 2 ≤ cols)) :
    validPlacements m (Board.new rows cols) (t :: ts) = [] := by
  apply List.eq_nil_iff_forall_not_mem.mpr
  intro ls hls
  rw [mem_validPlacements] at hls
  cases ls with
  | nil => simp [ValidPlacement] at hls
  | cons l ls =>
    simp only [ValidPlacement] at hls
    obtain ⟨hr, hc, -, -, -, hrest⟩ := hls
    obtain ⟨final, h1, h2, h3, h4⟩ := ValidPlacement_final m ts _ ls hrest
    have hne : final.cells l.row l.column ≠ none := by
      apply h4
      simp [Board.setTile]
    obtain ⟨u, hu⟩ := Option.ne_none_iff_exists'.mp hne
    have hr1 : l.row < final.numRows := by rw [h1]; exact hr
    have hc1 : l.column < final.numColumns := by rw [h2]; exact hc
    have hcell := (Check_all_cells_true_iff final).mp h3 l.row l.column hr1 hc1
    have hd := Check_cell_true_dims final l.row l.column u hr1 hc1 hcell hu
    rw [h1, h2] at hd
    exact hthin hd

theorem Can_place_loop_enumerates_of_some (num : Int)
    (recurse : SearchState → Option (Bool × SearchState)) (tile : Tile) (ts : List Tile)
    (m rows cols : Nat)
    (hrec : ∀ (b : Board) (locs : List Location) (temp : Int) (r : Bool × SearchState),
      b.numRows = rows → b.numColumns = cols → recurse ⟨b, locs, temp⟩ = some r →
      searchResult b ts locs temp num (validPlacements m b ts) = some r) :
    ∀ (l : List (Nat × Nat × Nat)), (∀ x ∈ l, x.1 < rows ∧ x.2.1 < cols) →
      ∀ (board : Board) (locations : List Location) (temp : Int) (r : Bool × SearchState),
        board.numRows = rows → board.numColumns = cols →
        Can_place_loop recurse tile l ⟨board, locations, temp⟩ = some r →
        searchResult board (tile :: ts) locations temp num
          (l.flatMap fun x =>
            if board.cells x.1 x.2.1 = none ∧
                Check_tile board (rotatedTile tile x.2.2) x.1 x.2.1 = some true then
              (validPlacements m (board.setTile x.1 x.2.1 (rotatedTile tile x.2.2)) ts).map
                fun ls => ⟨x.1, x.2.1, 90 * x.2.2⟩ :: ls
            else []) = some r := by
  intro l
  induction l with
  | nil =>
    intro _ board locations temp r _ _ h
    rw [Can_place_loop] at h
    rw [List.flatMap_nil, searchResult_nil]
    exact h
  | cons x rest ih =>
    intro hl board locations temp r hbr hbc h
    obtain ⟨i, j, n⟩ := x
    have hij := hl (i, j, n) (List.mem_cons_self _ _)
    simp only at hij
    have hrest : ∀ x ∈ rest, x.1 < rows ∧ x.2.1 < cols :=
      fun x hx => hl x (List.mem_cons_of_mem _ hx)
    have hget : board.getTile i j = some (board.cells i j) :=
      board.getTile_of_lt (by omega) (by omega)
    rw [Can_place_loop] at h
    simp only at h
    rw [hget] at h
    rw [List.flatMap_cons]
    simp only
    cases hcell : board.cells i j with
    | some u =>
      rw [hcell] at h
      simp only at h
      rw [if_neg (by simp), List.nil_append]
      exact ih hrest board locations temp r hbr hbc h
    | none =>
      rw [hcell] at h
      simp only at h
      cases hck : Check_tile board (rotatedTile tile n) i j with
      | none => rw [hck] at h; simp at h
      | some ok =>
        rw [hck] at h
        cases ok with
        | false =>
          simp only at h
          rw [if_neg (by simp), List.nil_append]
          exact ih hrest board locations temp r hbr hbc h
        | true =>
          simp only at h
          rw [if_pos ⟨rfl, rfl⟩]
          cases hre : recurse ⟨board.setTile i j (rotatedTile tile n),
              locations ++ [⟨i, j, 90 * n⟩], temp⟩ with
          | none => rw [hre] at h; simp at h
          | some r1 =>
            have hsr := hrec _ _ _ r1 (by exact hbr) (by exact hbc) hre
            rw [hre] at h
            cases hw : (validPlacements m (board.setTile i j (rotatedTile tile n)) ts)[
                (num - temp).toNat]? with
            | some ls =>
              rw [searchResult_of_some _ _ _ _ _ _ ls hw, Option.some.injEq] at hsr
              subst hsr
              simp only [Option.some.injEq] at h
              subst h
              rw [searchResult_of_some _ _ _ _ _ _ (⟨i, j, 90 * n⟩ :: ls)
                (by
                  have hlt : (num - temp).toNat <
                      (validPlacements m (board.setTile i j (rotatedTile tile n)) ts).length := by
                    by_contra hge
                    rw [List.getElem?_eq_none_iff.mpr (by omega)] at hw
                    simp at hw
                  rw [List.getElem?_append_left (by rw [List.length_map]; exact hlt),
                    List.getElem?_map, hw]
                  rfl)]
              rw [placeAll]
              simp only [ninety_mul_div, List.append_assoc, List.singleton_append]
            | none =>
              rw [searchResult_of_none _ _ _ _ _ _ hw, Option.some.injEq] at hsr
              subst hsr
              simp only at h
              rw [Board.eraseTile_setTile board i j _ hcell, List.dropLast_concat] at h
              rw [searchResult_append_skip _ _ _ _ _ _ _
                  (by rw [List.getElem?_map, hw]; rfl),
                List.length_map]
              exact ih hrest board locations _ r hbr hbc h

theorem Can_place_fuel_enumerates_of_some (tiles : List Tile) (allow : Bool) (num : Int)
    (rows cols : Nat) :
    ∀ (fuel : Nat) (board : Board) (locations : List Location) (index : Nat) (temp : Int)
      (r : Bool × SearchState),
      board.numRows = rows → board.numColumns = cols → index ≤ tiles.length →
      Can_place_fuel fuel board tiles locations index allow temp num = some r →
      searchResult board (tiles.drop index) locations temp num
        (validPlacements (if allow then 4 else 1) board (tiles.drop index)) = some r := by
  have leaf : ∀ (fuel : Nat) (board : Board) (locations : List Location) (temp : Int)
      (r : Bool × SearchState),
      Can_place_fuel fuel board tiles locations tiles.length allow temp num = some r →
      searchResult board (tiles.drop tiles.length) locations temp num
        (validPlacements (if allow then 4 else 1) board (tiles.drop tiles.length)) = some r := by
    intro fuel board locations temp r h
    cases fuel <;>
    · rw [Can_place_fuel, if_pos rfl] at h
      rw [List.drop_length, validPlacements]
      unfold Check_the_whole_board at h
      cases hcc : Check_all_cells board with
      | none => rw [hcc] at h; simp at h
      | some ok =>
        rw [hcc] at h
        cases ok with
        | false =>
          simp only at h
          rw [if_neg (by simp), searchResult_nil]
          exact h
        | true =>
          simp only at h
          rw [if_pos rfl, ← h]
          by_cases hgt : temp + 1 > num
          · have hj : (num - temp).toNat = 0 := by omega
            rw [searchResult_of_some _ _ _ _ _ _ [] (by rw [hj]; rfl), hj]
            simp [placeAll, hgt]
          · have hj : 1 ≤ (num - temp).toNat := by omega
            rw [searchResult_of_none _ _ _ _ _ _ (by
              apply List.getElem?_eq_none_iff.mpr
              simpa using hj)]
            simp [hgt]
  intro fuel
  induction fuel with
  | zero =>
    intro board locations index temp r hbr hbc hle h
    by_cases hidx : index = tiles.length
    · subst hidx
      exact leaf 0 board locations temp r h
    · rw [Can_place_fuel, if_neg hidx] at h
      simp at h
  | succ fuel ih =>
    intro board locations index temp r hbr hbc hle h
    by_cases hidx : index = tiles.length
    · subst hidx
      exact leaf (fuel + 1) board locations temp r h
    · have hlt : index < tiles.length := by omega
      rw [Can_place_fuel, if_neg hidx] at h
      simp only at h
      rw [List.getElem?_eq_getElem hlt] at h
      simp only at h
      rw [List.drop_eq_getElem_cons hlt, validPlacements, hbr, hbc]
      have hm : (if (!allow) = true then 1 else 4) = (if allow = true then 4 else 1) := by
        cases allow <;> rfl
      rw [hm, hbr, hbc] at h
      exact Can_place_loop_enumerates_of_some num _ tiles[index] (tiles.drop (index + 1))
        (if allow = true then 4 else 1) rows cols
        (fun b locs temp1 r1 hb1 hb2 hr1 => ih b locs (index + 1) temp1 r1 hb1 hb2 (by omega) hr1)
        _ (fun x hx => by
          obtain ⟨h1, h2, -⟩ := (mem_scanOrder _ _ _ _).mp hx
          exact ⟨h1, h2⟩)
        board locations temp r hbr hbc h

theorem Can_place_eq_searchResult_of_some (rows cols : Nat) (tiles : List Tile) (allow : Bool)
    (num : Int) (r : Bool × SearchState)
    (h : Can_place (Board.new rows cols) tiles [] 0 allow 0 num = some r) :
    searchResult (Board.new rows cols) tiles [] 0 num
      (validPlacements (if allow then 4 else 1) (Board.new rows cols) tiles) = some r := by
  unfold Can_place at h
  exact Can_place_fuel_enumerates_of_some tiles allow num rows cols _ _ _ 0 0 r rfl rfl
    (by omega) h

theorem Can_place_true_sound (rows cols : Nat) (tiles : List Tile) (allow : Bool) (k : Nat)
    (s : SearchState)
    (h : Can_place (Board.new rows cols) tiles [] 0 allow 0 (k : Int) = some (true, s)) :
    (validPlacements (if allow then 4 else 1) (Board.new rows cols) tiles)[k]?
      = some s.locations := by
  have hsr := Can_place_eq_searchResult_of_some rows cols tiles allow k _ h
  have hj : ((k : Int) - 0).toNat = k := by omega
  cases hv : (validPlacements (if allow then 4 else 1) (Board.new rows cols) tiles)[k]? with
  | none =>
    rw [searchResult_of_none _ _ _ _ _ _ (by rw [hj, hv])] at hsr
    simp at hsr
  | some ls =>
    rw [searchResult_of_some _ _ _ _ _ _ ls (by rw [hj, hv]), Option.some.injEq,
      Prod.mk.injEq] at hsr
    rw [← hsr.2]
    simp

theorem Can_place_pass_of_isSome (rows cols : Nat) (tiles : List Tile) (allow : Bool) (k : Nat)
    (hsome : (Can_place (Board.new rows cols) tiles [] 0 allow 0 (k : Int)).isSome = true) :
    ∃ s, Can_place (Board.new rows cols) tiles [] 0 allow 0 (k : Int) =
        some (decide (k < (validPlacements (if allow then 4 else 1)
          (Board.new rows cols) tiles).length), s) ∧
      (k < (validPlacements (if allow then 4 else 1) (Board.new rows cols) tiles).length →
        (validPlacements (if allow then 4 else 1) (Board.new rows cols) tiles)[k]?
          = some s.locations) := by
  cases hrun : Can_place (Board.new rows cols) tiles [] 0 allow 0 (k : Int) with
  | none => rw [hrun] at hsome; simp at hsome
  | some r =>
    obtain ⟨b, s⟩ := r
    have hsr := Can_place_eq_searchResult_of_some rows cols tiles allow k _ hrun
    have hj : ((k : Int) - 0).toNat = k := by omega
    cases hv : (validPlacements (if allow then 4 else 1) (Board.new rows cols) tiles)[k]? with
    | none =>
      have hge := List.getElem?_eq_none_iff.mp hv
      rw [searchResult_of_none _ _ _ _ _ _ (by rw [hj, hv]), Option.some.injEq,
        Prod.mk.injEq] at hsr
      refine ⟨s, ?_, fun hlt => ?_⟩
      · rw [decide_eq_false (by omega), hsr.1]
      · omega
    | some ls =>
      have hlt : k < (validPlacements (if allow then 4 else 1)
          (Board.new rows cols) tiles).length := by
        by_contra hge
        rw [List.getElem?_eq_none_iff.mpr (by omega)] at hv
        simp at hv
      rw [searchResult_of_some _ _ _ _ _ _ ls (by rw [hj, hv]), Option.some.injEq,
        Prod.mk.injEq] at hsr
      refine ⟨s, ?_, fun _ => ?_⟩
      · rw [decide_eq_true hlt, hsr.1]
      · rw [← hsr.2]
        simp

/-! ## The boards that `main` builds -/

theorem scanOrder_eq_nil (rows cols m : Nat) (h : rows = 0 ∨ cols = 0) :
    scanOrder rows cols m = [] := by
  apply List.eq_nil_iff_forall_not_mem.mpr
  intro x hx
  obtain ⟨h1, h2, -⟩ := (mem_scanOrder _ _ _ _).mp hx
  omega

theorem Can_place_isSome_no_cells (rows cols : Nat) (tiles : List Tile) (allow : Bool)
    (temp num : Int) (h : rows = 0 ∨ cols = 0) :
    (Can_place (Board.new rows cols) tiles [] 0 allow temp num).isSome = true := by
  unfold Can_place
  cases tiles with
  | nil =>
    simp only [List.length_nil, Nat.sub_zero]
    rw [Can_place_fuel, if_pos (by rfl : 0 = ([] : List Tile).length)]
    unfold Check_the_whole_board
    rw [Check_all_cells_new]
    rfl
  | cons t ts =>
    simp only [List.length_cons, Nat.sub_zero]
    rw [Can_place_fuel, if_neg (by simp)]
    simp only [List.getElem?_cons_zero]
    rw [show (Board.new rows cols).numRows = rows from rfl,
      show (Board.new rows cols).numColumns = cols from rfl, scanOrder_eq_nil _ _ _ h,
      Can_place_loop]
    rfl

theorem Can_place_loop_skip (recurse : SearchState → Option (Bool × SearchState)) (tile : Tile)
    (s : SearchState) :
    ∀ (l : List (Nat × Nat × Nat)),
      (∀ x ∈ l, ∃ u, s.board.getTile x.1 x.2.1 = some (some u)) →
      Can_place_loop recurse tile l s = some (false, s) := by
  intro l
  induction l with
  | nil => intro _; rw [Can_place_loop]
  | cons x rest ih =>
    intro h
    obtain ⟨i, j, n⟩ := x
    obtain ⟨u, hu⟩ := h (i, j, n) (List.mem_cons_self _ _)
    simp only at hu
    rw [Can_place_loop, hu]
    exact ih (fun x hx => h x (List.mem_cons_of_mem _ hx))

theorem scanOrder_one_cell (m : Nat) (x : Nat × Nat × Nat) (hx : x ∈ scanOrder 1 1 m) :
    x.1 = 0 ∧ x.2.1 = 0 := by
  obtain ⟨h1, h2, -⟩ := (mem_scanOrder _ _ _ _).mp hx
  omega

theorem Can_place_fuel_occupied_cell (tiles : List Tile) (allow : Bool) (num : Int)
    (fuel : Nat) (board : Board) (locations : List Location) (index : Nat) (temp : Int)
    (u : Tile) (hr : board.numRows = 1) (hc : board.numColumns = 1)
    (hcell : board.cells 0 0 = some u) (hidx : index < tiles.length) :
    Can_place_fuel (fuel + 1) board tiles locations index allow temp num
      = some (false, ⟨board, locations, temp⟩) := by
  rw [Can_place_fuel, if_neg (by omega)]
  simp only
  rw [List.getElem?_eq_getElem hidx]
  simp only
  apply Can_place_loop_skip
  intro x hx
  rw [hr, hc] at hx
  obtain ⟨h1, h2⟩ := scanOrder_one_cell _ x hx
  refine ⟨u, ?_⟩
  rw [h1, h2]
  show board.getTile 0 0 = some (some u)
  rw [board.getTile_of_lt (by omega) (by omega), hcell]

theorem Check_tile_origin_isSome (board : Board) (tmp : Tile) :
    (Check_tile board tmp 0 0).isSome = true := by
  unfold Check_tile
  apply runChecks_isSome
  intro c hc
  simp only [List.mem_cons, List.mem_singleton, List.not_mem_nil, or_false] at hc
  rcases hc with rfl | rfl | rfl | rfl | rfl | rfl | rfl
  · exact whenB_isSome _ _ (fun _ => failIf_isSome _)
  · exact whenB_isSome _ _ (fun _ => failIf_isSome _)
  · exact whenB_isSome _ _ (fun _ => failIf_isSome _)
  · exact whenB_isSome _ _ (fun _ => failIf_isSome _)
  · apply whenB_isSome
    intro hg
    simp at hg
  · apply whenB_isSome
    intro hg
    simp at hg
  · apply whenB_isSome
    intro hg
    simp at hg

theorem Can_place_loop_one_cell (recurse : SearchState → Option (Bool × SearchState))
    (tile : Tile)
    (hrec : ∀ (b : Board) (locs : List Location) (temp : Int), b.numRows = 1 →
      b.numColumns = 1 → b.cells 0 0 ≠ none →
      recurse ⟨b, locs, temp⟩ = some (false, ⟨b, locs, temp⟩)) :
    ∀ (l : List (Nat × Nat × Nat)), (∀ x ∈ l, x.1 = 0 ∧ x.2.1 = 0) →
      ∀ (locations : List Location) (temp : Int),
        Can_place_loop recurse tile l ⟨Board.new 1 1, locations, temp⟩
          = some (false, ⟨Board.new 1 1, locations, temp⟩) := by
  intro l
  induction l with
  | nil => intro _ locations temp; rw [Can_place_loop]
  | cons x rest ih =>
    intro hl locations temp
    obtain ⟨i, j, n⟩ := x
    obtain ⟨hi, hj⟩ := hl (i, j, n) (List.mem_cons_self _ _)
    simp only at hi hj
    subst hi hj
    have hrest : ∀ x ∈ rest, x.1 = 0 ∧ x.2.1 = 0 :=
      fun x hx => hl x (List.mem_cons_of_mem _ hx)
    rw [Can_place_loop]
    simp only
    rw [show (Board.new 1 1).getTile 0 0 = some none from rfl]
    simp only
    have hsome := Check_tile_origin_isSome (Board.new 1 1) (rotatedTile tile n)
    cases hck : Check_tile (Board.new 1 1) (rotatedTile tile n) 0 0 with
    | none => rw [hck] at hsome; simp at hsome
    | some ok =>
      cases ok with
      | false => exact ih hrest locations temp
      | true =>
        simp only
        rw [hrec _ _ _ rfl rfl (by simp [Board.setTile])]
        simp only
        rw [Board.eraseTile_setTile _ 0 0 _ rfl, List.dropLast_concat]
        exact ih hrest locations temp

theorem Can_place_one_cell (tiles : List Tile) (allow : Bool) (temp num : Int)
    (h : 2 ≤ tiles.length) :
    Can_place (Board.new 1 1) tiles [] 0 allow temp num
      = some (false, ⟨Board.new 1 1, [], temp⟩) := by
  unfold Can_place
  obtain ⟨fuel, hfuel⟩ : ∃ fuel, tiles.length - 0 = fuel + 2 := ⟨tiles.length - 2, by omega⟩
  rw [hfuel, Can_place_fuel, if_neg (by omega)]
  simp only
  rw [List.getElem?_eq_getElem (by omega : 0 < tiles.length)]
  simp only
  apply Can_place_loop_one_cell
  · intro b locs temp1 hb1 hb2 hb3
    obtain ⟨u, hu⟩ := Option.ne_none_iff_exists'.mp hb3
    exact Can_place_fuel_occupied_cell tiles allow num fuel b locs 1 temp1 u hb1 hb2 hu
      (by omega)
  · intro x hx
    exact scanOrder_one_cell _ x hx

theorem Board.new_inj (a b rows cols : Nat) (h : Board.new a b = Board.new rows cols) :
    a = rows ∧ b = cols :=
  ⟨congrArg Board.numRows h, congrArg Board.numColumns h⟩

theorem main_board_cases (r c : Int) (tiles : List Tile) (board : Board)
    (h : main_board r c tiles = some board) :
    ∃ rows cols, board = Board.new rows cols ∧
      ((2 ≤ rows ∧ 2 ≤ cols) ∨ (rows = 0 ∧ cols = 0) ∨
        (rows = 1 ∧ cols = 1 ∧ 2 ≤ tiles.length)) := by
  by_cases hrej : r < 1 ∨ c < 1 ∨ r * c < (tiles.length : Int)
  · rw [main_board_rejects r c tiles hrej] at h
    simp at h
  · by_cases hbig : r + c > (tiles.length : Int)
    · rw [main_board_replaced r c tiles hrej hbig, Option.some.injEq] at h
      refine ⟨tiles.length / 2, tiles.length / 2, h.symm, ?_⟩
      omega
    · rw [main_board_kept r c tiles hrej (by omega), Option.some.injEq] at h
      refine ⟨r.toNat, c.toNat, h.symm, Or.inl ?_⟩
      have hr1 : 1 ≤ r := by omega
      have hc1 : 1 ≤ c := by omega
      have hprod : (tiles.length : Int) ≤ r * c := by omega
      have hr2 : 2 ≤ r := by
        by_contra hlt
        have : r = 1 := by omega
        subst this
        rw [one_mul] at hprod
        omega
      have hc2 : 2 ≤ c := by
        by_contra hlt
        have : c = 1 := by omega
        subst this
        rw [mul_one] at hprod
        omega
      omega

theorem Can_place_isSome_of_built (rows cols : Nat) (tiles : List Tile) (allow : Bool)
    (temp num : Int)
    (h : (2 ≤ rows ∧ 2 ≤ cols) ∨
      ∃ r c : Int, main_board r c tiles = some (Board.new rows cols)) :
    (Can_place (Board.new rows cols) tiles [] 0 allow temp num).isSome = true := by
  have hcases : (2 ≤ rows ∧ 2 ≤ cols) ∨ (rows = 0 ∧ cols = 0) ∨
      (rows = 1 ∧ cols = 1 ∧ 2 ≤ tiles.length) := by
    rcases h with h | ⟨r, c, h⟩
    · exact Or.inl h
    · obtain ⟨a, b, hab, hc⟩ := main_board_cases r c tiles _ h
      obtain ⟨rfl, rfl⟩ := Board.new_inj _ _ _ _ hab
      exact hc
  rcases hcases with ⟨hr, hc⟩ | ⟨hr, hc⟩ | ⟨hr, hc, hn⟩
  · unfold Can_place
    exact Can_place_fuel_isSome tiles allow num _ _ _ 0 temp hr hc (by omega) (by omega)
  · exact Can_place_isSome_no_cells rows cols tiles allow temp num (Or.inl hr)
  · subst hr hc
    rw [Can_place_one_cell tiles allow temp num hn]
    rfl

/-! ## The passes of the loop on the boards that `main` builds -/

theorem stateAtPass_spec_of_total (rows cols : Nat) (tiles : List Tile) (allow : Bool)
    (htot : ∀ k : Nat,
      (Can_place (Board.new rows cols) tiles [] 0 allow 0 (k : Int)).isSome = true) :
    ∀ k, k ≤ (validPlacements (if allow then 4 else 1) (Board.new rows cols) tiles).length →
      ∃ st, stateAtPass tiles allow ⟨⟨Board.new rows cols, [], 0⟩, 0, 0, []⟩ k = some st ∧
        LoopInv rows cols tiles st ∧ st.num_Solutions = (k : Int) := by
  intro k
  induction k with
  | zero =>
    intro _
    exact ⟨_, rfl, LoopInv_initial rows cols tiles, rfl⟩
  | succ k ih =>
    intro hk
    obtain ⟨st, hst, hinv, hnum⟩ := ih (by omega)
    obtain ⟨s, hrun, -⟩ := Can_place_pass_of_isSome rows cols tiles allow k (htot k)
    rw [decide_eq_true (by omega)] at hrun
    have hrun1 : Can_place st.search.board tiles st.search.locations 0 allow
        st.search.temp_Solutions st.num_Solutions = some (true, s) := by
      rw [hinv.1, hinv.2.1, hinv.2.2.1, hnum]
      exact hrun
    obtain ⟨st1, h1, h2, h3⟩ := all_solutions_step_total rows cols tiles allow st s hinv hrun1
    refine ⟨st1, ?_, h2, ?_⟩
    · rw [stateAtPass, hst]
      simp only
      rw [h1]
    · rw [h3, hnum]
      push_cast
      rfl

theorem all_solutions_step_last_of_total (rows cols : Nat) (tiles : List Tile) (allow : Bool)
    (htot : ∀ k : Nat,
      (Can_place (Board.new rows cols) tiles [] 0 allow 0 (k : Int)).isSome = true)
    (st : MainState) (hinv : LoopInv rows cols tiles st)
    (hnum : st.num_Solutions =
      ((validPlacements (if allow then 4 else 1) (Board.new rows cols) tiles).length : Int)) :
    all_solutions_step tiles allow st = some none := by
  obtain ⟨s, hrun, -⟩ := Can_place_pass_of_isSome rows cols tiles allow
    (validPlacements (if allow then 4 else 1) (Board.new rows cols) tiles).length (htot _)
  rw [decide_eq_false (by omega)] at hrun
  unfold all_solutions_step
  rw [hinv.1, hinv.2.1, hinv.2.2.1, hnum, hrun]

theorem passes_of_total (rows cols : Nat) (tiles : List Tile) (allow : Bool)
    (htot : ∀ k : Nat,
      (Can_place (Board.new rows cols) tiles [] 0 allow 0 (k : Int)).isSome = true) :
    (∀ k, k ≤ (validPlacements (if allow then 4 else 1) (Board.new rows cols) tiles).length →
      ∃ st, stateAtPass tiles allow ⟨⟨Board.new rows cols, [], 0⟩, 0, 0, []⟩ k = some st ∧
        st.search.board = Board.new rows cols ∧ st.search.locations = [] ∧
        st.search.temp_Solutions = 0 ∧ st.num_Solutions = (k : Int) ∧
        (k = (validPlacements (if allow then 4 else 1) (Board.new rows cols) tiles).length →
          all_solutions_step tiles allow st = some none)) ∧
    (∀ fuel, (validPlacements (if allow then 4 else 1) (Board.new rows cols) tiles).length
        < fuel →
      ∃ stf, all_solutions_loop tiles allow fuel ⟨⟨Board.new rows cols, [], 0⟩, 0, 0, []⟩
          = some stf ∧
        stf.num_Solutions = ((validPlacements (if allow then 4 else 1)
          (Board.new rows cols) tiles).length : Int)) := by
  constructor
  · intro k hk
    obtain ⟨st, hst, hinv, hnum⟩ := stateAtPass_spec_of_total rows cols tiles allow htot k hk
    refine ⟨st, hst, hinv.1, hinv.2.1, hinv.2.2.1, hnum, fun hlast => ?_⟩
    exact all_solutions_step_last_of_total rows cols tiles allow htot st hinv
      (by rw [hnum, hlast])
  · intro fuel hfuel
    obtain ⟨st, hst, hinv, hnum⟩ :=
      stateAtPass_spec_of_total rows cols tiles allow htot _ (le_refl _)
    refine ⟨st, ?_, hnum⟩
    obtain ⟨f, rfl⟩ : ∃ f, fuel =
        (validPlacements (if allow then 4 else 1) (Board.new rows cols) tiles).length
          + (f + 1) :=
      ⟨fuel - (validPlacements (if allow then 4 else 1) (Board.new rows cols) tiles).length - 1,
        by omega⟩
    rw [all_solutions_loop_of_stateAtPass tiles allow _ _ st hst, all_solutions_loop_succ,
      all_solutions_step_last_of_total rows cols tiles allow htot st hinv hnum]

theorem Can_place_true_iff (rows cols : Nat) (tiles : List Tile) (allow : Bool) (k : Nat) :
    (∃ s, Can_place (Board.new rows cols) tiles [] 0 allow 0 (k : Int) = some (true, s)) ↔
      k < (validPlacements (if allow then 4 else 1) (Board.new rows cols) tiles).length := by
  constructor
  · rintro ⟨s, hs⟩
    have hv := Can_place_true_sound rows cols tiles allow k s hs
    by_contra hge
    rw [List.getElem?_eq_none_iff.mpr (by omega)] at hv
    simp at hv
  · intro hlt
    by_cases h22 : 2 ≤ rows ∧ 2 ≤ cols
    · obtain ⟨s, hs, -⟩ := Can_place_pass rows cols tiles allow h22.1 h22.2 k
      rw [decide_eq_true hlt] at hs
      exact ⟨s, hs⟩
    · cases tiles with
      | nil =>
        obtain ⟨s, hs, -⟩ := Can_place_pass_of_isSome rows cols [] allow k (by
          unfold Can_place
          simp only [List.length_nil, Nat.sub_zero]
          rw [Can_place_fuel, if_pos (by rfl : 0 = ([] : List Tile).length)]
          unfold Check_the_whole_board
          rw [Check_all_cells_new]
          rfl)
        rw [decide_eq_true hlt] at hs
        exact ⟨s, hs⟩
      | cons t ts =>
        rw [validPlacements_thin _ rows cols t ts h22] at hlt
        simp at hlt

/-! ## Enumeration order and exhaustion -/

/-- C23: enumeration order and exhaustion, for the empty board of any size. The list
`validPlacements` holds the valid placements (every tile passed `Check_tile` on an empty cell at
the moment it was placed, and the final board passes the legality test of
`Check_the_whole_board`), each exactly once, in increasing lexicographic order (tile 0's cell
in row-major order, tile 0's rotation, then tile 1's cell and rotation, and so on). For every
`k`, `Can_place` started at index 0 on the empty board with `temp_Solutions = 0` and
`num_Solutions = k` returns true if and only if more than `k` valid placements exist, and then
the location stack is the placement number `k` of the list (counted from 0). On every board
that `main` builds, and on every board with at least 2 rows and 2 columns, `Can_place` returns
for every `k`, the all-solutions loop reaches pass `k` for every `k` up to the number of valid
placements, each pass starting from the empty board with `num_Solutions = k`, so pass `k`
examines placement number `k`; the pass after the last placement leaves the loop, and the loop
returns. -/
theorem Can_place_enumerates_valid_placements (rows cols : Nat) (tiles : List Tile)
    (allow_rotations : Bool) :
    (validPlacements (if allow_rotations then 4 else 1) (Board.new rows cols)
      tiles).Pairwise placementLt ∧
    (∀ ls, ls ∈ validPlacements (if allow_rotations then 4 else 1) (Board.new rows cols) tiles ↔
      ValidPlacement (if allow_rotations then 4 else 1) (Board.new rows cols) tiles ls) ∧
    (∀ k : Nat,
      ((∃ s, Can_place (Board.new rows cols) tiles [] 0 allow_rotations 0 (k : Int)
          = some (true, s)) ↔
        k < (validPlacements (if allow_rotations then 4 else 1)
          (Board.new rows cols) tiles).length) ∧
      (∀ s, Can_place (Board.new rows cols) tiles [] 0 allow_rotations 0 (k : Int)
          = some (true, s) →
        (validPlacements (if allow_rotations then 4 else 1) (Board.new rows cols) tiles)[k]?
          = some s.locations)) ∧
    (((2 ≤ rows ∧ 2 ≤ cols) ∨
        ∃ r c : Int, main_board r c tiles = some (Board.new rows cols)) →
      (∀ k : Nat, ∃ s,
        Can_place (Board.new rows cols) tiles [] 0 allow_rotations 0 (k : Int) =
          some (decide (k < (validPlacements (if allow_rotations then 4 else 1)
            (Board.new rows cols) tiles).length), s)) ∧
      (∀ k, k ≤ (validPlacements (if allow_rotations then 4 else 1)
          (Board.new rows cols) tiles).length →
        ∃ st, stateAtPass tiles allow_rotations ⟨⟨Board.new rows cols, [], 0⟩, 0, 0, []⟩ k
            = some st ∧
          st.search.board = Board.new rows cols ∧ st.search.locations = [] ∧
          st.search.temp_Solutions = 0 ∧ st.num_Solutions = (k : Int) ∧
          (k = (validPlacements (if allow_rotations then 4 else 1)
              (Board.new rows cols) tiles).length →
            all_solutions_step tiles allow_rotations st = some none)) ∧
      (∀ fuel, (validPlacements (if allow_rotations then 4 else 1)
          (Board.new rows cols) tiles).length < fuel →
        ∃ stf, all_solutions_loop tiles allow_rotations fuel
            ⟨⟨Board.new rows cols, [], 0⟩, 0, 0, []⟩ = some stf ∧
          stf.num_Solutions = ((validPlacements (if allow_rotations then 4 else 1)
            (Board.new rows cols) tiles).length : Int))) := by
  refine ⟨validPlacements_sorted _ _ _, mem_validPlacements _ _ _, fun k => ⟨?_, ?_⟩, ?_⟩
  · exact Can_place_true_iff rows cols tiles allow_rotations k
  · exact fun s hs => Can_place_true_sound rows cols tiles allow_rotations k s hs
  · intro hboard
    have htot : ∀ k : Nat,
        (Can_place (Board.new rows cols) tiles [] 0 allow_rotations 0 (k : Int)).isSome
          = true :=
      fun k => Can_place_isSome_of_built rows cols tiles allow_rotations 0 k hboard
    obtain ⟨h1, h2⟩ := passes_of_total rows cols tiles allow_rotations htot
    refine ⟨fun k => ?_, h1, h2⟩
    obtain ⟨s, hs, -⟩ := Can_place_pass_of_isSome rows cols tiles allow_rotations k (htot k)
    exact ⟨s, hs⟩

/-- An instance of C23: the two road tiles on a 2 by 2 board without rotations have two valid
placements, in row 0 and in row 1; the search with `num_Solutions = 1` returns the second one,
the search with `num_Solutions = 2` returns false, and the loop returns after three passes. On
the 1 by 1 board that `main` builds for two pasture tiles the loop returns after one pass. -/
theorem Can_place_enumerates_valid_placements_witness :
    validPlacements 1 (Board.new 2 2) twoRoadTiles
      = [[⟨0, 0, 0⟩, ⟨0, 1, 0⟩], [⟨1, 0, 0⟩, ⟨1, 1, 0⟩]] ∧
    (∀ s, Can_place (Board.new 2 2) twoRoadTiles [] 0 false 0 1 = some (true, s) →
      s.locations = [⟨1, 0, 0⟩, ⟨1, 1, 0⟩]) ∧
    (∃ s, Can_place (Board.new 2 2) twoRoadTiles [] 0 false 0 1 = some (true, s)) ∧
    (∃ s, Can_place (Board.new 2 2) twoRoadTiles [] 0 false 0 2 = some (false, s)) ∧
    (∃ stf, all_solutions_loop twoRoadTiles false 3 ⟨⟨Board.new 2 2, [], 0⟩, 0, 0, []⟩
        = some stf ∧ stf.num_Solutions = 2) ∧
    validPlacements 1 (Board.new 1 1) [tilePasture, tilePasture] = [] ∧
    ∃ stf, all_solutions_loop [tilePasture, tilePasture] false 1
        ⟨⟨Board.new 1 1, [], 0⟩, 0, 0, []⟩ = some stf ∧ stf.num_Solutions = 0 := by
  obtain ⟨-, -, h3, h4⟩ := Can_place_enumerates_valid_placements 2 2 twoRoadTiles false
  obtain ⟨h5, -, h6⟩ := h4 (Or.inl ⟨by decide, by decide⟩)
  simp only [Bool.false_eq_true, if_false, validPlacements_twoRoadTiles] at h3 h5 h6
  have hone : validPlacements 1 (Board.new 1 1) [tilePasture, tilePasture] = [] := by decide
  obtain ⟨-, -, -, h7⟩ :=
    Can_place_enumerates_valid_placements 1 1 [tilePasture, tilePasture] false
  obtain ⟨-, -, h8⟩ := h7 (Or.inr ⟨1, 2, main_board_replaced 1 2 _ (by decide) (by decide)⟩)
  simp only [Bool.false_eq_true, if_false, hone] at h8
  refine ⟨validPlacements_twoRoadTiles, ?_, ?_, ?_, ?_, hone, ?_⟩
  · intro s hs
    have := (h3 1).2 s (by simpa using hs)
    simp at this
    exact this.symm
  · obtain ⟨s, hs⟩ := (h3 1).1.mpr (by decide)
    exact ⟨s, by simpa using hs⟩
  · obtain ⟨s, hs⟩ := h5 2
    exact ⟨s, by simpa using hs⟩
  · obtain ⟨stf, h1, h2⟩ := h6 3 (by decide)
    exact ⟨stf, h1, by simpa using h2⟩
  · obtain ⟨stf, h1, h2⟩ := h8 1 (by decide)
    exact ⟨stf, h1, by simpa using h2⟩

/-! ## The search stays inside the grid -/

theorem main_search_returns (r c : Int) (tiles : List Tile) (all_solutions allow : Bool) :
    ∃ fuel, (main_search r c tiles all_solutions allow fuel).isSome = true := by
  cases hb : main_board r c tiles with
  | none =>
    refine ⟨0, ?_⟩
    rw [main_search_eq_main_board, hb]
    rfl
  | some board =>
    obtain ⟨rows, cols, rfl, -⟩ := main_board_cases r c tiles board hb
    have htot : ∀ num : Int,
        (Can_place (Board.new rows cols) tiles [] 0 allow 0 num).isSome = true :=
      fun num => Can_place_isSome_of_built rows cols tiles allow 0 num (Or.inr ⟨r, c, hb⟩)
    obtain ⟨-, hloop⟩ := passes_of_total rows cols tiles allow (fun k => htot k)
    obtain ⟨stf, hstf, -⟩ := hloop
      ((validPlacements (if allow then 4 else 1) (Board.new rows cols) tiles).length + 1)
      (by omega)
    refine ⟨(validPlacements (if allow then 4 else 1) (Board.new rows cols) tiles).length + 1,
      ?_⟩
    rw [main_search_eq_main_board, hb]
    simp only
    split
    · have h0 := htot 0
      cases hrun : Can_place (Board.new rows cols) tiles [] 0 allow 0 0 with
      | none => rw [hrun] at h0; simp at h0
      | some res =>
        obtain ⟨b, s⟩ := res
        cases b <;> rfl
    · rw [hstf]
      simp only
      split <;> rfl

/-- C19, as the code has it: the search that `main` runs stays inside the grid. On every board
that `main` builds for a request (the requested board, which then has at least 2 rows and 2
columns, or the board of `tiles.size() / 2` rows and columns), and on every board with at least
2 rows and 2 columns, `Can_place` started at index 0 on the empty board returns, so no call of
`getTile` made by `Can_place`, `Check_tile` and `Check_the_whole_board` on the way leaves the
grid. On a board with at least 2 rows and 2 columns this holds for every call of `Check_tile`
at a cell of the board, of `Check_the_whole_board` and of `Can_place`, whatever the board
holds. Every run of `main` on a tile list ends without a call outside the grid. -/
theorem search_stays_in_the_grid (rows cols : Nat) (tiles : List Tile) (allow_rotations : Bool)
    (temp_Solutions num_Solutions : Int)
    (hboard : (2 ≤ rows ∧ 2 ≤ cols) ∨
      ∃ r c : Int, main_board r c tiles = some (Board.new rows cols)) :
    (Can_place (Board.new rows cols) tiles [] 0 allow_rotations temp_Solutions
      num_Solutions).isSome = true ∧
    (2 ≤ rows → 2 ≤ cols → ∀ board : Board, board.numRows = rows → board.numColumns = cols →
      (∀ tmp i j, i < rows → j < cols → (Check_tile board tmp i j).isSome = true) ∧
      (Check_the_whole_board board temp_Solutions num_Solutions).isSome = true ∧
      ∀ locations index, index ≤ tiles.length →
        (Can_place board tiles locations index allow_rotations temp_Solutions
          num_Solutions).isSome = true) ∧
    (∀ (r c : Int) (all_solutions : Bool),
      ∃ fuel, (main_search r c tiles all_solutions allow_rotations fuel).isSome = true) := by
  refine ⟨Can_place_isSome_of_built rows cols tiles allow_rotations _ _ hboard, ?_,
    fun r c all_solutions => main_search_returns r c tiles all_solutions allow_rotations⟩
  intro hr hc board hbr hbc
  refine ⟨fun tmp i j hi hj => ?_, ?_, fun locations index hidx => ?_⟩
  · exact Check_tile_isSome board tmp i j (by omega) (by omega) (by omega) (by omega)
  · exact Check_the_whole_board_isSome board _ _ (by omega) (by omega)
  · unfold Can_place
    exact Can_place_fuel_isSome tiles allow_rotations _ _ board locations index _
      (by omega) (by omega) hidx (by omega)

/-- An instance of C19: for two pasture tiles and the request 1 by 2, `main` builds the 1 by 1
board, on which the search returns; the same on a 2 by 2 board. -/
theorem search_stays_in_the_grid_witness :
    (main_board 1 2 [tilePasture, tilePasture]).map (fun b => (b.numRows, b.numColumns))
      = some (1, 1) ∧
    (Can_place (Board.new 1 1) [tilePasture, tilePasture] [] 0 false 0 0).isSome = true ∧
    (Can_place (Board.new 2 2) twoRoadTiles [] 0 false 0 0).isSome = true :=
  ⟨by decide,
    (search_stays_in_the_grid 1 1 [tilePasture, tilePasture] false 0 0
      (Or.inr ⟨1, 2, main_board_replaced 1 2 _ (by decide) (by decide)⟩)).1,
    (search_stays_in_the_grid 2 2 twoRoadTiles false 0 0
      (Or.inl ⟨by decide, by decide⟩)).1⟩

/-! ## The order in which Solutions are found -/

theorem all_solutions_step_accept_step (tiles : List Tile) (allow : Bool) (st st1 : MainState)
    (htot : st.total_Solutions = st.Results.length)
    (h : all_solutions_step tiles allow st = some (some st1)) :
    ∃ s, Can_place st.search.board tiles st.search.locations 0 allow
        st.search.temp_Solutions st.num_Solutions = some (true, s) ∧
      accept_step tiles st.Results s.locations = some st1.Results := by
  unfold all_solutions_step at h
  cases hcp : Can_place st.search.board tiles st.search.locations 0 allow
      st.search.temp_Solutions st.num_Solutions with
  | none => rw [hcp] at h; simp at h
  | some r =>
    obtain ⟨b, s⟩ := r
    rw [hcp] at h
    cases b with
    | false => simp at h
    | true =>
      simp only at h
      rw [htot] at h
      cases hd : duplicateCount tiles st.Results.length st.Results s.locations with
      | none => rw [hd] at h; simp at h
      | some count =>
        rw [hd] at h
        simp only [Option.some.injEq] at h
        subst h
        refine ⟨s, rfl, ?_⟩
        unfold accept_step
        rw [hd]

/-- The set of accepted Results depends on the order in which Solutions are found: for two
pasture tiles, the Solutions (0,0),(0,1) and (0,1),(0,0) are duplicates of each other. Each of
the three Solutions below is a valid placement on the 2 by 2 board. When (0,0),(0,1) is found
first, the Solution (1,1),(1,0) is accepted after it, and two Results are accepted; when
(0,1),(0,0) is found first, (1,1),(1,0) is a duplicate of it, and one Result is accepted. -/
theorem accepted_Results_depend_on_order :
    locationsLeftRight ∈ validPlacements 1 (Board.new 2 2) [tilePasture, tilePasture] ∧
    locationsRightLeft ∈ validPlacements 1 (Board.new 2 2) [tilePasture, tilePasture] ∧
    locationsLowerRightLeft ∈ validPlacements 1 (Board.new 2 2) [tilePasture, tilePasture] ∧
    isDuplicateOf [tilePasture, tilePasture] locationsLeftRight locationsRightLeft ∧
    isDuplicateOf [tilePasture, tilePasture] locationsRightLeft locationsLeftRight ∧
    acceptedResults [tilePasture, tilePasture]
        [locationsLeftRight, locationsRightLeft, locationsLowerRightLeft]
      = some [locationsLeftRight, locationsLowerRightLeft] ∧
    acceptedResults [tilePasture, tilePasture]
        [locationsRightLeft, locationsLeftRight, locationsLowerRightLeft]
      = some [locationsRightLeft] ∧
    ¬ isDuplicateOf [tilePasture, tilePasture] locationsLeftRight locationsLowerRightLeft ∧
    isDuplicateOf [tilePasture, tilePasture] locationsRightLeft locationsLowerRightLeft := by
  refine ⟨by decide, by decide, by decide, by decide, by decide, by decide, by decide,
    by decide, by decide⟩

end Carcassonne

namespace Honeycomb

/-! ## The Lexicon as a set of words -/

theorem hash_lt (s : Word) (nbuckets : Nat) (h : 0 < nbuckets) : hash s nbuckets < nbuckets := by
  unfold hash
  have h1 : (0 : Int) < (nbuckets : Int) := by omega
  have h2 := Int.emod_lt_of_pos (hashcode s) h1
  have h3 := Int.emod_nonneg (hashcode s) (by omega : (nbuckets : Int) ≠ 0)
  omega

theorem mem_link_cell (hashtable : Nat → List Word) (nbuckets : Nat) (cell v : Word) (b : Nat) :
    v ∈ link_cell hashtable nbuckets cell b ↔
      v ∈ hashtable b ∨ (v = cell ∧ b = hash cell nbuckets) := by
  unfold link_cell
  by_cases he : (hashtable (hash cell nbuckets)).isEmpty = true
  · rw [if_pos he]
    have hnil : hashtable (hash cell nbuckets) = [] := List.isEmpty_iff.mp he
    by_cases hb : b = hash cell nbuckets
    · subst hb
      simp [hnil]
    · simp [hb]
  · rw [if_neg he]
    by_cases hb : b = hash cell nbuckets
    · subst hb
      simp
    · simp [hb]

theorem mem_foldl_link_cell (nbuckets : Nat) (v : Word) (b : Nat) :
    ∀ (cells : List Word) (tbl : Nat → List Word),
      v ∈ cells.foldl (fun tbl cur => link_cell tbl nbuckets cur) tbl b ↔
        v ∈ tbl b ∨ (v ∈ cells ∧ b = hash v nbuckets) := by
  intro cells
  induction cells with
  | nil => intro tbl; simp
  | cons c cells ih =>
    intro tbl
    rw [List.foldl_cons, ih, mem_link_cell]
    constructor
    · rintro ((h | ⟨rfl, hb⟩) | ⟨h, hb⟩)
      · exact Or.inl h
      · exact Or.inr ⟨List.mem_cons_self _ _, hb⟩
      · exact Or.inr ⟨List.mem_cons_of_mem _ h, hb⟩
    · rintro (h | ⟨h, hb⟩)
      · exact Or.inl (Or.inl h)
      · rcases List.mem_cons.mp h with rfl | h1
        · exact Or.inl (Or.inr ⟨rfl, hb⟩)
        · exact Or.inr ⟨h1, hb⟩

theorem mem_rehash_table (lex : Lexicon) (newsize : Nat) (v : Word) (b : Nat) :
    v ∈ rehash_table lex newsize b ↔
      (∃ i, i < lex.nbuckets ∧ v ∈ lex.hashtable i) ∧ b = hash v newsize := by
  unfold rehash_table
  have key : ∀ (k : Nat) ,
      v ∈ (List.range k).foldl (fun newtable i =>
        (lex.hashtable i).foldl (fun tbl cur => link_cell tbl newsize cur) newtable)
        (fun _ => []) b ↔
      (∃ i, i < k ∧ v ∈ lex.hashtable i) ∧ b = hash v newsize := by
    intro k
    induction k with
    | zero => simp
    | succ k ih =>
      rw [List.range_succ, List.foldl_append, List.foldl_cons, List.foldl_nil,
        mem_foldl_link_cell, ih]
      constructor
      · rintro (⟨⟨i, hi, hv⟩, hb⟩ | ⟨hv, hb⟩)
        · exact ⟨⟨i, by omega, hv⟩, hb⟩
        · exact ⟨⟨k, by omega, hv⟩, hb⟩
      · rintro ⟨⟨i, hi, hv⟩, hb⟩
        rcases Nat.lt_succ_iff_lt_or_eq.mp hi with hlt | rfl
        · exact Or.inl ⟨⟨i, hlt, hv⟩, hb⟩
        · exact Or.inr ⟨hv, hb⟩
  exact key lex.nbuckets

theorem lex_contains_iff (lex : Lexicon) (v : Word) :
    lex_contains lex v = true ↔ v ∈ lex.hashtable (hash v lex.nbuckets) := by
  unfold lex_contains get_cell
  rw [List.find?_isSome]
  constructor
  · rintro ⟨x, hx, hxv⟩
    have : x = v := by simpa using hxv
    rw [← this]
    rw [this] at hx ⊢
    exact hx
  · intro h
    exact ⟨v, h, by simp⟩

theorem lex_contains_iff_exists (lex : Lexicon) (hwf : WellHashed lex) (v : Word) :
    lex_contains lex v = true ↔ ∃ i, i < lex.nbuckets ∧ v ∈ lex.hashtable i := by
  rw [lex_contains_iff]
  constructor
  · intro h
    exact ⟨_, hash_lt v lex.nbuckets hwf.1, h⟩
  · rintro ⟨i, -, hv⟩
    rw [hwf.2 i v hv]
    exact hv

/-- When `check_rehash` returns, every word is contained after it exactly when it was before,
`nentries` is what it was, and every cell is again linked in the bucket of its hash. -/
theorem check_rehash_spec (lex lex1 : Lexicon) (hwf : WellHashed lex)
    (h : check_rehash lex = some lex1) :
    WellHashed lex1 ∧ lex1.nentries = lex.nentries ∧
      ∀ v, lex_contains lex1 v = lex_contains lex v := by
  unfold check_rehash at h
  by_cases hload : 2 * lex.nentries > 3 * lex.nbuckets
  · rw [if_pos hload] at h
    simp only at h
    by_cases hover : lex.nbuckets * 3 + 1 > INT_MAX
    · rw [if_pos hover] at h
      simp at h
    · rw [if_neg hover, Option.some.injEq] at h
      subst h
      have hwf1 : WellHashed ⟨lex.nentries, lex.nbuckets * 3 + 1,
          rehash_table lex (lex.nbuckets * 3 + 1)⟩ := by
        refine ⟨by simp, ?_⟩
        intro b w hw
        exact ((mem_rehash_table lex _ w b).mp hw).2.symm
      refine ⟨hwf1, rfl, ?_⟩
      intro v
      rw [Bool.eq_iff_iff, lex_contains_iff, lex_contains_iff_exists lex hwf, mem_rehash_table]
      simp
  · rw [if_neg hload, Option.some.injEq] at h
    subst h
    exact ⟨hwf, rfl, fun _ => rfl⟩

/-- When `lex_store` returns: it returns true exactly when the word was not contained, the word
is contained afterwards, no other word is affected, `nentries` grows by one exactly when true
is returned, and every cell is still linked in the bucket of its hash. -/
theorem lex_store_spec (lex lex1 : Lexicon) (w : Word) (b : Bool) (hwf : WellHashed lex)
    (h : lex_store lex w = some (b, lex1)) :
    WellHashed lex1 ∧ (b = true ↔ lex_contains lex w = false) ∧
      lex_contains lex1 w = true ∧ (∀ v, v ≠ w → lex_contains lex1 v = lex_contains lex v) ∧
      lex1.nentries = lex.nentries + (if b = true then 1 else 0) := by
  unfold lex_store at h
  by_cases hg : get_cell lex w = none
  · rw [if_pos hg] at h
    have hnot : lex_contains lex w = false := by
      unfold lex_contains
      rw [hg]
      rfl
    cases hr : check_rehash lex with
    | none => rw [hr] at h; simp at h
    | some lex2 =>
      rw [hr] at h
      simp only at h
      obtain ⟨hwf2, hn2, hc2⟩ := check_rehash_spec lex lex2 hwf hr
      by_cases hover : lex2.nentries + 1 > INT_MAX
      · rw [if_pos hover] at h
        simp at h
      · rw [if_neg hover, Option.some.injEq, Prod.mk.injEq] at h
        obtain ⟨rfl, rfl⟩ := h
        refine ⟨⟨hwf2.1, ?_⟩, ⟨fun _ => hnot, fun _ => rfl⟩, ?_, ?_, ?_⟩
        · intro b v hv
          rcases (mem_link_cell _ _ _ _ _).mp hv with h1 | ⟨rfl, hb⟩
          · exact hwf2.2 b v h1
          · exact hb.symm
        · rw [lex_contains_iff]
          exact (mem_link_cell _ _ _ _ _).mpr (Or.inr ⟨rfl, rfl⟩)
        · intro v hv
          rw [← hc2 v, Bool.eq_iff_iff, lex_contains_iff, lex_contains_iff]
          show v ∈ link_cell lex2.hashtable lex2.nbuckets w (hash v lex2.nbuckets) ↔ _
          rw [mem_link_cell]
          constructor
          · rintro (h1 | ⟨h1, -⟩)
            · exact h1
            · exact absurd h1 hv
          · exact fun h1 => Or.inl h1
        · show lex2.nentries + 1 = lex.nentries + (if true = true then 1 else 0)
          rw [hn2]
          rfl
  · rw [if_neg hg, Option.some.injEq, Prod.mk.injEq] at h
    obtain ⟨rfl, rfl⟩ := h
    have hyes : lex_contains lex w = true := by
      unfold lex_contains
      cases hgc : get_cell lex w with
      | none => exact absurd hgc hg
      | some c => rfl
    refine ⟨hwf, ⟨fun hb => by simp at hb, fun hc => by rw [hyes] at hc; simp at hc⟩, hyes,
      fun _ _ => rfl, rfl⟩

theorem WellHashed_create : WellHashed lex_create :=
  ⟨by decide, fun b w hw => by simp [lex_create] at hw⟩

theorem Reachable.wellHashed (lex : Lexicon) (h : Reachable lex) : WellHashed lex := by
  induction h with
  | create => exact WellHashed_create
  | store lex word b lex1 _ hstore ih => exact (lex_store_spec lex lex1 word b ih hstore).1

/-- As long as no `int` overflows, `lex_store` returns. -/
theorem lex_store_isSome (lex : Lexicon) (w : Word) (hn : lex.nentries < INT_MAX)
    (hb : 3 * lex.nbuckets + 1 ≤ INT_MAX) : (lex_store lex w).isSome = true := by
  unfold lex_store
  by_cases hg : get_cell lex w = none
  · rw [if_pos hg]
    have hr : ∃ lex2, check_rehash lex = some lex2 ∧ lex2.nentries = lex.nentries := by
      unfold check_rehash
      by_cases hload : 2 * lex.nentries > 3 * lex.nbuckets
      · rw [if_pos hload]
        simp only
        rw [if_neg (by omega)]
        exact ⟨_, rfl, rfl⟩
      · rw [if_neg hload]
        exact ⟨_, rfl, rfl⟩
    obtain ⟨lex2, hr2, hn2⟩ := hr
    rw [hr2]
    simp only
    rw [if_neg (by omega)]
    rfl
  · rw [if_neg hg]
    rfl

/-- C20: for a Lexicon reachable from `lex_create()` by `lex_store` calls and any word `w`,
`lex_store(lex, w)` returns as long as no `int` overflows, and whenever it returns, it returns
true if and only if `lex_contains(lex, w)` was false; afterwards `lex_contains(lex, w)` is
true, `lex_contains` is unchanged for every other word, and `nentries` has grown by one exactly
when true was returned. -/
theorem lex_store_set_semantics (lex : Lexicon) (w : Word) (hreach : Reachable lex) :
    (lex.nentries < INT_MAX → 3 * lex.nbuckets + 1 ≤ INT_MAX →
      (lex_store lex w).isSome = true) ∧
    ∀ b lex1, lex_store lex w = some (b, lex1) →
      (b = true ↔ lex_contains lex w = false) ∧
      lex_contains lex1 w = true ∧
      (∀ v, v ≠ w → lex_contains lex1 v = lex_contains lex v) ∧
      lex1.nentries = lex.nentries + (if b = true then 1 else 0) :=
  ⟨fun hn hb => lex_store_isSome lex w hn hb,
    fun b lex1 hs => (lex_store_spec lex lex1 w b (Reachable.wellHashed lex hreach) hs).2⟩

/-- An instance of C20: storing "hi" in the fresh Lexicon returns true, and "hi" is contained
afterwards. -/
theorem lex_store_set_semantics_witness :
    (lex_store lex_create wordHi).isSome = true ∧
    ∃ lex1, lex_store lex_create wordHi = some (true, lex1) ∧
      lex_contains lex1 wordHi = true ∧ lex1.nentries = 1 := by
  obtain ⟨h1, h2⟩ := lex_store_set_semantics lex_create wordHi Reachable.create
  refine ⟨h1 (by decide) (by decide), ?_⟩
  have hrun : lex_store lex_create wordHi = some (true,
      ⟨1, 199, link_cell lex_create.hashtable 199 wordHi⟩) := by
    rfl
  obtain ⟨-, h3, -, h4⟩ := h2 _ _ hrun
  exact ⟨_, hrun, h3, h4⟩

/-! ## Rehashing -/

theorem load_factor_iff (a b : Nat) (hb : 0 < b) :
    ((a : ℚ) / (b : ℚ) > 3 / 2) ↔ 2 * a > 3 * b := by
  have hb1 : (0 : ℚ) < (b : ℚ) := by exact_mod_cast hb
  rw [gt_iff_lt, lt_div_iff₀ hb1]
  constructor
  · intro h
    have h1 : ((3 * b : Nat) : ℚ) < ((2 * a : Nat) : ℚ) := by push_cast; linarith
    exact_mod_cast h1
  · intro h
    have h1 : ((3 * b : Nat) : ℚ) < ((2 * a : Nat) : ℚ) := by exact_mod_cast h
    push_cast at h1
    linarith

theorem check_rehash_cases (lex : Lexicon)
    (hsize : 2 * lex.nentries > 3 * lex.nbuckets → 3 * lex.nbuckets + 1 ≤ INT_MAX) :
    (2 * lex.nentries > 3 * lex.nbuckets ∧
      check_rehash lex = some ⟨lex.nentries, lex.nbuckets * 3 + 1,
        rehash_table lex (lex.nbuckets * 3 + 1)⟩) ∨
    (¬ 2 * lex.nentries > 3 * lex.nbuckets ∧ check_rehash lex = some lex) := by
  unfold check_rehash
  by_cases h : 2 * lex.nentries > 3 * lex.nbuckets
  · left
    refine ⟨h, ?_⟩
    rw [if_pos h]
    have := hsize h
    simp only
    rw [if_neg (by omega)]
  · right
    exact ⟨h, by rw [if_neg h]⟩

/-- C28: `check_rehash` preserves the contents of the Lexicon. For every Lexicon with at least
one bucket in which each cell is linked in the bucket indexed by the hash of its word, and for
which the new number of buckets fits an `int`, `check_rehash` returns; afterwards `lex_contains`
gives the same answer for every word, `nentries` is unchanged, each cell is linked in the bucket
indexed by its hash under the new `nbuckets`, `nbuckets` is `3 * nbuckets + 1` exactly when the
quotient `nentries / nbuckets` exceeded 1.5, and otherwise the Lexicon is unchanged. -/
theorem check_rehash_preserves (lex : Lexicon) (hwf : WellHashed lex)
    (hsize : 2 * lex.nentries > 3 * lex.nbuckets → 3 * lex.nbuckets + 1 ≤ INT_MAX) :
    ∃ lex1, check_rehash lex = some lex1 ∧
      (∀ w, lex_contains lex1 w = lex_contains lex w) ∧
      lex1.nentries = lex.nentries ∧ WellHashed lex1 ∧
      (lex1.nbuckets = 3 * lex.nbuckets + 1 ↔
        (lex.nentries : ℚ) / (lex.nbuckets : ℚ) > 3 / 2) ∧
      (¬ (lex.nentries : ℚ) / (lex.nbuckets : ℚ) > 3 / 2 → lex1 = lex) := by
  rw [load_factor_iff lex.nentries lex.nbuckets hwf.1]
  rcases check_rehash_cases lex hsize with ⟨hload, hrun⟩ | ⟨hload, hrun⟩
  · obtain ⟨h1, h2, h3⟩ := check_rehash_spec lex _ hwf hrun
    refine ⟨_, hrun, h3, h2, h1, ?_, fun h => absurd hload h⟩
    simp only [hload, iff_true]
    omega
  · obtain ⟨h1, h2, h3⟩ := check_rehash_spec lex _ hwf hrun
    refine ⟨_, hrun, h3, h2, h1, ?_, fun _ => rfl⟩
    simp only [hload, iff_false]
    omega

theorem WellHashed_lexCrowded : WellHashed lexCrowded := by
  refine ⟨by decide, ?_⟩
  intro b w hw
  have h1 : hash w 1 = 0 := by
    have := hash_lt w 1 (by decide)
    omega
  by_cases hb : b = 0
  · subst hb; exact h1
  · simp [lexCrowded, hb] at hw

/-- An instance of C28: a Lexicon with two entries in one bucket is rehashed into four
buckets. -/
theorem check_rehash_preserves_witness :
    ∃ lex1, check_rehash lexCrowded = some lex1 ∧
      (∀ w, lex_contains lex1 w = lex_contains lexCrowded w) ∧
      lex1.nentries = 2 ∧ lex1.nbuckets = 4 ∧ lex_contains lex1 wordA = true := by
  obtain ⟨lex1, h1, h2, h3, h4, h5, h6⟩ :=
    check_rehash_preserves lexCrowded WellHashed_lexCrowded (fun _ => by decide)
  refine ⟨lex1, h1, h2, h3, ?_, ?_⟩
  · have hrun : check_rehash lexCrowded = some ⟨2, 4, rehash_table lexCrowded 4⟩ := rfl
    rw [hrun] at h1
    rw [← Option.some.inj h1]
  · rw [h2]; rfl

/-! ## The hash function -/

theorem hashcode_range (s : Word) : 0 ≤ hashcode s ∧ hashcode s < 2 ^ 64 := by
  unfold hashcode
  induction s using List.reverseRecOn with
  | nil => simp
  | append_singleton s c ih =>
    rw [List.foldl_append]
    exact ⟨Int.emod_nonneg _ (by norm_num), Int.emod_lt_of_pos _ (by norm_num)⟩

theorem hashcode_append (s : Word) (c : Int) :
    hashcode (s ++ [c]) = (hashcode s * 2630849305 + c) % 2 ^ 64 := by
  unfold hashcode
  rw [List.foldl_append]
  rfl

/-- C30: for every string `s` and every positive `nbuckets`, `hash(s, nbuckets)` is a value
`r` with `0 ≤ r < nbuckets`, so a valid index into a hashtable of `nbuckets` buckets. It is the
remainder modulo `nbuckets` of `hashcode`, which starts at 0 and is updated for each character
with unsigned 64-bit wrap-around (`hashcode * MULTIPLIER + s[i]` modulo `2 ^ 64`), so it stays
in the range of `unsigned long`; `hash` is a function of `s` and `nbuckets` alone. -/
theorem hash_valid_index (s : Word) (nbuckets : Nat) (hpos : 0 < nbuckets) :
    hash s nbuckets < nbuckets ∧
    (hash s nbuckets : Int) = hashcode s % (nbuckets : Int) ∧
    (0 ≤ hashcode s ∧ hashcode s < 2 ^ 64) ∧
    hashcode [] = 0 ∧
    (∀ c : Int, hashcode (s ++ [c]) = (hashcode s * 2630849305 + c) % 2 ^ 64) ∧
    (∀ lex : Lexicon, lex.nbuckets = nbuckets →
      get_cell lex s = (lex.hashtable (hash s nbuckets)).find? fun w => w == s) := by
  refine ⟨hash_lt s nbuckets hpos, ?_, hashcode_range s, rfl, hashcode_append s, ?_⟩
  · unfold hash
    have h1 := Int.emod_nonneg (hashcode s) (by omega : (nbuckets : Int) ≠ 0)
    omega
  · intro lex hlex
    unfold get_cell
    rw [hlex]

/-- An instance of C30: the word "hi" and 199 buckets. -/
theorem hash_valid_index_witness :
    hash wordHi 199 < 199 ∧ hashcode wordHi = 273608327825 ∧ hash wordHi 199 = 45 :=
  ⟨(hash_valid_index wordHi 199 (by decide)).1, by decide, by decide⟩

/-! ## Filling the Lexicons -/

theorem lex_store_roomy (lex lex1 : Lexicon) (w : Word) (b : Bool)
    (h : lex_store lex w = some (b, lex1)) :
    lex1.nentries ≤ lex.nentries + 1 ∧ (Roomy lex → Roomy lex1) := by
  unfold lex_store at h
  by_cases hg : get_cell lex w = none
  · rw [if_pos hg] at h
    unfold check_rehash at h
    by_cases hload : 2 * lex.nentries > 3 * lex.nbuckets
    · rw [if_pos hload] at h
      simp only at h
      by_cases hbig : lex.nbuckets * 3 + 1 > INT_MAX
      · rw [if_pos hbig] at h; simp at h
      · rw [if_neg hbig] at h
        simp only at h
        by_cases hover : lex.nentries + 1 > INT_MAX
        · rw [if_pos hover] at h; simp at h
        · rw [if_neg hover, Option.some.injEq, Prod.mk.injEq] at h
          obtain ⟨-, rfl⟩ := h
          refine ⟨le_refl _, fun _ => ?_⟩
          unfold Roomy
          simp only
          omega
    · rw [if_neg hload] at h
      simp only at h
      by_cases hover : lex.nentries + 1 > INT_MAX
      · rw [if_pos hover] at h; simp at h
      · rw [if_neg hover, Option.some.injEq, Prod.mk.injEq] at h
        obtain ⟨-, rfl⟩ := h
        refine ⟨le_refl _, fun hr => ?_⟩
        unfold Roomy at hr ⊢
        simp only
        omega
  · rw [if_neg hg, Option.some.injEq, Prod.mk.injEq] at h
    obtain ⟨-, rfl⟩ := h
    exact ⟨by omega, fun hr => hr⟩

theorem lex_store_total (lex : Lexicon) (w : Word) (hr : Roomy lex)
    (hn : lex.nentries < ENTRY_BOUND) :
    ∃ b lex1, lex_store lex w = some (b, lex1) := by
  have hs : (lex_store lex w).isSome = true := by
    apply lex_store_isSome
    · unfold ENTRY_BOUND at hn; unfold INT_MAX; omega
    · unfold Roomy at hr; unfold ENTRY_BOUND at hn; unfold INT_MAX; omega
  cases hrun : lex_store lex w with
  | none => rw [hrun] at hs; simp at hs
  | some r => exact ⟨r.1, r.2, rfl⟩

theorem store_fragments_spec (buffer : Word) :
    ∀ (i : Nat) (fraglex fraglex1 : Lexicon), WellHashed fraglex →
      store_fragments buffer i fraglex = some fraglex1 →
      WellHashed fraglex1 ∧
      ∀ v, lex_contains fraglex1 v = true ↔
        lex_contains fraglex v = true ∨ ∃ k, 1 ≤ k ∧ k ≤ i ∧ v = buffer.take k := by
  intro i
  induction i with
  | zero =>
    intro fraglex fraglex1 hwf h
    rw [store_fragments, Option.some.injEq] at h
    subst h
    refine ⟨hwf, fun v => ⟨fun h => Or.inl h, ?_⟩⟩
    rintro (h | ⟨k, h1, h2, -⟩)
    · exact h
    · omega
  | succ i ih =>
    intro fraglex fraglex1 hwf h
    rw [store_fragments] at h
    cases hrun : lex_store fraglex (buffer.take (i + 1)) with
    | none => rw [hrun] at h; simp at h
    | some r =>
      obtain ⟨b, fraglex2⟩ := r
      rw [hrun] at h
      simp only at h
      obtain ⟨hwf2, -, hin, hother, -⟩ := lex_store_spec fraglex fraglex2 _ b hwf hrun
      obtain ⟨hwf1, hc⟩ := ih fraglex2 fraglex1 hwf2 h
      refine ⟨hwf1, fun v => ?_⟩
      rw [hc v]
      by_cases hv : v = buffer.take (i + 1)
      · subst hv
        constructor
        · intro _
          exact Or.inr ⟨i + 1, by omega, le_refl _, rfl⟩
        · intro _
          exact Or.inl hin
      · rw [hother v hv]
        constructor
        · rintro (h1 | ⟨k, h1, h2, h3⟩)
          · exact Or.inl h1
          · exact Or.inr ⟨k, h1, by omega, h3⟩
        · rintro (h1 | ⟨k, h1, h2, h3⟩)
          · exact Or.inl h1
          · refine Or.inr ⟨k, h1, ?_, h3⟩
            rcases Nat.lt_or_ge k (i + 1) with hk | hk
            · omega
            · have : k = i + 1 := by omega
              subst this
              exact absurd h3 hv

theorem store_fragments_total (buffer : Word) :
    ∀ (i : Nat) (fraglex : Lexicon), Roomy fraglex → fraglex.nentries + i < ENTRY_BOUND →
      ∃ fraglex1, store_fragments buffer i fraglex = some fraglex1 ∧
        fraglex1.nentries ≤ fraglex.nentries + i ∧ Roomy fraglex1 := by
  intro i
  induction i with
  | zero =>
    intro fraglex hr _
    exact ⟨fraglex, rfl, le_refl _, hr⟩
  | succ i ih =>
    intro fraglex hr hn
    obtain ⟨b, fraglex2, hrun⟩ := lex_store_total fraglex (buffer.take (i + 1)) hr (by omega)
    obtain ⟨h1, h2⟩ := lex_store_roomy fraglex fraglex2 _ b hrun
    obtain ⟨fraglex1, h3, h4, h5⟩ := ih fraglex2 (h2 hr) (by omega)
    refine ⟨fraglex1, ?_, by omega, h5⟩
    rw [store_fragments, hrun]
    exact h3

theorem lex_fill_spec :
    ∀ (file : List Word) (wordlex fraglex wordlex1 fraglex1 : Lexicon),
      WellHashed wordlex → WellHashed fraglex → FragmentsStored wordlex fraglex →
      lex_fill wordlex fraglex file = some (wordlex1, fraglex1) →
      WellHashed wordlex1 ∧ WellHashed fraglex1 ∧ FragmentsStored wordlex1 fraglex1 ∧
      (∀ w, lex_contains wordlex1 w = true ↔ lex_contains wordlex w = true ∨ w ∈ file) ∧
      (∀ v, lex_contains fraglex1 v = true ↔
        lex_contains fraglex v = true ∨
          ∃ w ∈ file, ∃ k, 1 ≤ k ∧ k < w.length ∧ v = w.take k) := by
  intro file
  induction file with
  | nil =>
    intro wordlex fraglex wordlex1 fraglex1 hw hf hfs h
    rw [lex_fill, Option.some.injEq, Prod.mk.injEq] at h
    obtain ⟨rfl, rfl⟩ := h
    refine ⟨hw, hf, hfs, fun w => by simp, fun v => by simp⟩
  | cons buffer file ih =>
    intro wordlex fraglex wordlex1 fraglex1 hw hf hfs h
    rw [lex_fill] at h
    by_cases hlong : buffer.length + 1 > MAX_WORD_LENGTH
    · rw [if_pos hlong] at h; simp at h
    · rw [if_neg hlong] at h
      cases hrun : lex_store wordlex buffer with
      | none => rw [hrun] at h; simp at h
      | some r =>
        obtain ⟨b, wordlex2⟩ := r
        obtain ⟨hw2, hb, hin, hother, -⟩ := lex_store_spec wordlex wordlex2 buffer b hw hrun
        rw [hrun] at h
        cases b with
        | true =>
          simp only at h
          cases hfr : store_fragments buffer (buffer.length - 1) fraglex with
          | none => rw [hfr] at h; simp at h
          | some fraglex2 =>
            rw [hfr] at h
            simp only at h
            obtain ⟨hf2, hc2⟩ := store_fragments_spec buffer _ fraglex fraglex2 hf hfr
            have hfs2 : FragmentsStored wordlex2 fraglex2 := by
              intro w hwin k hk1 hk2
              rw [hc2]
              by_cases hwb : w = buffer
              · subst hwb
                exact Or.inr ⟨k, hk1, by omega, rfl⟩
              · rw [hother w hwb] at hwin
                exact Or.inl (hfs w hwin k hk1 hk2)
            obtain ⟨h1, h2, h3, h4, h5⟩ := ih wordlex2 fraglex2 wordlex1 fraglex1 hw2 hf2 hfs2 h
            refine ⟨h1, h2, h3, fun w => ?_, fun v => ?_⟩
            · rw [h4 w, List.mem_cons]
              by_cases hwb : w = buffer
              · subst hwb
                simp [hin]
              · rw [hother w hwb]
                simp [hwb]
            · rw [h5 v, hc2 v]
              constructor
              · rintro ((h6 | ⟨k, hk1, hk2, hk3⟩) | ⟨w, hwf, k, hk1, hk2, hk3⟩)
                · exact Or.inl h6
                · exact Or.inr ⟨buffer, List.mem_cons_self _ _, k, hk1, by omega, hk3⟩
                · exact Or.inr ⟨w, List.mem_cons_of_mem _ hwf, k, hk1, hk2, hk3⟩
              · rintro (h6 | ⟨w, hwf, k, hk1, hk2, hk3⟩)
                · exact Or.inl (Or.inl h6)
                · rcases List.mem_cons.mp hwf with rfl | hwf1
                  · exact Or.inl (Or.inr ⟨k, hk1, by omega, hk3⟩)
                  · exact Or.inr ⟨w, hwf1, k, hk1, hk2, hk3⟩
        | false =>
          simp only at h
          have hwas : lex_contains wordlex buffer = true := by
            cases hc : lex_contains wordlex buffer with
            | true => rfl
            | false => exact absurd (hb.mpr hc) (by simp)
          have hsame : ∀ w, lex_contains wordlex2 w = lex_contains wordlex w := by
            intro w
            by_cases hwb : w = buffer
            · subst hwb; rw [hin, hwas]
            · exact hother w hwb
          have hfs2 : FragmentsStored wordlex2 fraglex := by
            intro w hwin k hk1 hk2
            rw [hsame w] at hwin
            exact hfs w hwin k hk1 hk2
          obtain ⟨h1, h2, h3, h4, h5⟩ := ih wordlex2 fraglex wordlex1 fraglex1 hw2 hf hfs2 h
          refine ⟨h1, h2, h3, fun w => ?_, fun v => ?_⟩
          · rw [h4 w, hsame w, List.mem_cons]
            constructor
            · rintro (h6 | h6)
              · exact Or.inl h6
              · exact Or.inr (Or.inr h6)
            · rintro (h6 | h6 | h6)
              · exact Or.inl h6
              · subst h6; exact Or.inl hwas
              · exact Or.inr h6
          · rw [h5 v]
            constructor
            · rintro (h6 | ⟨w, hwf, k, hk1, hk2, hk3⟩)
              · exact Or.inl h6
              · exact Or.inr ⟨w, List.mem_cons_of_mem _ hwf, k, hk1, hk2, hk3⟩
            · rintro (h6 | ⟨w, hwf, k, hk1, hk2, hk3⟩)
              · exact Or.inl h6
              · rcases List.mem_cons.mp hwf with rfl | hwf1
                · subst hk3
                  exact Or.inl (hfs w hwas k hk1 hk2)
                · exact Or.inr ⟨w, hwf1, k, hk1, hk2, hk3⟩

theorem lex_fill_total :
    ∀ (file : List Word) (wordlex fraglex : Lexicon), Roomy wordlex → Roomy fraglex →
      (∀ w ∈ file, w.length < MAX_WORD_LENGTH) →
      wordlex.nentries + file.length < ENTRY_BOUND →
      fraglex.nentries + (file.map List.length).sum < ENTRY_BOUND →
      ∃ wordlex1 fraglex1, lex_fill wordlex fraglex file = some (wordlex1, fraglex1) := by
  intro file
  induction file with
  | nil =>
    intro wordlex fraglex _ _ _ _ _
    exact ⟨wordlex, fraglex, rfl⟩
  | cons buffer file ih =>
    intro wordlex fraglex hrw hrf hlen hnw hnf
    have hb := hlen buffer (List.mem_cons_self _ _)
    simp only [List.length_cons, List.map_cons, List.sum_cons] at hnw hnf
    rw [lex_fill, if_neg (by omega)]
    obtain ⟨b, wordlex2, hrun⟩ := lex_store_total wordlex buffer hrw (by omega)
    obtain ⟨h1, h2⟩ := lex_store_roomy wordlex wordlex2 buffer b hrun
    rw [hrun]
    cases b with
    | true =>
      simp only
      obtain ⟨fraglex2, h3, h4, h5⟩ :=
        store_fragments_total buffer (buffer.length - 1) fraglex hrf (by omega)
      rw [h3]
      exact ih wordlex2 fraglex2 (h2 hrw) h5 (fun w hw => hlen w (List.mem_cons_of_mem _ hw))
        (by omega) (by omega)
    | false =>
      simp only
      exact ih wordlex2 fraglex (h2 hrw) hrf (fun w hw => hlen w (List.mem_cons_of_mem _ hw))
        (by omega) (by omega)

theorem lex_contains_create (w : Word) : lex_contains lex_create w = false := rfl

/-- C21, as the code has it: after `lex_fill` on two fresh Lexicons, for a file whose words
fit the buffer and whose size keeps the `int` fields in range, `wordlex` contains exactly the
words read from the file, and for every word `w` read and every `k` with `1 ≤ k < length(w)`
the substring of `w` of length `k` that starts at its first character is contained in
`fraglex`; `fraglex` contains nothing else, so a word read is in `fraglex` only when it is a
proper prefix of another word read. -/
theorem lex_fill_contents (file : List Word)
    (hfit : ∀ w ∈ file, w.length < MAX_WORD_LENGTH)
    (hsize : (file.map List.length).sum + file.length < ENTRY_BOUND) :
    ∃ wordlex fraglex, lex_fill lex_create lex_create file = some (wordlex, fraglex) ∧
      (∀ w, lex_contains wordlex w = true ↔ w ∈ file) ∧
      (∀ w ∈ file, ∀ k, 1 ≤ k → k < w.length → lex_contains fraglex (w.take k) = true) ∧
      (∀ v, lex_contains fraglex v = true ↔
        ∃ w ∈ file, ∃ k, 1 ≤ k ∧ k < w.length ∧ v = w.take k) := by
  obtain ⟨wordlex, fraglex, hrun⟩ := lex_fill_total file lex_create lex_create
    (by unfold Roomy lex_create; simp) (by unfold Roomy lex_create; simp) hfit
    (by show 0 + file.length < ENTRY_BOUND; omega)
    (by show 0 + (file.map List.length).sum < ENTRY_BOUND; omega)
  obtain ⟨-, -, h3, h4, h5⟩ := lex_fill_spec file lex_create lex_create wordlex fraglex
    WellHashed_create WellHashed_create (fun w hw => by rw [lex_contains_create] at hw; simp at hw)
    hrun
  refine ⟨wordlex, fraglex, hrun, fun w => ?_, fun w hw k hk1 hk2 => ?_, fun v => ?_⟩
  · rw [h4 w, lex_contains_create]; simp
  · exact h3 w ((h4 w).mpr (Or.inr hw)) k hk1 hk2
  · rw [h5 v, lex_contains_create]; simp

/-- An instance of C21: the file with the single word "hi". -/
theorem lex_fill_contents_witness :
    ∃ wordlex fraglex, lex_fill lex_create lex_create [wordHi] = some (wordlex, fraglex) ∧
      lex_contains wordlex wordHi = true ∧ lex_contains fraglex (wordHi.take 1) = true := by
  obtain ⟨wordlex, fraglex, h1, h2, h3, -⟩ :=
    lex_fill_contents [wordHi] (by decide) (by decide)
  exact ⟨wordlex, fraglex, h1, (h2 wordHi).mpr (by simp),
    h3 wordHi (by simp) 1 (le_refl _) (by decide)⟩

/-- The whole word is not stored in `fraglex`: after `lex_fill` on two fresh Lexicons and the
file with the single word "hi", `fraglex` does not contain the substring of length 2 of "hi"
that starts at its first character. -/
theorem lex_fill_omits_whole_word :
    ∃ wordlex fraglex, lex_fill lex_create lex_create [wordHi] = some (wordlex, fraglex) ∧
      wordHi ∈ [wordHi] ∧ 1 ≤ 2 ∧ 2 ≤ wordHi.length ∧
      lex_contains fraglex (wordHi.take 2) = false :=
  ⟨_, _, rfl, by decide, by decide, by decide, rfl⟩

/-! ## The Vector of found words -/

/-- C29: `find_words` writes beyond the array of found words. For the dictionary with the
single word "A" and the two-layer honeycomb whose seven cells all hold 'A', `main` fills
`wordlex` with one entry, so `vec_create` allocates one pointer; the search records "A" once per
cell, and the second write, `found->words[1]`, is outside the array. With room for seven
pointers the same search records seven words. -/
theorem find_words_overfills :
    main_find hcombAllA [wordA] = some (1, Except.error (Fault.outsideWords 1 1)) ∧
    ∃ wordlex fraglex fraglex1,
      lex_fill lex_create lex_create [wordA] = some (wordlex, fraglex) ∧
      lex_store fraglex [] = some (true, fraglex1) ∧ wordlex.nentries = 1 ∧
      (vec_create wordlex.nentries).allocated = 1 ∧
      find_words hcombAllA wordlex fraglex1 = Except.error (Fault.outsideWords 1 1) ∧
      (find_words_loop wordlex fraglex1 (startCells hcombAllA) (hcombAllA, vec_create 7)).map
        (fun r => (r.2.nelems, r.2.words)) =
        Except.ok (7, [wordA, wordA, wordA, wordA, wordA, wordA, wordA]) :=
  ⟨rfl, _, _, _, rfl, rfl, rfl, rfl, rfl, rfl⟩

end Honeycomb
